import Mathlib

/-!
# chest.h — open-addressing hash map (`CHEST_ENABLE_HM`)

A shallow embedding of the hash-map part of `src/chest.h` and a verification of
its probing, deletion and growth behaviour.  The dynamic array and the linked list
of the same header are embedded in sections of their own further down.

Modelling conventions.

* A table is the `HM_Generic` header (`cap`, `len`, `hash_fn`, `equal_fn`) together
  with the `data` pointer of the enclosing `HM(K, V)` struct.  `data = none` is the
  `NULL` pointer, `data = some d` a store whose slot `i` is the `i`-th element of `d`.
* `u64` values are natural numbers; every arithmetic operation of the source that
  could wrap is reduced modulo `2 ^ 64` explicitly (`u64`).
* `calloc` may fail: every operation that allocates takes a flag `alloc` saying
  whether the allocator can serve the request, and a request whose byte size
  `n * entry_size` is not representable in 64 bits fails as well.
* The capacity-rounding loop of `_hm_reserve` may fail to terminate; the operations
  that run it return `none` in that case.
* An access outside the store (undefined behaviour in C) reads a zero-filled slot
  and writes nothing; `hm_probe` guards the `NULL` store and capacity 0 itself.
* `entry_size` is `sizeof(HM_ENTRY(K, V))`, passed by the macros to every call; the
  struct has three members, so the theorems assume `3 ≤ entry_size`.
-/

namespace Chest

/-- Reduction of a natural number to the range of the C type `u64`. -/
def u64 (x : Nat) : Nat := x % 2 ^ 64

/-- The constant `UINT64_MAX`, used by `hm_probe` as the "no slot" sentinel. -/
def UINT64_MAX : Nat := 2 ^ 64 - 1

/-- The occupancy tag of a slot (`HM_State` with the anonymous enum of the source). -/
inductive HM_State where
  | HM_EMPTY
  | HM_FILLED
  | HM_TOMBSTONE
  deriving DecidableEq, Repr

open HM_State

/-- One slot of the store: `HM_ENTRY(K, V)`. -/
structure HM_Entry (K V : Type) where
  key : K
  value : V
  state : HM_State
  deriving DecidableEq

/-- The table: the fields of `HM_Generic` and the `data` pointer of `HM(K, V)`. -/
structure HM (K V : Type) where
  cap : Nat
  len : Nat
  hash_fn : K → Nat
  equal_fn : K → K → Bool
  data : Option (List (HM_Entry K V))

section Model

variable {K V : Type} [Inhabited K] [Inhabited V]

/-- A zero-filled slot, as produced by `calloc`: its tag is `HM_EMPTY` (= 0). -/
def zero_entry : HM_Entry K V := ⟨default, default, HM_EMPTY⟩

/-- The library call `calloc(n, entry_size)`: `none` is `NULL`.  It fails when the
allocator cannot serve the request (`alloc = false`) or when the byte size
`n * entry_size` is not representable; otherwise it returns `n` zero-filled slots. -/
def calloc (alloc : Bool) (n entry_size : Nat) : Option (List (HM_Entry K V)) :=
  if alloc = true ∧ n * entry_size < 2 ^ 64 then some (List.replicate n zero_entry) else none

/-- Reading slot `i` of a store: `(u8 *)data + i * entry_size`. -/
def slot (d : List (HM_Entry K V)) (i : Nat) : HM_Entry K V := d.getD i zero_entry

/-- The `for` loop of `hm_probe`; the first numeric argument is the number of probes
that remain (`hm->cap - probes`), then `idx` and `first_tombstone`. -/
def hm_probe_loop (equal_fn : K → K → Bool) (d : List (HM_Entry K V)) (mask : Nat) (key : K) :
    Nat → Nat → Nat → Nat × Bool
  | 0, _, first_tombstone => (first_tombstone, false)
  | probes + 1, idx, first_tombstone =>
    if (slot d idx).state = HM_EMPTY then
      ((if first_tombstone ≠ UINT64_MAX then first_tombstone else idx), false)
    else if (slot d idx).state = HM_TOMBSTONE then
      hm_probe_loop equal_fn d mask key probes ((idx + 1) &&& mask)
        (if first_tombstone = UINT64_MAX then idx else first_tombstone)
    else if equal_fn (slot d idx).key key = true then (idx, true)
    else hm_probe_loop equal_fn d mask key probes ((idx + 1) &&& mask) first_tombstone

/-- The function `hm_probe`: returns the slot index and the `found` flag. -/
def hm_probe (hm : HM K V) (hash : Nat) (key : K) : Nat × Bool :=
  match hm.data with
  | none => (UINT64_MAX, false)
  | some d =>
    if hm.cap = 0 then (UINT64_MAX, false)
    else hm_probe_loop hm.equal_fn d (hm.cap - 1) key hm.cap (hash &&& (hm.cap - 1)) UINT64_MAX

/-- The number of slots the `for` loop of `hm_probe` examines, one in each iteration;
the arguments are those of `hm_probe_loop`. -/
def hm_probe_loop_count (equal_fn : K → K → Bool) (d : List (HM_Entry K V)) (mask : Nat)
    (key : K) : Nat → Nat → Nat
  | 0, _ => 0
  | probes + 1, idx =>
    if (slot d idx).state = HM_EMPTY then 1
    else if (slot d idx).state = HM_TOMBSTONE then
      1 + hm_probe_loop_count equal_fn d mask key probes ((idx + 1) &&& mask)
    else if equal_fn (slot d idx).key key = true then 1
    else 1 + hm_probe_loop_count equal_fn d mask key probes ((idx + 1) &&& mask)

/-- The number of slots a call of `hm_probe` examines. -/
def hm_probe_examined (hm : HM K V) (hash : Nat) (key : K) : Nat :=
  match hm.data with
  | none => 0
  | some d =>
    if hm.cap = 0 then 0
    else hm_probe_loop_count hm.equal_fn d (hm.cap - 1) key hm.cap (hash &&& (hm.cap - 1))

/-- The rounding loop of `_hm_reserve`: `while (cap < new_cap) cap <<= 1;` in `u64`
arithmetic.  The first argument is fuel; `none` means the fuel ran out. -/
def hm_reserve_round : Nat → Nat → Nat → Option Nat
  | 0, _, _ => none
  | fuel + 1, cap, new_cap =>
    if cap < new_cap then hm_reserve_round fuel (u64 (cap <<< 1)) new_cap else some cap

/-- One iteration of the migration loop of `_hm_reserve` for old slot `i`. -/
def hm_rehash_step (old_data : List (HM_Entry K V)) (hm : HM K V) (i : Nat) : HM K V :=
  if (slot old_data i).state ≠ HM_FILLED then hm
  else
    let key := (slot old_data i).key
    let hash := u64 (hm.hash_fn key)
    let idx := (hm_probe hm hash key).1
    { hm with
      data := hm.data.map (fun d => d.set idx { slot old_data i with state := HM_FILLED })
      len := u64 (hm.len + 1) }

/-- The migration loop of `_hm_reserve`, `for (i = 0; i < n; i++)`, run on the new
table `hm` and the old store. -/
def rehash_upto (old_data : List (HM_Entry K V)) (hm : HM K V) (n : Nat) : HM K V :=
  (List.range n).foldl (hm_rehash_step old_data) hm

/-- The function `_hm_reserve`.  `none`: the rounding loop does not terminate;
`some (false, _)`: allocation failure; `some (true, _)`: success. -/
def _hm_reserve (entry_size : Nat) (alloc : Bool) (hm : HM K V) (new_cap : Nat) :
    Option (Bool × HM K V) :=
  if new_cap ≤ hm.cap then some (true, hm)
  else
    match hm_reserve_round 65 1 new_cap with
    | none => none
    | some cap =>
      match calloc alloc cap entry_size with
      | none => some (false, hm)
      | some new_data =>
        some (true, rehash_upto (hm.data.getD [])
          { hm with data := some new_data, cap := cap, len := 0 } hm.cap)

/-- The function `hm_grow`. -/
def hm_grow (entry_size : Nat) (alloc : Bool) (hm : HM K V) : Option (Bool × HM K V) :=
  _hm_reserve entry_size alloc hm (if hm.cap ≠ 0 then u64 (hm.cap * 2) else 8)

/-- The function `_hm_init`; `hm` is the (uninitialised) table the pointers refer to. -/
def _hm_init (entry_size : Nat) (alloc : Bool) (hm : HM K V) (hash_fn : K → Nat)
    (equal_fn : K → K → Bool) : Bool × HM K V :=
  match (calloc alloc 8 entry_size : Option (List (HM_Entry K V))) with
  | none => (false, { hm with cap := 8, len := 0, hash_fn := hash_fn, equal_fn := equal_fn })
  | some dat =>
    (true, { cap := 8, len := 0, hash_fn := hash_fn, equal_fn := equal_fn, data := some dat })

/-- The function `_hm_get`; the returned pointer `entry + val_offset` is modelled by
the value it points to, `none` is `NULL`. -/
def _hm_get (hm : HM K V) (hash : Nat) (key : K) : Option V :=
  match hm.data with
  | none => none
  | some d =>
    if (hm_probe hm hash key).2 = false then none
    else some (slot d (hm_probe hm hash key).1).value

/-- Lines 822-837 of `_hm_put`: the write into slot `idx` once probing is done.  The index
comes from `hm_probe`, which returns the sentinel when there is no store. -/
def hm_put_write (hm : HM K V) (idx : Nat) (found : Bool) (key : K) (val : V) : Bool × HM K V :=
  if idx = UINT64_MAX then (false, hm)
  else if found = false then
    (true, { hm with
      data := hm.data.map (fun d => d.set idx ⟨key, val, HM_FILLED⟩)
      len := u64 (hm.len + 1) })
  else
    (true, { hm with data := hm.data.map (fun d => d.set idx { slot d idx with value := val }) })

/-- Lines 811-837 of `_hm_put`: probe, grow when the load factor demands it, write. -/
def hm_put_probe (entry_size : Nat) (alloc : Bool) (hm : HM K V) (hash : Nat) (key : K) (val : V) :
    Option (Bool × HM K V) :=
  if (hm_probe hm hash key).2 = false ∧ u64 (u64 (hm.len + 1) * 4) ≥ u64 (hm.cap * 3) then
    match hm_grow entry_size alloc hm with
    | none => none
    | some (false, hm1) => some (false, hm1)
    | some (true, hm1) =>
      some (hm_put_write hm1 (hm_probe hm1 hash key).1 (hm_probe hm1 hash key).2 key val)
  else
    some (hm_put_write hm (hm_probe hm hash key).1 (hm_probe hm hash key).2 key val)

/-- The function `_hm_put`. -/
def _hm_put (entry_size : Nat) (alloc : Bool) (hm : HM K V) (hash : Nat) (key : K) (val : V) :
    Option (Bool × HM K V) :=
  if hm.data.isNone then
    match hm_grow entry_size alloc hm with
    | none => none
    | some (false, hm1) => some (false, hm1)
    | some (true, hm1) => hm_put_probe entry_size alloc hm1 hash key val
  else hm_put_probe entry_size alloc hm hash key val

/-- The function `_hm_remove`. -/
def _hm_remove (hm : HM K V) (hash : Nat) (key : K) : Bool × HM K V :=
  if (hm_probe hm hash key).2 = false then (false, hm)
  else
    (true, { hm with
      data := hm.data.map (fun d =>
        d.set (hm_probe hm hash key).1 { slot d (hm_probe hm hash key).1 with state := HM_TOMBSTONE })
      len := u64 (hm.len + (2 ^ 64 - 1)) })

/-- The loop of `_hm_clear`, `for (i = 0; i < n; i++)`: slot `i` gets the tag `HM_EMPTY`. -/
def clear_upto (d : List (HM_Entry K V)) (n : Nat) : List (HM_Entry K V) :=
  (List.range n).foldl (fun d i => d.set i { slot d i with state := HM_EMPTY }) d

/-- The function `_hm_clear`. -/
def _hm_clear (hm : HM K V) : HM K V :=
  match hm.data with
  | none => hm
  | some d =>
    { hm with
      data := some (clear_upto d hm.cap)
      len := 0 }

/-- The function `_hm_free`. -/
def _hm_free (hm : HM K V) : HM K V :=
  { hm with data := none, cap := 0, len := 0 }

/-- The macro `hm_count`. -/
def hm_count (hm : HM K V) : Nat := hm.len

/-- The macro `hm_reserve`. -/
def hm_reserve (entry_size : Nat) (alloc : Bool) (hm : HM K V) (n : Nat) : Option (Bool × HM K V) :=
  _hm_reserve entry_size alloc hm n

/-- The macro `hm_get`: hashes the key with the table's `hash_fn`. -/
def hm_get (hm : HM K V) (k : K) : Option V := _hm_get hm (u64 (hm.hash_fn k)) k

/-- The macro `hm_contains`. -/
def hm_contains (hm : HM K V) (k : K) : Bool := (hm_get hm k).isSome

/-- The macro `hm_put`. -/
def hm_put (entry_size : Nat) (alloc : Bool) (hm : HM K V) (k : K) (v : V) :
    Option (Bool × HM K V) :=
  _hm_put entry_size alloc hm (u64 (hm.hash_fn k)) k v

/-- The macro `hm_remove`. -/
def hm_remove (hm : HM K V) (k : K) : Bool × HM K V := _hm_remove hm (u64 (hm.hash_fn k)) k

/-- The macro `hm_clear`. -/
def hm_clear (hm : HM K V) : HM K V := _hm_clear hm

/-- The macro `hm_free`. -/
def hm_free (hm : HM K V) : HM K V := _hm_free hm

/-- The macro `hm_iterate`: the entries the loop body is run on, in slot order. -/
def hm_iterate (hm : HM K V) : List (HM_Entry K V) :=
  ((List.range hm.cap).map (slot (hm.data.getD []))).filter (fun it => it.state = HM_FILLED)

/-- The public operations that act on an initialised table. -/
inductive HM_Op (K V : Type) where
  | put (k : K) (v : V)
  | remove (k : K)
  | clear
  | reserve (n : Nat)
  | free

/-- Running one public operation; `none` when the call does not return. -/
def HM_Op.run (entry_size : Nat) (alloc : Bool) (hm : HM K V) : HM_Op K V → Option (HM K V)
  | .put k v => (hm_put entry_size alloc hm k v).map Prod.snd
  | .remove k => some (hm_remove hm k).2
  | .clear => some (hm_clear hm)
  | .reserve n => (hm_reserve entry_size alloc hm n).map Prod.snd
  | .free => some (hm_free hm)

/-- The tables reachable from a successful `hm_init` by the public operations,
whatever the allocator does in each call. -/
inductive Reachable (entry_size : Nat) (hash_fn : K → Nat) (equal_fn : K → K → Bool) :
    HM K V → Prop where
  | init (alloc : Bool) (hm0 hm : HM K V) :
      _hm_init entry_size alloc hm0 hash_fn equal_fn = (true, hm) →
      Reachable entry_size hash_fn equal_fn hm
  | step (alloc : Bool) (op : HM_Op K V) (hm hm1 : HM K V) :
      Reachable entry_size hash_fn equal_fn hm →
      op.run entry_size alloc hm = some hm1 →
      Reachable entry_size hash_fn equal_fn hm1

/-- The contract on the caller-supplied functions: `equal_fn` is an equivalence and
equal keys have equal hashes. -/
structure FnOK (hash_fn : K → Nat) (equal_fn : K → K → Bool) : Prop where
  refl : ∀ a, equal_fn a a = true
  symm : ∀ a b, equal_fn a b = true → equal_fn b a = true
  trans : ∀ a b c, equal_fn a b = true → equal_fn b c = true → equal_fn a c = true
  hash : ∀ a b, equal_fn a b = true → hash_fn a = hash_fn b

/-! ### Predicates used to state the invariants -/

/-- The number of `Filled` slots among the first `n` slots of a store. -/
def filled_upto (d : List (HM_Entry K V)) : Nat → Nat
  | 0 => 0
  | n + 1 => filled_upto d n + (if (slot d n).state = HM_FILLED then 1 else 0)

/-- Slot `i` lies on the probe walk of its own key and no slot of that walk before
it is `Empty`. -/
def ChainAt (hash_fn : K → Nat) (d : List (HM_Entry K V)) (i : Nat) : Prop :=
  ∃ t, t < d.length ∧ i = (hash_fn (slot d i).key + t) % d.length ∧
    ∀ j, j < t → (slot d ((hash_fn (slot d i).key + j) % d.length)).state ≠ HM_EMPTY

/-- The probe-chain invariant: every `Filled` slot is reachable from its key's home
index without crossing an `Empty` slot. -/
def Chain (hash_fn : K → Nat) (d : List (HM_Entry K V)) : Prop :=
  ∀ i, (slot d i).state = HM_FILLED → ChainAt hash_fn d i

/-- Key uniqueness: two `Filled` slots with equal keys are the same slot. -/
def Uniq (equal_fn : K → K → Bool) (d : List (HM_Entry K V)) : Prop :=
  ∀ i j, (slot d i).state = HM_FILLED → (slot d j).state = HM_FILLED →
    equal_fn (slot d i).key (slot d j).key = true → i = j

/-- Some `Filled` slot among the first `n` holds a key equal to `k` with value `v`. -/
def LiveUpto (equal_fn : K → K → Bool) (d : List (HM_Entry K V)) (n : Nat) (k : K) (v : V) :
    Prop :=
  ∃ i, i < n ∧ (slot d i).state = HM_FILLED ∧ equal_fn (slot d i).key k = true ∧
    (slot d i).value = v

/-- The pair `(k, v)` is live in the table: some `Filled` slot holds a key equal to `k`
and the value `v`. -/
def Live (hm : HM K V) (k : K) (v : V) : Prop :=
  ∃ d, hm.data = some d ∧ LiveUpto hm.equal_fn d d.length k v

/-- The shape of an allocated store `d` of table `hm`. -/
structure StoreOK (hm : HM K V) (d : List (HM_Entry K V)) : Prop where
  hdata : hm.data = some d
  hlen : d.length = hm.cap
  hpow : ∃ p, p ≤ 62 ∧ hm.cap = 2 ^ p
  hcnt : filled_upto d hm.cap ≤ hm.len
  hload : hm.len * 4 < hm.cap * 3

/-- The invariant that needs no assumption on `hash_fn` and `equal_fn`: either no
store is allocated and `cap = len = 0`, or the store has `cap` slots, `cap` is a power
of two, and the load factor is below 0.75. -/
def WInv (hm : HM K V) : Prop :=
  (hm.data = none ∧ hm.cap = 0 ∧ hm.len = 0) ∨ ∃ d, StoreOK hm d

/-- The full invariant, for functions that satisfy the hashing and equality contract. -/
structure Inv (hm : HM K V) : Prop where
  weak : WInv hm
  fns : FnOK hm.hash_fn hm.equal_fn
  hcount : ∀ d, hm.data = some d → hm.len = filled_upto d hm.cap
  hchain : ∀ d, hm.data = some d → Chain hm.hash_fn d
  huniq : ∀ d, hm.data = some d → Uniq hm.equal_fn d

/-- What a successful `hm_put k v` does to the live pairs, the length and the capacity. -/
def PutPost (hm hm1 : HM K V) (k : K) (v : V) : Prop :=
  (∀ k1 v1, Live hm1 k1 v1 ↔
    (hm.equal_fn k k1 = true ∧ v1 = v) ∨ (hm.equal_fn k k1 = false ∧ Live hm k1 v1)) ∧
  ((∃ v0, Live hm k v0) → hm1.len = hm.len ∧ hm1.cap = hm.cap) ∧
  ((∀ v0, ¬ Live hm k v0) → hm1.len = hm.len + 1 ∧
    (hm.data ≠ none → (hm.len + 1) * 4 < hm.cap * 3 → hm1.cap = hm.cap) ∧
    (hm.data ≠ none → hm.cap * 3 ≤ (hm.len + 1) * 4 → hm1.cap = 2 * hm.cap) ∧
    (hm.data = none → hm1.cap = 8))

/-- A run of `hm_put` calls that all return `true`, each with its own allocator flag;
`none` as soon as one call fails or does not return. -/
def put_all (entry_size : Nat) (hm : HM K V) : List (Bool × K × V) → Option (HM K V)
  | [] => some hm
  | (alloc, k, v) :: rest =>
    match hm_put entry_size alloc hm k v with
    | some (true, hm1) => put_all entry_size hm1 rest
    | _ => none

/-- A run of `hm_remove` calls. -/
def remove_all (hm : HM K V) : List K → HM K V
  | [] => hm
  | k :: rest => remove_all (hm_remove hm k).2 rest

/-- A run of public operations, each with its own allocator flag. -/
def run_ops (entry_size : Nat) (hm : HM K V) : List (Bool × HM_Op K V) → Option (HM K V)
  | [] => some hm
  | (alloc, op) :: rest =>
    match op.run entry_size alloc hm with
    | some hm1 => run_ops entry_size hm1 rest
    | none => none

/-- The tables reachable from a successful `hm_init` by the public operations when
`hm_reserve` is never called with a request below 5 on a table of capacity 0. -/
inductive ReachableNoSmallReserve (entry_size : Nat) (hash_fn : K → Nat)
    (equal_fn : K → K → Bool) : HM K V → Prop where
  | init (alloc : Bool) (hm0 hm : HM K V) :
      _hm_init entry_size alloc hm0 hash_fn equal_fn = (true, hm) →
      ReachableNoSmallReserve entry_size hash_fn equal_fn hm
  | step (alloc : Bool) (op : HM_Op K V) (hm hm1 : HM K V) :
      ReachableNoSmallReserve entry_size hash_fn equal_fn hm →
      (∀ n, op = HM_Op.reserve n → hm.cap = 0 → 5 ≤ n) →
      op.run entry_size alloc hm = some hm1 →
      ReachableNoSmallReserve entry_size hash_fn equal_fn hm1

end Model

/-! ### A concrete instance: `u64` keys and values, 24-byte entries -/

/-- A hash function on numbers under which the keys 1, 5, 9, ... collide. -/
def ex_hash (k : Nat) : Nat := k % 4

/-- Equality of numbers as `equal_fn`. -/
def ex_equal (a b : Nat) : Bool := a == b

/-- The memory of a table before `hm_init` has run. -/
def ex_blank : HM Nat Nat := ⟨0, 0, ex_hash, ex_equal, none⟩

/-- The table just after `hm_init`. -/
def ex_init : HM Nat Nat := (_hm_init 24 true ex_blank ex_hash ex_equal).2

/-- The table after `hm_put(1, 10)`, `hm_put(5, 50)`, `hm_put(9, 90)` and `hm_remove(5)`:
slot 1 holds key 1, slot 2 is a tombstone, slot 3 holds key 9. -/
def ex_table : HM Nat Nat :=
  (run_ops 24 ex_init [(true, HM_Op.put 1 10), (true, HM_Op.put 5 50), (true, HM_Op.put 9 90),
    (true, HM_Op.remove 5)]).getD ex_blank

/-- Three pairs whose keys collide under `ex_hash`, each put with a serving allocator. -/
def ex_kvs : List (Bool × Nat × Nat) := [(true, 1, 10), (true, 5, 50), (true, 9, 90)]

/-- The table after `hm_init` and the three puts of `ex_kvs`. -/
def ex_three : HM Nat Nat := (put_all 24 ex_init ex_kvs).getD ex_blank

/-- Six pairs with pairwise different keys; only the sixth put is given a serving
allocator. -/
def ex_six : List (Bool × Nat × Nat) :=
  [(false, 1, 10), (false, 2, 20), (false, 3, 30), (false, 4, 40), (false, 5, 50), (true, 6, 60)]

/-- The table after five puts of different keys with a failing allocator: capacity 8,
length 5, so that `(len + 1) * 4 = cap * 3`. -/
def ex_five : HM Nat Nat :=
  (run_ops 24 ex_init [(false, HM_Op.put 1 10), (false, HM_Op.put 2 20), (false, HM_Op.put 3 30),
    (false, HM_Op.put 4 40), (false, HM_Op.put 5 50)]).getD ex_blank

/-- A table of capacity 8 without any `Empty` slot: slots 1, 2, 6, 7 are `Filled`, the
other four are tombstones. -/
def ex_saturated : HM Nat Nat :=
  (run_ops 24 ex_init [(false, HM_Op.put 3 30), (false, HM_Op.put 7 70), (false, HM_Op.put 11 110),
    (false, HM_Op.put 15 150), (false, HM_Op.put 19 190), (false, HM_Op.remove 3),
    (false, HM_Op.remove 7), (false, HM_Op.remove 11), (false, HM_Op.put 4 40),
    (false, HM_Op.put 1 10), (false, HM_Op.put 2 20), (false, HM_Op.remove 4)]).getD ex_blank

/-- The table after `hm_init`, `hm_free`, `hm_reserve(1)`. -/
def ex_small : HM Nat Nat :=
  (run_ops 24 ex_init [(true, HM_Op.free), (true, HM_Op.reserve 1)]).getD ex_blank

/-- The table after `hm_init`, `hm_free`, `hm_put(1, 10)`. -/
def ex_refilled : HM Nat Nat :=
  (run_ops 24 ex_init [(true, HM_Op.free), (true, HM_Op.put 1 10)]).getD ex_blank

/-- The table `ex_table` after `hm_reserve(9)` with a serving allocator: capacity 16. -/
def ex_grown : HM Nat Nat := ((_hm_reserve 24 true ex_table 9).getD (false, ex_blank)).2

/-! ## The dynamic array (`CHEST_ENABLE_DA`)

The block `data` points to is the list of the items it has room for (`NULL` is the
empty block); the first `len` of them are the elements of the array. -/

section DynamicArray

variable {T : Type}

/-- The struct `DA_Generic`. -/
structure DA_Generic (T : Type) where
  data : List T
  len : Nat
  cap : Nat

/-- The library call `realloc(ptr, bytes)` on a block of items of `item_size` bytes:
`none` is `NULL` (the old block stays valid). The new block has room for
`bytes / item_size` items; the items the old block had keep their contents, the other
ones hold whatever the `fresh` memory holds. -/
def realloc (alloc : Bool) (fresh : Nat → T) (old : List T) (bytes item_size : Nat) :
    Option (List T) :=
  if alloc = true then
    some (old.take (bytes / item_size) ++
      (List.range (bytes / item_size - old.length)).map (fun j => fresh (old.length + j)))
  else none

/-- The library call `memmove` inside one block, in items: the `n` items from offset
`src` are copied to offset `dst`. -/
def memmove (d : List T) (dst src n : Nat) : List T :=
  d.take dst ++ (d.drop src).take n ++ d.drop (dst + n)

/-- The function `_da_reserve`. -/
def _da_reserve (alloc : Bool) (fresh : Nat → T) (da : DA_Generic T) (item_size new_cap : Nat) :
    Bool × DA_Generic T :=
  if new_cap ≤ da.cap then (true, da)
  else
    match realloc alloc fresh da.data (u64 (new_cap * item_size)) item_size with
    | none => (false, da)
    | some new_data => (true, { da with data := new_data, cap := new_cap })

/-- Lines 511-522 of `_da_insert`: shift the items from `index` on by one and store
`item` at `index`. -/
def da_insert_write (da : DA_Generic T) (item_size index : Nat) (item : T) : DA_Generic T :=
  { da with
    data := (if index < da.len then
        memmove da.data (index + 1) index (u64 ((da.len - index) * item_size) / item_size)
      else da.data).set index item
    len := u64 (da.len + 1) }

/-- The function `_da_insert`. -/
def _da_insert (alloc : Bool) (fresh : Nat → T) (da : DA_Generic T) (item_size index : Nat)
    (item : T) : Bool × DA_Generic T :=
  if index > da.len then (false, da)
  else if da.len ≥ da.cap then
    match _da_reserve alloc fresh da item_size (if da.cap = 0 then 8 else u64 (da.cap * 2)) with
    | (false, da1) => (false, da1)
    | (true, da1) => (true, da_insert_write da1 item_size index item)
  else (true, da_insert_write da item_size index item)

/-- The function `_da_remove_at`. -/
def _da_remove_at (da : DA_Generic T) (item_size index : Nat) : Bool × DA_Generic T :=
  if index ≥ da.len then (false, da)
  else
    (true, { da with
      data := if index < da.len - 1 then
          memmove da.data index (index + 1) (u64 ((da.len - index - 1) * item_size) / item_size)
        else da.data
      len := da.len - 1 })

/-- The element sequence of the array: `data[0]`, ..., `data[len - 1]`. -/
def da_items (da : DA_Generic T) : List T := da.data.take da.len

/-- A well-formed array: the block has room for `cap` items, `len ≤ cap`, an item has at
least one byte and less than `2 ^ 60`, and the block is an object of less than `2 ^ 63`
bytes. -/
structure DA_OK (da : DA_Generic T) (item_size : Nat) : Prop where
  hblock : da.data.length = da.cap
  hlen : da.len ≤ da.cap
  hitem : 0 < item_size
  hitem_lt : item_size < 2 ^ 60
  hobj : da.cap * item_size < 2 ^ 63

/-- A full array of three numbers, used for the concrete instances. -/
def ex_array : DA_Generic Nat := { data := [10, 20, 30], len := 3, cap := 3 }

/-- The contents of freshly allocated memory in the concrete instances. -/
def ex_fresh : Nat → Nat := fun _ => 0

end DynamicArray

/-! ## The linked list (`CHEST_ENABLE_LL`)

Pointers are addresses, `0` is `NULL`. The heap maps an address to the node allocated
there. The address `malloc` returns is an argument of the functions that allocate
(`0` when the allocation fails). A function returns `none` when it reads or writes
through a pointer that is `NULL` or not allocated. -/

section LinkedList
variable {T : Type}

/-- A node `LL_NODE(T)`: the item and the pointer to the next node. -/
structure LL_Node (T : Type) where
  data : T
  next : Nat

/-- The header `LL_Generic` (`head`, `tail`, `len`) together with the heap its pointers
refer to: `mem a` is the node allocated at address `a`. -/
structure LL_Generic (T : Type) where
  mem : Nat → Option (LL_Node T)
  head : Nat
  tail : Nat
  len : Nat

/-- The node a pointer refers to. -/
def mem_deref (mem : Nat → Option (LL_Node T)) (a : Nat) : Option (LL_Node T) :=
  if a = 0 then none else mem a

/-- The heap after a write of the node at address `a`. -/
def mem_store (mem : Nat → Option (LL_Node T)) (a : Nat) (nd : LL_Node T) :
    Nat → Option (LL_Node T) :=
  fun b => if b = a then some nd else mem b

/-- The heap after `free(a)`. -/
def mem_free (mem : Nat → Option (LL_Node T)) (a : Nat) : Nat → Option (LL_Node T) :=
  fun b => if b = a then none else mem b

/-- The function `_ll_init`. -/
def _ll_init (ll : LL_Generic T) : LL_Generic T :=
  { ll with head := 0, tail := 0, len := 0 }

/-- The function `_ll_push_front`; `node` is the result of `malloc`. -/
def _ll_push_front (ll : LL_Generic T) (node : Nat) (item : T) :
    Option (Bool × LL_Generic T) :=
  if node = 0 then some (false, ll)
  else
    some (true,
      { mem := mem_store ll.mem node { data := item, next := ll.head }
        head := node
        tail := if ll.tail = 0 then node else ll.tail
        len := u64 (ll.len + 1) })

/-- The function `_ll_push_back`; `node` is the result of `malloc`. -/
def _ll_push_back (ll : LL_Generic T) (node : Nat) (item : T) :
    Option (Bool × LL_Generic T) :=
  if node = 0 then some (false, ll)
  else if ll.tail ≠ 0 then
    match mem_deref (mem_store ll.mem node { data := item, next := 0 }) ll.tail with
    | none => none
    | some t =>
      some (true,
        { mem := mem_store (mem_store ll.mem node { data := item, next := 0 }) ll.tail
            { t with next := node }
          head := ll.head
          tail := node
          len := u64 (ll.len + 1) })
  else
    some (true,
      { mem := mem_store ll.mem node { data := item, next := 0 }
        head := node
        tail := node
        len := u64 (ll.len + 1) })

/-- The loop `for (i = 0; i < n; i++) cur = cur->next`. -/
def ll_walk (mem : Nat → Option (LL_Node T)) : Nat → Nat → Option Nat
  | 0, cur => some cur
  | n + 1, cur =>
    match mem_deref mem cur with
    | none => none
    | some nd => ll_walk mem n nd.next

/-- The function `_ll_get`: the pointer to the node at `index`, `NULL` out of range. -/
def _ll_get (ll : LL_Generic T) (index : Nat) : Option Nat :=
  if index ≥ ll.len then some 0 else ll_walk ll.mem index ll.head

/-- The function `_ll_pop_front`. The copy of the item to `out` does not touch the list
and is left out. -/
def _ll_pop_front (ll : LL_Generic T) : Option (Bool × LL_Generic T) :=
  if ll.head = 0 then some (false, ll)
  else
    match mem_deref ll.mem ll.head with
    | none => none
    | some node =>
      some (true,
        { mem := mem_free ll.mem ll.head
          head := node.next
          tail := if node.next = 0 then 0 else ll.tail
          len := u64 (ll.len + 2 ^ 64 - 1) })

/-- The function `_ll_remove_at`. -/
def _ll_remove_at (ll : LL_Generic T) (index : Nat) : Option (Bool × LL_Generic T) :=
  if index ≥ ll.len then some (false, ll)
  else if index = 0 then _ll_pop_front ll
  else
    match ll_walk ll.mem (index - 1) ll.head with
    | none => none
    | some prev_node =>
      match mem_deref ll.mem prev_node with
      | none => none
      | some p =>
        match mem_deref ll.mem p.next with
        | none => none
        | some to_remove =>
          some (true,
            { mem := mem_free (mem_store ll.mem prev_node { p with next := to_remove.next })
                p.next
              head := ll.head
              tail := if p.next = ll.tail then prev_node else ll.tail
              len := u64 (ll.len + 2 ^ 64 - 1) })

/-- The loop `ll_foreach`: the items met on the walk from `cur` to `NULL`; `none` when
the walk leaves the allocated nodes or does not end within `fuel` nodes. -/
def ll_foreach (mem : Nat → Option (LL_Node T)) : Nat → Nat → Option (List T)
  | 0, _ => none
  | fuel + 1, cur =>
    if cur = 0 then some []
    else
      match mem_deref mem cur with
      | none => none
      | some nd =>
        match ll_foreach mem fuel nd.next with
        | none => none
        | some rest => some (nd.data :: rest)

/-- One call on a list. -/
inductive LL_Op (T : Type) where
  | push_front (item : T)
  | push_back (item : T)
  | pop_front
  | remove_at (index : Nat)

/-- The call on the list in memory; `node` is the result of `malloc` if the call
allocates. -/
def LL_Op.run (ll : LL_Generic T) (node : Nat) : LL_Op T → Option (Bool × LL_Generic T)
  | LL_Op.push_front item => _ll_push_front ll node item
  | LL_Op.push_back item => _ll_push_back ll node item
  | LL_Op.pop_front => _ll_pop_front ll
  | LL_Op.remove_at index => _ll_remove_at ll index

/-- The calls one after the other, with the result of each. -/
def ll_run_ops : LL_Generic T → List (Nat × LL_Op T) → Option (List Bool × LL_Generic T)
  | ll, [] => some ([], ll)
  | ll, (node, op) :: rest =>
    match op.run ll node with
    | none => none
    | some r =>
      match ll_run_ops r.2 rest with
      | none => none
      | some rr => some (r.1 :: rr.1, rr.2)

/-- Whether the call allocates a node. -/
def LL_Op.allocates : LL_Op T → Bool
  | LL_Op.push_front _ => true
  | LL_Op.push_back _ => true
  | LL_Op.pop_front => false
  | LL_Op.remove_at _ => false

/-- A successful `malloc`: the address is not `NULL`, fits a pointer and is not
allocated. -/
def malloc_fresh (ll : LL_Generic T) (node : Nat) : Bool :=
  decide (node ≠ 0) && decide (node < 2 ^ 64) && (ll.mem node).isNone

/-- Every allocation of the calls succeeds. -/
def ll_malloc_ok : LL_Generic T → List (Nat × LL_Op T) → Bool
  | _, [] => true
  | ll, (node, op) :: rest =>
    (!op.allocates || malloc_fresh ll node) &&
      (match op.run ll node with
       | none => true
       | some r => ll_malloc_ok r.2 rest)

/-- The abstract list of the specification: the call on a plain sequence (prepend,
append, drop the first, delete the element at `index`; a pop of the empty sequence and
a removal at an index out of range return `false` and change nothing). -/
def LL_Op.spec {α : Type} (l : List α) : LL_Op α → Bool × List α
  | LL_Op.push_front item => (true, item :: l)
  | LL_Op.push_back item => (true, l ++ [item])
  | LL_Op.pop_front =>
    match l with
    | [] => (false, [])
    | _ :: rest => (true, rest)
  | LL_Op.remove_at index => if index < l.length then (true, l.eraseIdx index) else (false, l)

/-- The calls one after the other on the abstract list, with the result of each. -/
def ll_spec_ops {α : Type} : List α → List (LL_Op α) → List Bool × List α
  | l, [] => ([], l)
  | l, op :: rest => ((op.spec l).1 :: (ll_spec_ops (op.spec l).2 rest).1,
      (ll_spec_ops (op.spec l).2 rest).2)

/-- The call with its item marked: `some t` for the item appended by call number `t`,
`none` for a prepended item. -/
def LL_Op.tag (t : Nat) : LL_Op T → LL_Op (T × Option Nat)
  | LL_Op.push_front item => LL_Op.push_front (item, none)
  | LL_Op.push_back item => LL_Op.push_back (item, some t)
  | LL_Op.pop_front => LL_Op.pop_front
  | LL_Op.remove_at index => LL_Op.remove_at index

/-- The calls with their items marked, numbered from `t`. -/
def ll_tag_ops : Nat → List (LL_Op T) → List (LL_Op (T × Option Nat))
  | _, [] => []
  | t, op :: rest => op.tag t :: ll_tag_ops (t + 1) rest

/-- The order of two items of a marked list: a prepended item stands before every
appended one, and appended items stand in the order of their calls. -/
def stamp_before (a b : T × Option Nat) : Prop :=
  (b.2 = none → a.2 = none) ∧ ∀ s t, a.2 = some s → b.2 = some t → s < t

/-- The address of the first node of a chain, `e` for the empty chain. -/
def ll_first (ns : List (Nat × T)) (e : Nat) : Nat :=
  match ns with
  | [] => e
  | (a, _) :: _ => a

/-- The address of the last node of a chain, `NULL` for the empty chain. -/
def ll_last : List (Nat × T) → Nat
  | [] => 0
  | [(a, _)] => a
  | _ :: b :: rest => ll_last (b :: rest)

/-- The nodes `ns` (address and item) are allocated and linked in this order, the last
one pointing to `e`. -/
def LinkedSeg (mem : Nat → Option (LL_Node T)) : List (Nat × T) → Nat → Prop
  | [], _ => True
  | (a, x) :: rest, e =>
    a ≠ 0 ∧ a < 2 ^ 64 ∧ mem a = some { data := x, next := ll_first rest e } ∧
      LinkedSeg mem rest e

/-- The representation invariant: the list in memory consists of the nodes `ns`. -/
structure LL_OK (ll : LL_Generic T) (ns : List (Nat × T)) : Prop where
  hlinked : LinkedSeg ll.mem ns 0
  hnodup : (ns.map Prod.fst).Nodup
  hhead : ll.head = ll_first ns 0
  htail : ll.tail = ll_last ns
  hlen : ll.len = ns.length

/-- An empty heap with an uninitialised header, used for the concrete instances. -/
def ex_ll : LL_Generic Nat := { mem := fun _ => none, head := 7, tail := 9, len := 5 }

/-- A sequence of calls with the addresses `malloc` returns. -/
def ex_ll_ops : List (Nat × LL_Op Nat) :=
  [(16, LL_Op.push_back 10), (32, LL_Op.push_front 20), (48, LL_Op.push_back 30),
   (0, LL_Op.pop_front), (0, LL_Op.remove_at 5), (32, LL_Op.push_back 40),
   (0, LL_Op.remove_at 1), (48, LL_Op.push_front 50), (0, LL_Op.remove_at 2)]

end LinkedList

/-! ## Basic facts about stores -/

section Basics

variable {K V : Type} [Inhabited K] [Inhabited V]

theorem slot_set_eq (d : List (HM_Entry K V)) (i : Nat) (e : HM_Entry K V) (h : i < d.length) :
    slot (d.set i e) i = e := by
  simp [slot, List.getD_eq_getElem?_getD, h]

theorem slot_set_ne (d : List (HM_Entry K V)) (i j : Nat) (e : HM_Entry K V) (h : i ≠ j) :
    slot (d.set i e) j = slot d j := by
  simp [slot, List.getD_eq_getElem?_getD, List.getElem?_set_ne h]

theorem slot_replicate (n i : Nat) :
    slot (List.replicate n (zero_entry : HM_Entry K V)) i = zero_entry := by
  simp only [slot, List.getD_eq_getElem?_getD]
  by_cases h : i < n
  · simp [h]
  · simp [List.getElem?_eq_none, Nat.le_of_not_lt h]

theorem slot_ge (d : List (HM_Entry K V)) (i : Nat) (h : d.length ≤ i) :
    slot d i = zero_entry := by
  simp [slot, List.getD_eq_getElem?_getD, List.getElem?_eq_none, h]

theorem filled_lt (d : List (HM_Entry K V)) (i : Nat) (h : (slot d i).state = HM_FILLED) :
    i < d.length := by
  by_contra hc
  rw [slot_ge d i (Nat.le_of_not_lt hc)] at h
  simp [zero_entry] at h

theorem land_mask (p x : Nat) : x &&& (2 ^ p - 1) = x % 2 ^ p :=
  Nat.and_pow_two_sub_one_eq_mod x p

theorem u64_mod_pow (p x : Nat) (hp : p ≤ 64) : u64 x % 2 ^ p = x % 2 ^ p := by
  unfold u64
  exact Nat.mod_mod_of_dvd x (Nat.pow_dvd_pow 2 hp)

theorem u64_of_lt (x : Nat) (h : x < 2 ^ 64) : u64 x = x := Nat.mod_eq_of_lt h

theorem state_cases (s : HM_State) (h1 : s ≠ HM_EMPTY) (h2 : s ≠ HM_TOMBSTONE) :
    s = HM_FILLED := by
  cases s <;> simp_all

theorem pow_le_62 (p : Nat) (hp : p ≤ 62) : 2 ^ p ≤ 2 ^ 62 :=
  Nat.pow_le_pow_right (by decide) hp

end Basics

/-! ## The probe loop -/

section Probe

variable {K V : Type} [Inhabited K] [Inhabited V]

theorem probe_next (p h m : Nat) : ((h + m) % 2 ^ p + 1) &&& (2 ^ p - 1) = (h + (m + 1)) % 2 ^ p := by
  rw [land_mask, Nat.mod_add_mod, Nat.add_assoc]

/-- Completeness of the scan: a matching `Filled` slot that is reached before any `Empty`
slot is found. -/
theorem probe_loop_complete (equal_fn : K → K → Bool) (d : List (HM_Entry K V)) (p h : Nat)
    (key : K) :
    ∀ (n m ft j : Nat), m ≤ j → j < m + n →
      (slot d ((h + j) % 2 ^ p)).state = HM_FILLED →
      equal_fn (slot d ((h + j) % 2 ^ p)).key key = true →
      (∀ i, m ≤ i → i < j → (slot d ((h + i) % 2 ^ p)).state ≠ HM_EMPTY) →
      (hm_probe_loop equal_fn d (2 ^ p - 1) key n ((h + m) % 2 ^ p) ft).2 = true := by
  intro n
  induction n with
  | zero => intro m ft j h1 h2; omega
  | succ n ih =>
    intro m ft j hmj hj hf he hne
    unfold hm_probe_loop
    rw [probe_next]
    by_cases hjm : j = m
    · subst hjm
      simp [hf, he]
    · have h1 : (slot d ((h + m) % 2 ^ p)).state ≠ HM_EMPTY := hne m (Nat.le_refl _) (by omega)
      have hrec : ∀ ft, (hm_probe_loop equal_fn d (2 ^ p - 1) key n ((h + (m + 1)) % 2 ^ p) ft).2
          = true :=
        fun ft => ih (m + 1) ft j (by omega) (by omega) hf he
          (fun i hi hij => hne i (by omega) hij)
      by_cases h2 : (slot d ((h + m) % 2 ^ p)).state = HM_TOMBSTONE
      · rw [if_neg h1, if_pos h2]
        exact hrec _
      · by_cases h3 : equal_fn (slot d ((h + m) % 2 ^ p)).key key = true
        · rw [if_neg h1, if_neg h2, if_pos h3]
        · rw [if_neg h1, if_neg h2, if_neg h3]
          exact hrec _

/-- The slot returned by a scan that does not find the key. -/
theorem probe_loop_slot (equal_fn : K → K → Bool) (d : List (HM_Entry K V)) (p h : Nat)
    (key : K) (hp : 2 ^ p ≤ UINT64_MAX) :
    ∀ (n m ft r : Nat),
      (∀ j, j < m → (slot d ((h + j) % 2 ^ p)).state ≠ HM_EMPTY) →
      ((ft = UINT64_MAX ∧ ∀ j, j < m → (slot d ((h + j) % 2 ^ p)).state = HM_FILLED) ∨
        ∃ t, t < m ∧ ft = (h + t) % 2 ^ p ∧ (slot d ft).state = HM_TOMBSTONE) →
      hm_probe_loop equal_fn d (2 ^ p - 1) key n ((h + m) % 2 ^ p) ft = (r, false) →
      (r = UINT64_MAX ∧ ∀ j, j < m + n → (slot d ((h + j) % 2 ^ p)).state = HM_FILLED) ∨
      ∃ t, t < m + n ∧ r = (h + t) % 2 ^ p ∧ (slot d r).state ≠ HM_FILLED ∧
        ∀ j, j < t → (slot d ((h + j) % 2 ^ p)).state ≠ HM_EMPTY := by
  have hlt : ∀ x, x % 2 ^ p ≠ UINT64_MAX := fun x => by
    have := Nat.mod_lt x (Nat.pos_pow_of_pos p (by decide : 0 < 2)); omega
  intro n
  induction n with
  | zero =>
    intro m ft r hne hft hr
    simp only [hm_probe_loop, Prod.mk.injEq, and_true] at hr
    subst hr
    rcases hft with ⟨h1, h2⟩ | ⟨t, ht, h1, h2⟩
    · exact Or.inl ⟨h1, h2⟩
    · refine Or.inr ⟨t, ht, h1, by simp [h2], fun j hj => hne j (by omega)⟩
  | succ n ih =>
    intro m ft r hne hft hr
    unfold hm_probe_loop at hr
    rw [probe_next] at hr
    by_cases h1 : (slot d ((h + m) % 2 ^ p)).state = HM_EMPTY
    · rw [if_pos h1] at hr
      rcases hft with ⟨h2, _⟩ | ⟨t, ht, h2, h3⟩
      · rw [if_neg (not_not.mpr h2)] at hr
        injection hr with hr _
        exact Or.inr ⟨m, by omega, hr.symm, by rw [← hr, h1]; simp, hne⟩
      · have h4 : ft ≠ UINT64_MAX := by rw [h2]; exact hlt _
        rw [if_pos h4] at hr
        injection hr with hr _
        subst hr
        exact Or.inr ⟨t, by omega, h2, by simp [h3], fun j hj => hne j (by omega)⟩
    · have hne2 : ∀ j, j < m + 1 → (slot d ((h + j) % 2 ^ p)).state ≠ HM_EMPTY := by
        intro j hj
        by_cases hjm : j = m
        · subst hjm; exact h1
        · exact hne j (by omega)
      by_cases h2 : (slot d ((h + m) % 2 ^ p)).state = HM_TOMBSTONE
      · rw [if_neg h1, if_pos h2] at hr
        have := ih (m + 1) _ r hne2 (Or.inr (by
          rcases hft with ⟨h3, _⟩ | ⟨t, ht, h3, h4⟩
          · exact ⟨m, by omega, by rw [if_pos h3], by rw [if_pos h3]; exact h2⟩
          · have h5 : ft ≠ UINT64_MAX := by rw [h3]; exact hlt _
            exact ⟨t, by omega, by rw [if_neg h5]; exact h3, by rw [if_neg h5]; exact h4⟩)) hr
        rw [Nat.add_assoc, Nat.add_comm 1 n] at this
        exact this
      · have h3 := state_cases _ h1 h2
        by_cases h4 : equal_fn (slot d ((h + m) % 2 ^ p)).key key = true
        · rw [if_neg h1, if_neg h2, if_pos h4] at hr
          simp at hr
        · rw [if_neg h1, if_neg h2, if_neg h4] at hr
          have := ih (m + 1) ft r hne2 (by
            rcases hft with ⟨h5, h6⟩ | ⟨t, ht, h5, h6⟩
            · refine Or.inl ⟨h5, fun j hj => ?_⟩
              by_cases hjm : j = m
              · subst hjm; exact h3
              · exact h6 j (by omega)
            · exact Or.inr ⟨t, by omega, h5, h6⟩) hr
          rw [Nat.add_assoc, Nat.add_comm 1 n] at this
          exact this
/-- Soundness of the scan: a reported hit is a `Filled` slot holding an equal key. -/
theorem probe_loop_sound (equal_fn : K → K → Bool) (d : List (HM_Entry K V)) (p : Nat) (key : K) :
    ∀ (n idx ft r : Nat), idx < 2 ^ p →
      hm_probe_loop equal_fn d (2 ^ p - 1) key n idx ft = (r, true) →
      r < 2 ^ p ∧ (slot d r).state = HM_FILLED ∧ equal_fn (slot d r).key key = true := by
  intro n
  induction n with
  | zero => intro idx ft r _ h; simp [hm_probe_loop] at h
  | succ n ih =>
    intro idx ft r hidx h
    have hnext : (idx + 1) &&& (2 ^ p - 1) < 2 ^ p := by
      rw [land_mask]; exact Nat.mod_lt _ (Nat.pos_pow_of_pos p (by decide))
    unfold hm_probe_loop at h
    by_cases h1 : (slot d idx).state = HM_EMPTY
    · simp [h1] at h
    · by_cases h2 : (slot d idx).state = HM_TOMBSTONE
      · simp only [h1, h2, if_true, if_false] at h
        exact ih _ _ _ hnext h
      · by_cases h3 : equal_fn (slot d idx).key key = true
        · simp only [h1, h2, h3, if_true, if_false] at h
          injection h with h4 _
          subst h4
          exact ⟨hidx, state_cases _ h1 h2, h3⟩
        · simp only [h1, h2, h3, if_false] at h
          exact ih _ _ _ hnext h
end Probe

section Counting
variable {K V : Type} [Inhabited K] [Inhabited V]

theorem filled_upto_le (d : List (HM_Entry K V)) (n : Nat) : filled_upto d n ≤ n := by
  induction n with
  | zero => simp [filled_upto]
  | succ n ih => simp only [filled_upto]; split <;> omega

theorem filled_upto_congr (d e : List (HM_Entry K V)) (n : Nat)
    (h : ∀ i, i < n → (slot d i).state = (slot e i).state) : filled_upto d n = filled_upto e n := by
  induction n with
  | zero => rfl
  | succ n ih =>
    simp only [filled_upto]
    rw [ih (fun i hi => h i (by omega)), h n (by omega)]

theorem filled_upto_set_ge (d : List (HM_Entry K V)) (i n : Nat) (e : HM_Entry K V) (h : n ≤ i) :
    filled_upto (d.set i e) n = filled_upto d n :=
  filled_upto_congr _ _ _ (fun j hj => by rw [slot_set_ne d i j e (by omega)])

theorem filled_upto_set (d : List (HM_Entry K V)) (i n : Nat) (e : HM_Entry K V)
    (hi : i < d.length) (hn : i < n) :
    filled_upto (d.set i e) n + (if (slot d i).state = HM_FILLED then 1 else 0) =
      filled_upto d n + (if e.state = HM_FILLED then 1 else 0) := by
  induction n with
  | zero => omega
  | succ n ih =>
    simp only [filled_upto]
    by_cases h : i = n
    · subst h
      rw [filled_upto_set_ge d i i e (Nat.le_refl _), slot_set_eq d i e hi]
      omega
    · rw [slot_set_ne d i n e h]
      have := ih (by omega)
      omega

theorem filled_upto_set_le (d : List (HM_Entry K V)) (i n : Nat) (e : HM_Entry K V) :
    filled_upto (d.set i e) n ≤ filled_upto d n + 1 := by
  by_cases hi : i < d.length
  · by_cases hn : i < n
    · have := filled_upto_set d i n e hi hn
      split at this <;> split at this <;> omega
    · rw [filled_upto_set_ge d i n e (by omega)]; omega
  · rw [List.set_eq_of_length_le (by omega)]; omega

theorem filled_upto_all (d : List (HM_Entry K V)) (n : Nat)
    (h : ∀ i, i < n → (slot d i).state = HM_FILLED) : filled_upto d n = n := by
  induction n with
  | zero => rfl
  | succ n ih =>
    simp only [filled_upto]
    rw [ih (fun i hi => h i (by omega)), if_pos (h n (by omega))]

theorem filled_upto_none (d : List (HM_Entry K V)) (n : Nat)
    (h : ∀ i, i < n → (slot d i).state ≠ HM_FILLED) : filled_upto d n = 0 := by
  induction n with
  | zero => rfl
  | succ n ih =>
    simp only [filled_upto]
    rw [ih (fun i hi => h i (by omega)), if_neg (h n (by omega))]

theorem walk_surj (c h i : Nat) (hi : i < c) : ∃ j, j < c ∧ (h + j) % c = i := by
  have hc : 0 < c := by omega
  have hh : h % c < c := Nat.mod_lt _ hc
  by_cases hle : h % c ≤ i
  · refine ⟨i - h % c, by omega, ?_⟩
    rw [← Nat.mod_add_mod, show h % c + (i - h % c) = i by omega, Nat.mod_eq_of_lt hi]
  · refine ⟨c - h % c + i, by omega, ?_⟩
    rw [← Nat.mod_add_mod, show h % c + (c - h % c + i) = i + c by omega, Nat.add_mod_right,
      Nat.mod_eq_of_lt hi]

end Counting

section ProbeSpec
variable {K V : Type} [Inhabited K] [Inhabited V]

theorem probe_eq (hm : HM K V) (d : List (HM_Entry K V)) (p hash : Nat) (key : K)
    (hd : hm.data = some d) (hc : hm.cap = 2 ^ p) :
    hm_probe hm hash key =
      hm_probe_loop hm.equal_fn d (2 ^ p - 1) key (2 ^ p) ((hash + 0) % 2 ^ p) UINT64_MAX := by
  have hpos : 0 < 2 ^ p := Nat.pos_pow_of_pos p (by decide)
  unfold hm_probe
  rw [hd]
  simp only [hc]
  rw [if_neg (by omega), land_mask, Nat.add_zero]

theorem probe_found_gen (hm : HM K V) (d : List (HM_Entry K V)) (p hash r : Nat) (key : K)
    (hd : hm.data = some d) (hc : hm.cap = 2 ^ p) (h : hm_probe hm hash key = (r, true)) :
    r < hm.cap ∧ (slot d r).state = HM_FILLED ∧ hm.equal_fn (slot d r).key key = true := by
  rw [probe_eq hm d p hash key hd hc] at h
  rw [hc]
  exact probe_loop_sound hm.equal_fn d p key _ _ _ _
    (Nat.mod_lt _ (Nat.pos_pow_of_pos p (by decide))) h

theorem probe_found (hm : HM K V) (d : List (HM_Entry K V)) (hash r : Nat) (key : K)
    (hs : StoreOK hm d) (h : hm_probe hm hash key = (r, true)) :
    r < hm.cap ∧ (slot d r).state = HM_FILLED ∧ hm.equal_fn (slot d r).key key = true := by
  obtain ⟨p, _, hc⟩ := hs.hpow
  exact probe_found_gen hm d p hash r key hs.hdata hc h

/-- A scan that does not find the key returns a slot that is not `Filled`, lies on the
walk of the hash, and is preceded on that walk by no `Empty` slot; the sentinel is
not returned as long as some slot is not `Filled`. -/
theorem probe_free_slot_gen (hm : HM K V) (d : List (HM_Entry K V)) (p hash r : Nat) (key : K)
    (hd : hm.data = some d) (hc : hm.cap = 2 ^ p) (hp : p ≤ 62)
    (hcnt : filled_upto d hm.cap < hm.cap) (h : hm_probe hm hash key = (r, false)) :
    r ≠ UINT64_MAX ∧ ∃ t, t < hm.cap ∧ r = (hash + t) % hm.cap ∧ (slot d r).state ≠ HM_FILLED ∧
      ∀ j, j < t → (slot d ((hash + j) % hm.cap)).state ≠ HM_EMPTY := by
  have hpos : 0 < 2 ^ p := Nat.pos_pow_of_pos p (by decide)
  have h62 := pow_le_62 p hp
  have hmax : 2 ^ p ≤ UINT64_MAX := by unfold UINT64_MAX; omega
  rw [probe_eq hm d p hash key hd hc] at h
  have := probe_loop_slot hm.equal_fn d p hash key hmax (2 ^ p) 0 UINT64_MAX r
    (fun j hj => by omega) (Or.inl ⟨rfl, fun j hj => by omega⟩) h
  rw [Nat.zero_add] at this
  rcases this with ⟨_, hall⟩ | ⟨t, ht, hr, hnf, hne⟩
  · exfalso
    have hfull : filled_upto d hm.cap = hm.cap := by
      apply filled_upto_all
      intro i hi
      rw [hc] at hi
      obtain ⟨j, hj, hji⟩ := walk_surj (2 ^ p) hash i hi
      rw [← hji]
      exact hall j hj
    omega
  · rw [hc]
    refine ⟨?_, t, ht, hr, hnf, hne⟩
    rw [hr]
    have := Nat.mod_lt (hash + t) hpos
    omega

theorem probe_free_slot (hm : HM K V) (d : List (HM_Entry K V)) (hash r : Nat) (key : K)
    (hs : StoreOK hm d) (h : hm_probe hm hash key = (r, false)) :
    r ≠ UINT64_MAX ∧ ∃ t, t < hm.cap ∧ r = (hash + t) % hm.cap ∧ (slot d r).state ≠ HM_FILLED ∧
      ∀ j, j < t → (slot d ((hash + j) % hm.cap)).state ≠ HM_EMPTY := by
  obtain ⟨p, hp, hc⟩ := hs.hpow
  have h1 := hs.hcnt
  have h2 := hs.hload
  exact probe_free_slot_gen hm d p hash r key hs.hdata hc hp (by omega) h

end ProbeSpec

/-! ## Allocation and capacity rounding -/

section Rounding
variable {K V : Type} [Inhabited K] [Inhabited V]

theorem calloc_some (alloc : Bool) (n es : Nat) (d : List (HM_Entry K V))
    (h : calloc alloc n es = some d) :
    d = List.replicate n zero_entry ∧ n * es < 2 ^ 64 ∧ alloc = true := by
  unfold calloc at h
  split at h
  · next hc => injection h with h; exact ⟨h.symm, hc.2, hc.1⟩
  · simp at h

theorem calloc_ok (n es : Nat) (h : n * es < 2 ^ 64) :
    (calloc true n es : Option (List (HM_Entry K V))) = some (List.replicate n zero_entry) := by
  unfold calloc
  rw [if_pos ⟨rfl, h⟩]

theorem round_zero (fuel n : Nat) (hn : 0 < n) : hm_reserve_round fuel 0 n = none := by
  induction fuel with
  | zero => rfl
  | succ fuel ih =>
    unfold hm_reserve_round
    rw [if_pos hn]
    exact ih

theorem round_shift (i : Nat) (hi : i < 63) : u64 (2 ^ i <<< 1) = 2 ^ (i + 1) := by
  rw [Nat.shiftLeft_eq, Nat.pow_one, ← Nat.pow_succ]
  apply u64_of_lt
  exact Nat.pow_lt_pow_right (by decide) (by omega)

theorem round_shift_top : u64 (2 ^ 63 <<< 1) = 0 := by decide

theorem round_pow (n : Nat) (hn : 0 < n) :
    ∀ (fuel i c : Nat), i ≤ 63 → hm_reserve_round fuel (2 ^ i) n = some c →
      ∃ p, p ≤ 63 ∧ i ≤ p ∧ c = 2 ^ p ∧ n ≤ c := by
  intro fuel
  induction fuel with
  | zero => intro i c _ h; simp [hm_reserve_round] at h
  | succ fuel ih =>
    intro i c hi h
    unfold hm_reserve_round at h
    by_cases hlt : 2 ^ i < n
    · rw [if_pos hlt] at h
      by_cases h63 : i = 63
      · subst h63
        rw [round_shift_top, round_zero fuel n hn] at h
        simp at h
      · rw [round_shift i (by omega)] at h
        obtain ⟨p, hp, hip, hc, hnc⟩ := ih (i + 1) c (by omega) h
        exact ⟨p, hp, by omega, hc, hnc⟩
    · rw [if_neg hlt] at h
      injection h with h
      exact ⟨i, hi, Nat.le_refl _, h.symm, by omega⟩

theorem round_exact (p : Nat) (hp : p ≤ 63) :
    ∀ (fuel i : Nat), i ≤ p → p - i < fuel → hm_reserve_round fuel (2 ^ i) (2 ^ p) = some (2 ^ p) := by
  intro fuel
  induction fuel with
  | zero => intro i _ h; omega
  | succ fuel ih =>
    intro i hip hf
    unfold hm_reserve_round
    by_cases hlt : i = p
    · subst hlt
      rw [if_neg (by omega)]
    · have : 2 ^ i < 2 ^ p := Nat.pow_lt_pow_right (by decide) (by omega)
      rw [if_pos this, round_shift i (by omega)]
      exact ih (i + 1) (by omega) (by omega)

theorem pow_bound (p es : Nat) (hp : p ≤ 63) (hes : 3 ≤ es) (h : 2 ^ p * es < 2 ^ 64) : p ≤ 62 := by
  by_contra hc
  have h63 : p = 63 := by omega
  subst h63
  have : 2 ^ 63 * 3 ≤ 2 ^ 63 * es := Nat.mul_le_mul_left _ hes
  omega

end Rounding

/-! ## The weak invariant is preserved -/

section Weak
variable {K V : Type} [Inhabited K] [Inhabited V]

theorem rehash_upto_succ (old : List (HM_Entry K V)) (hm : HM K V) (n : Nat) :
    rehash_upto old hm (n + 1) = hm_rehash_step old (rehash_upto old hm n) n := by
  simp [rehash_upto, List.range_succ, List.foldl_append]

theorem filled_upto_replicate (c n : Nat) :
    filled_upto (List.replicate c (zero_entry : HM_Entry K V)) n = 0 :=
  filled_upto_none _ _ (fun i _ => by rw [slot_replicate]; simp [zero_entry])

/-- What the migration loop keeps without any assumption on the key functions. -/
theorem rehash_weak (old : List (HM_Entry K V)) (hm1 : HM K V) (d1 : List (HM_Entry K V))
    (hd1 : hm1.data = some d1) (h0 : hm1.len = 0) :
    ∀ n, n < 2 ^ 63 →
      (rehash_upto old hm1 n).cap = hm1.cap ∧
      (rehash_upto old hm1 n).hash_fn = hm1.hash_fn ∧
      (rehash_upto old hm1 n).equal_fn = hm1.equal_fn ∧
      (rehash_upto old hm1 n).len = filled_upto old n ∧
      ∃ dn, (rehash_upto old hm1 n).data = some dn ∧ dn.length = d1.length ∧
        filled_upto dn hm1.cap ≤ filled_upto d1 hm1.cap + filled_upto old n := by
  intro n
  induction n with
  | zero =>
    intro _
    exact ⟨rfl, rfl, rfl, h0, d1, hd1, rfl, Nat.le_refl _⟩
  | succ n ih =>
    intro hn
    obtain ⟨hcap, hh, he, hl, dn, hdn, hlen, hcnt⟩ := ih (by omega)
    rw [rehash_upto_succ]
    unfold hm_rehash_step
    by_cases hf : (slot old n).state = HM_FILLED
    · rw [if_neg (not_not.mpr hf)]
      simp only [filled_upto, if_pos hf, hdn, Option.map_some']
      refine ⟨hcap, hh, he, ?_, _, rfl, by rw [List.length_set, hlen], ?_⟩
      · rw [hl]
        apply u64_of_lt
        have := filled_upto_le old n
        omega
      · exact Nat.le_trans (filled_upto_set_le _ _ _ _) (by omega)
    · rw [if_pos hf]
      simp only [filled_upto, if_neg hf, Nat.add_zero]
      exact ⟨hcap, hh, he, hl, dn, hdn, hlen, hcnt⟩

/-- The three possible outcomes of `_hm_reserve` on a table that satisfies the weak
invariant. -/
theorem reserve_weak (es : Nat) (alloc : Bool) (hm hm1 : HM K V) (n : Nat) (b : Bool)
    (hes : 3 ≤ es) (hw : WInv hm) (h : _hm_reserve es alloc hm n = some (b, hm1)) :
    (hm1 = hm ∧ (b = true ↔ n ≤ hm.cap)) ∨
    (b = true ∧ hm.cap < n ∧ n ≤ hm1.cap ∧ hm1.len ≤ hm.len ∧
      hm1.hash_fn = hm.hash_fn ∧ hm1.equal_fn = hm.equal_fn ∧ ∃ d, StoreOK hm1 d) := by
  unfold _hm_reserve at h
  by_cases hle : n ≤ hm.cap
  · rw [if_pos hle] at h
    injection h with h
    injection h with hb hm'
    exact Or.inl ⟨hm'.symm, by simp [← hb, hle]⟩
  · rw [if_neg hle] at h
    cases hr : hm_reserve_round 65 1 n with
    | none => rw [hr] at h; simp at h
    | some c =>
      rw [hr] at h
      simp only at h
      cases hcal : (calloc alloc c es : Option (List (HM_Entry K V))) with
      | none =>
        rw [hcal] at h
        simp only [Option.some.injEq, Prod.mk.injEq] at h
        exact Or.inl ⟨h.2.symm, by simp [← h.1, hle]⟩
      | some nd =>
        rw [hcal] at h
        simp only [Option.some.injEq, Prod.mk.injEq] at h
        obtain ⟨hb, hm'⟩ := h
        obtain ⟨hnd, hsize, _⟩ := calloc_some alloc c es nd hcal
        obtain ⟨p, hp, _, hcp, hnc⟩ := round_pow n (by omega) 65 0 c (by omega) (by simpa using hr)
        have hp62 : p ≤ 62 := pow_bound p es hp hes (by rw [← hcp]; exact hsize)
        -- the old store and its size
        have hold : filled_upto (hm.data.getD []) hm.cap ≤ hm.len ∧ hm.len * 4 ≤ hm.cap * 3
            ∧ hm.cap ≤ 2 ^ 62 := by
          rcases hw with ⟨hnone, hc0, hl0⟩ | ⟨d, hs⟩
          · rw [hc0, hl0]; simp [filled_upto]
          · obtain ⟨q, hq, hcq⟩ := hs.hpow
            have := pow_le_62 q hq
            have h1 := hs.hcnt
            have h2 := hs.hload
            rw [hs.hdata]
            simp only [Option.getD_some]
            omega
        have hW := rehash_weak (hm.data.getD [])
          { hm with data := some nd, cap := c, len := 0 } nd rfl rfl hm.cap (by omega)
        rw [hm'] at hW
        obtain ⟨hcap, hh, he, hl, dn, hdn, hlen, hcnt⟩ := hW
        simp only at hcap hh he hcnt
        rw [hnd, filled_upto_replicate, Nat.zero_add] at hcnt
        rw [hnd, List.length_replicate] at hlen
        refine Or.inr ⟨hb.symm, by omega, by omega, by omega, hh, he, dn, ?_⟩
        exact ⟨hdn, by rw [hlen, hcap], ⟨p, hp62, by rw [hcap, hcp]⟩, by rw [hcap, hl]; exact hcnt,
          by rw [hcap]; omega⟩

end Weak

section Weak2
variable {K V : Type} [Inhabited K] [Inhabited V]

theorem storeOK_bounds (hm : HM K V) (d : List (HM_Entry K V)) (hs : StoreOK hm d) :
    0 < hm.cap ∧ hm.cap ≤ 2 ^ 62 ∧ hm.len < hm.cap := by
  obtain ⟨p, hp, hc⟩ := hs.hpow
  have h1 := pow_le_62 p hp
  have h2 : 0 < 2 ^ p := Nat.pos_pow_of_pos p (by decide)
  have h3 := hs.hload
  omega

theorem grow_target (hm : HM K V) (hw : WInv hm) :
    (if hm.cap ≠ 0 then u64 (hm.cap * 2) else 8) = (if hm.cap = 0 then 8 else 2 * hm.cap) ∧
    ∃ q, q ≤ 63 ∧ (if hm.cap = 0 then 8 else 2 * hm.cap) = 2 ^ q := by
  rcases hw with ⟨_, hc0, _⟩ | ⟨d, hs⟩
  · rw [hc0]
    exact ⟨by simp, 3, by omega, by simp⟩
  · obtain ⟨p, hp, hc⟩ := hs.hpow
    have hb := storeOK_bounds hm d hs
    have hne : hm.cap ≠ 0 := by omega
    rw [if_pos hne, if_neg hne]
    refine ⟨?_, p + 1, by omega, by rw [hc, Nat.pow_succ, Nat.mul_comm]⟩
    rw [u64_of_lt _ (by omega), Nat.mul_comm]

/-- On a table that satisfies the weak invariant `hm_grow` returns. -/
theorem grow_total (es : Nat) (alloc : Bool) (hm : HM K V) (hw : WInv hm) :
    ∃ r, hm_grow es alloc hm = some r := by
  obtain ⟨ht, q, hq, hpow⟩ := grow_target hm hw
  unfold hm_grow _hm_reserve
  rw [ht, hpow]
  split
  · exact ⟨_, rfl⟩
  · have := round_exact q hq 65 0 (by omega) (by omega)
    rw [Nat.pow_zero] at this
    rw [this]
    simp only
    split <;> exact ⟨_, rfl⟩

theorem grow_weak (es : Nat) (alloc : Bool) (hm hm1 : HM K V) (b : Bool)
    (hes : 3 ≤ es) (hw : WInv hm) (h : hm_grow es alloc hm = some (b, hm1)) :
    (b = false ∧ hm1 = hm) ∨
    (b = true ∧ 2 * hm.cap ≤ hm1.cap ∧ (hm.cap = 0 → 8 ≤ hm1.cap) ∧ hm1.len ≤ hm.len ∧
      hm1.hash_fn = hm.hash_fn ∧ hm1.equal_fn = hm.equal_fn ∧ ∃ d, StoreOK hm1 d) := by
  obtain ⟨ht, _⟩ := grow_target hm hw
  unfold hm_grow at h
  rw [ht] at h
  rcases reserve_weak es alloc hm hm1 _ b hes hw h with ⟨h1, h2⟩ | ⟨h1, h2, h3, h4, h5, h6, h7⟩
  · left
    refine ⟨?_, h1⟩
    cases b
    · rfl
    · have := h2.mp rfl
      split at this <;> omega
  · right
    refine ⟨h1, ?_, ?_, h4, h5, h6, h7⟩
    · split at h3 <;> omega
    · intro h0
      rw [if_pos h0] at h3
      exact h3

/-- The write at the end of `_hm_put` succeeds and keeps the weak invariant. -/
theorem write_weak (hm : HM K V) (d : List (HM_Entry K V)) (hash r : Nat) (f : Bool) (k : K)
    (v : V) (hs : StoreOK hm d) (hp : hm_probe hm hash k = (r, f))
    (hload : f = false → (hm.len + 1) * 4 < hm.cap * 3) :
    ∃ hm1, hm_put_write hm r f k v = (true, hm1) ∧ hm1.cap = hm.cap ∧
      hm1.hash_fn = hm.hash_fn ∧ hm1.equal_fn = hm.equal_fn ∧ ∃ d1, StoreOK hm1 d1 := by
  have hb := storeOK_bounds hm d hs
  unfold hm_put_write
  cases f with
  | false =>
    have hfree := probe_free_slot hm d hash r k hs hp
    rw [if_neg hfree.1, if_pos rfl]
    refine ⟨_, rfl, rfl, rfl, rfl, d.set r ⟨k, v, HM_FILLED⟩, ?_⟩
    have hl := hload rfl
    have hu : u64 (hm.len + 1) = hm.len + 1 := u64_of_lt _ (by omega)
    refine ⟨by simp [hs.hdata], by simp [hs.hlen], hs.hpow, ?_, ?_⟩
    · simp only [hu]
      exact Nat.le_trans (filled_upto_set_le _ _ _ _) (by have := hs.hcnt; omega)
    · simp only [hu]; exact hl
  | true =>
    have hfound := probe_found hm d hash r k hs hp
    have hne : r ≠ UINT64_MAX := by unfold UINT64_MAX; omega
    rw [if_neg hne, if_neg (by simp)]
    refine ⟨_, rfl, rfl, rfl, rfl, d.set r { slot d r with value := v }, ?_⟩
    refine ⟨by simp [hs.hdata], by simp [hs.hlen], hs.hpow, ?_, hs.hload⟩
    have := filled_upto_set d r hm.cap { slot d r with value := v } (by rw [hs.hlen]; exact hfound.1)
      hfound.1
    rw [if_pos hfound.2.1] at this
    have h2 := hs.hcnt
    show filled_upto (d.set r { slot d r with value := v }) hm.cap ≤ hm.len
    omega

theorem load_check (hm : HM K V) (d : List (HM_Entry K V)) (hs : StoreOK hm d) :
    (u64 (u64 (hm.len + 1) * 4) ≥ u64 (hm.cap * 3)) ↔ (hm.len + 1) * 4 ≥ hm.cap * 3 := by
  have hb := storeOK_bounds hm d hs
  have hl := hs.hload
  rw [u64_of_lt (hm.len + 1) (by omega), u64_of_lt _ (by omega), u64_of_lt _ (by omega)]

theorem put_probe_weak (es : Nat) (alloc : Bool) (hm hm1 : HM K V) (d : List (HM_Entry K V))
    (hash : Nat) (k : K) (v : V) (b : Bool) (hes : 3 ≤ es) (hs : StoreOK hm d)
    (h : hm_put_probe es alloc hm hash k v = some (b, hm1)) :
    hm.cap ≤ hm1.cap ∧ hm1.hash_fn = hm.hash_fn ∧ hm1.equal_fn = hm.equal_fn ∧
      ∃ d1, StoreOK hm1 d1 := by
  unfold hm_put_probe at h
  simp only [load_check hm d hs] at h
  split at h
  · next hc =>
    cases hg : hm_grow es alloc hm with
    | none => rw [hg] at h; simp at h
    | some res =>
      obtain ⟨b1, hm2⟩ := res
      rw [hg] at h
      rcases grow_weak es alloc hm hm2 b1 hes (Or.inr ⟨d, hs⟩) hg with
        ⟨hb1, h2⟩ | ⟨hb1, hcap, _, hlen, hh, he, d2, hs2⟩
      · subst hb1
        simp only [Option.some.injEq, Prod.mk.injEq] at h
        rw [← h.2, h2]
        exact ⟨Nat.le_refl _, rfl, rfl, d, hs⟩
      · subst hb1
        simp only [Option.some.injEq] at h
        have hb := storeOK_bounds hm d hs
        have hl := hs.hload
        obtain ⟨hm3, hw, hc3, hh3, he3, d3, hs3⟩ := write_weak hm2 d2 hash
          (hm_probe hm2 hash k).1 (hm_probe hm2 hash k).2 k v hs2 rfl
          (fun _ => by omega)
        rw [hw] at h
        simp only [Prod.mk.injEq] at h
        rw [← h.2]
        exact ⟨by omega, by rw [hh3, hh], by rw [he3, he], d3, hs3⟩
  · next hc =>
    simp only [Option.some.injEq] at h
    obtain ⟨hm3, hw, hc3, hh3, he3, d3, hs3⟩ := write_weak hm d hash
      (hm_probe hm hash k).1 (hm_probe hm hash k).2 k v hs rfl
      (fun hf => Nat.lt_of_not_le (fun h2 => hc ⟨hf, h2⟩))
    rw [hw] at h
    simp only [Prod.mk.injEq] at h
    rw [← h.2]
    exact ⟨by omega, hh3, he3, d3, hs3⟩

/-- The weak invariant is kept by `_hm_put`, whatever the allocator does. -/
theorem put_weak (es : Nat) (alloc : Bool) (hm hm1 : HM K V) (hash : Nat) (k : K) (v : V)
    (b : Bool) (hes : 3 ≤ es) (hw : WInv hm) (h : _hm_put es alloc hm hash k v = some (b, hm1)) :
    WInv hm1 ∧ hm.cap ≤ hm1.cap ∧ hm1.hash_fn = hm.hash_fn ∧ hm1.equal_fn = hm.equal_fn ∧
      (hm.cap = 0 → hm1 = hm ∨ 8 ≤ hm1.cap) := by
  unfold _hm_put at h
  split at h
  · next hnone =>
    cases hg : hm_grow es alloc hm with
    | none => rw [hg] at h; simp at h
    | some res =>
      obtain ⟨b1, hm2⟩ := res
      rw [hg] at h
      rcases grow_weak es alloc hm hm2 b1 hes hw hg with
        ⟨hb1, h2⟩ | ⟨hb1, hcap, h8, hlen, hh, he, d2, hs2⟩
      · subst hb1
        simp only [Option.some.injEq, Prod.mk.injEq] at h
        rw [← h.2, h2]
        exact ⟨hw, Nat.le_refl _, rfl, rfl, fun _ => Or.inl rfl⟩
      · subst hb1
        simp only at h
        obtain ⟨h1, h2, h3, h4⟩ := put_probe_weak es alloc hm2 hm1 d2 hash k v b hes hs2 h
        exact ⟨Or.inr h4, by omega, by rw [h2, hh], by rw [h3, he],
          fun h0 => Or.inr (Nat.le_trans (h8 h0) h1)⟩
  · next hsome =>
    rcases hw with ⟨hnone, _, _⟩ | ⟨d, hs⟩
    · rw [hnone] at hsome; simp at hsome
    · obtain ⟨h1, h2, h3, h4⟩ := put_probe_weak es alloc hm hm1 d hash k v b hes hs h
      have hb := storeOK_bounds hm d hs
      exact ⟨Or.inr h4, h1, h2, h3, fun h0 => by omega⟩

end Weak2

section Weak3
variable {K V : Type} [Inhabited K] [Inhabited V]

theorem clear_upto_succ (d : List (HM_Entry K V)) (n : Nat) :
    clear_upto d (n + 1) =
      (clear_upto d n).set n { slot (clear_upto d n) n with state := HM_EMPTY } := by
  simp [clear_upto, List.range_succ, List.foldl_append]

theorem clear_upto_length (d : List (HM_Entry K V)) (n : Nat) :
    (clear_upto d n).length = d.length := by
  induction n with
  | zero => rfl
  | succ n ih => rw [clear_upto_succ, List.length_set, ih]

theorem clear_upto_slot (d : List (HM_Entry K V)) (n i : Nat) :
    slot (clear_upto d n) i =
      if i < n ∧ i < d.length then { slot d i with state := HM_EMPTY } else slot d i := by
  induction n with
  | zero => simp [clear_upto]
  | succ n ih =>
    rw [clear_upto_succ]
    by_cases hin : n = i
    · subst hin
      by_cases hl : n < d.length
      · rw [slot_set_eq _ _ _ (by rw [clear_upto_length]; exact hl), ih]
        simp [hl]
      · rw [List.set_eq_of_length_le (by rw [clear_upto_length]; omega), ih]
        simp [hl]
    · rw [slot_set_ne _ _ _ _ hin, ih]
      by_cases h1 : i < n ∧ i < d.length
      · rw [if_pos h1, if_pos ⟨by omega, h1.2⟩]
      · rw [if_neg h1, if_neg (fun h => h1 ⟨by omega, h.2⟩)]

theorem clear_upto_state (d : List (HM_Entry K V)) (n i : Nat) (hi : i < n) (hn : n ≤ d.length) :
    (slot (clear_upto d n) i).state = HM_EMPTY := by
  rw [clear_upto_slot, if_pos ⟨hi, by omega⟩]

theorem init_weak (es : Nat) (alloc : Bool) (hm0 hm : HM K V) (hf : K → Nat)
    (ef : K → K → Bool) (h : _hm_init es alloc hm0 hf ef = (true, hm)) :
    hm.cap = 8 ∧ hm.len = 0 ∧ hm.hash_fn = hf ∧ hm.equal_fn = ef ∧
      hm.data = some (List.replicate 8 zero_entry) ∧
      StoreOK hm (List.replicate 8 zero_entry) := by
  unfold _hm_init at h
  cases hc : (calloc alloc 8 es : Option (List (HM_Entry K V))) with
  | none => rw [hc] at h; simp at h
  | some dat =>
    rw [hc] at h
    simp only [Prod.mk.injEq, true_and] at h
    obtain ⟨hd, _, _⟩ := calloc_some alloc 8 es dat hc
    subst hd
    subst h
    refine ⟨rfl, rfl, rfl, rfl, rfl, rfl, by simp, ⟨3, by omega, rfl⟩, ?_, by simp⟩
    rw [filled_upto_replicate]

theorem remove_weak (hm hm1 : HM K V) (hash : Nat) (k : K) (b : Bool) (hw : WInv hm)
    (h : _hm_remove hm hash k = (b, hm1)) :
    WInv hm1 ∧ hm1.cap = hm.cap ∧ hm1.hash_fn = hm.hash_fn ∧ hm1.equal_fn = hm.equal_fn ∧
      (hm1.data = none ↔ hm.data = none) := by
  unfold _hm_remove at h
  split at h
  · simp only [Prod.mk.injEq] at h
    rw [← h.2]
    exact ⟨hw, rfl, rfl, rfl, Iff.rfl⟩
  · next hfnd =>
    simp only [Prod.mk.injEq] at h
    rw [← h.2]
    rcases hw with ⟨hnone, _, _⟩ | ⟨d, hs⟩
    · exfalso
      apply hfnd
      simp [hm_probe, hnone]
    · have hfound := probe_found hm d hash (hm_probe hm hash k).1 k hs
        (Prod.ext rfl (by simpa using hfnd))
      have hb := storeOK_bounds hm d hs
      have hcnt := filled_upto_set d (hm_probe hm hash k).1 hm.cap
        { slot d (hm_probe hm hash k).1 with state := HM_TOMBSTONE }
        (by rw [hs.hlen]; exact hfound.1) hfound.1
      rw [if_pos hfound.2.1, if_neg (by simp)] at hcnt
      have h1 := hs.hcnt
      have h2 := hs.hload
      have hu : u64 (hm.len + (2 ^ 64 - 1)) = hm.len - 1 := by
        unfold u64
        rw [show hm.len + (2 ^ 64 - 1) = (hm.len - 1) + 2 ^ 64 by omega, Nat.add_mod_right]
        exact Nat.mod_eq_of_lt (by omega)
      refine ⟨Or.inr ⟨d.set (hm_probe hm hash k).1
          { slot d (hm_probe hm hash k).1 with state := HM_TOMBSTONE },
          ⟨by simp only [hs.hdata, Option.map_some'], ?_, hs.hpow, ?_, ?_⟩⟩,
        rfl, rfl, rfl, by simp [hs.hdata]⟩
      · simp [hs.hlen]
      · show filled_upto (d.set _ _) hm.cap ≤ u64 (hm.len + (2 ^ 64 - 1))
        rw [hu]; omega
      · show u64 (hm.len + (2 ^ 64 - 1)) * 4 < hm.cap * 3
        rw [hu]; omega

theorem clear_weak (hm : HM K V) (hw : WInv hm) :
    WInv (_hm_clear hm) ∧ (_hm_clear hm).cap = hm.cap ∧ (_hm_clear hm).len = 0 ∧
      (_hm_clear hm).hash_fn = hm.hash_fn ∧ (_hm_clear hm).equal_fn = hm.equal_fn ∧
      ((_hm_clear hm).data = none ↔ hm.data = none) := by
  unfold _hm_clear
  rcases hw with ⟨hnone, hc, hl⟩ | ⟨d, hs⟩
  · rw [hnone]
    exact ⟨Or.inl ⟨hnone, hc, hl⟩, rfl, hl, rfl, rfl, by simp [hnone]⟩
  · rw [hs.hdata]
    have hb := storeOK_bounds hm d hs
    refine ⟨Or.inr ⟨clear_upto d hm.cap, rfl, ?_, hs.hpow, ?_, ?_⟩, rfl, rfl, rfl, rfl, by simp⟩
    · rw [clear_upto_length]; exact hs.hlen
    · show filled_upto (clear_upto d hm.cap) hm.cap ≤ 0
      rw [filled_upto_none]
      intro i hi
      rw [clear_upto_state d hm.cap i hi (by rw [hs.hlen])]
      simp
    · show 0 * 4 < hm.cap * 3
      omega

theorem free_weak (hm : HM K V) : WInv (_hm_free hm) := Or.inl ⟨rfl, rfl, rfl⟩

/-- Every reachable table satisfies the weak invariant and still carries the functions
given to `hm_init`. -/
theorem reachable_weak (es : Nat) (hf : K → Nat) (ef : K → K → Bool) (hm : HM K V)
    (hes : 3 ≤ es) (hr : Reachable es hf ef hm) :
    WInv hm ∧ hm.hash_fn = hf ∧ hm.equal_fn = ef := by
  induction hr with
  | init alloc hm0 hm h =>
    obtain ⟨_, _, h3, h4, _, h6⟩ := init_weak es alloc hm0 hm hf ef h
    exact ⟨Or.inr ⟨_, h6⟩, h3, h4⟩
  | step alloc op hm hm1 _ hrun ih =>
    obtain ⟨hw, hh, he⟩ := ih
    cases op with
    | put k v =>
      simp only [HM_Op.run, hm_put, Option.map_eq_some'] at hrun
      obtain ⟨⟨b, hm2⟩, hput, h2⟩ := hrun
      simp only at h2
      subst h2
      obtain ⟨h1, _, h3, h4, _⟩ := put_weak es alloc hm hm2 _ k v b hes hw hput
      exact ⟨h1, by rw [h3, hh], by rw [h4, he]⟩
    | remove k =>
      simp only [HM_Op.run, hm_remove, Option.some.injEq] at hrun
      obtain ⟨h1, _, h3, h4, _⟩ := remove_weak hm (_hm_remove hm (u64 (hm.hash_fn k)) k).2
        (u64 (hm.hash_fn k)) k (_hm_remove hm (u64 (hm.hash_fn k)) k).1 hw rfl
      rw [hrun] at h1 h3 h4
      exact ⟨h1, by rw [h3, hh], by rw [h4, he]⟩
    | clear =>
      simp only [HM_Op.run, hm_clear, Option.some.injEq] at hrun
      obtain ⟨h1, _, _, h3, h4, _⟩ := clear_weak hm hw
      rw [hrun] at h1 h3 h4
      exact ⟨h1, by rw [h3, hh], by rw [h4, he]⟩
    | reserve n =>
      simp only [HM_Op.run, hm_reserve, Option.map_eq_some'] at hrun
      obtain ⟨⟨b, hm2⟩, hres, h2⟩ := hrun
      simp only at h2
      subst h2
      rcases reserve_weak es alloc hm hm2 n b hes hw hres with ⟨h1, _⟩ | ⟨_, _, _, _, h5, h6, d, hs⟩
      · rw [h1]; exact ⟨hw, hh, he⟩
      · exact ⟨Or.inr ⟨d, hs⟩, by rw [h5, hh], by rw [h6, he]⟩
    | free =>
      simp only [HM_Op.run, hm_free, Option.some.injEq] at hrun
      rw [← hrun]
      exact ⟨free_weak hm, hh, he⟩

end Weak3

/-! ## Writing one slot: effect on the chain, uniqueness and the live pairs -/

section Strong
variable {K V : Type} [Inhabited K] [Inhabited V]

theorem slot_set_cases (d : List (HM_Entry K V)) (r x : Nat) (e : HM_Entry K V) :
    (x = r ∧ r < d.length ∧ slot (d.set r e) x = e) ∨ slot (d.set r e) x = slot d x := by
  by_cases h : x = r
  · by_cases hl : r < d.length
    · subst h; exact Or.inl ⟨rfl, hl, slot_set_eq d x e hl⟩
    · right; rw [List.set_eq_of_length_le (by omega)]
  · right; exact slot_set_ne d r x e (Ne.symm h)

theorem nonempty_set (d : List (HM_Entry K V)) (r x : Nat) (e : HM_Entry K V)
    (he : e.state ≠ HM_EMPTY) (h : (slot d x).state ≠ HM_EMPTY) :
    (slot (d.set r e) x).state ≠ HM_EMPTY := by
  rcases slot_set_cases d r x e with ⟨_, _, h1⟩ | h1 <;> rw [h1] <;> assumption

theorem chainAt_set (hf : K → Nat) (d : List (HM_Entry K V)) (r i : Nat) (e : HM_Entry K V)
    (hc : ChainAt hf d i) (hk : (slot (d.set r e) i).key = (slot d i).key)
    (he : e.state ≠ HM_EMPTY) : ChainAt hf (d.set r e) i := by
  obtain ⟨t, ht, hi, hne⟩ := hc
  refine ⟨t, by rw [List.length_set]; exact ht, ?_, ?_⟩
  · rw [hk, List.length_set]; exact hi
  · intro j hj
    rw [hk, List.length_set]
    exact nonempty_set _ _ _ _ he (hne j hj)

theorem chain_insert (hf : K → Nat) (d : List (HM_Entry K V)) (r t : Nat) (k : K) (v : V)
    (hc : Chain hf d) (hr : r < d.length) (ht : t < d.length)
    (hrt : r = (hf k + t) % d.length)
    (hne : ∀ j, j < t → (slot d ((hf k + j) % d.length)).state ≠ HM_EMPTY) :
    Chain hf (d.set r ⟨k, v, HM_FILLED⟩) := by
  intro i hi
  by_cases hir : i = r
  · subst hir
    have hs := slot_set_eq d i ⟨k, v, HM_FILLED⟩ hr
    refine ⟨t, by rw [List.length_set]; exact ht, ?_, ?_⟩
    · rw [hs, List.length_set]; exact hrt
    · intro j hj
      rw [hs, List.length_set]
      exact nonempty_set _ _ _ _ (by simp) (hne j hj)
  · have hs := slot_set_ne d r i ⟨k, v, HM_FILLED⟩ (Ne.symm hir)
    rw [hs] at hi
    exact chainAt_set hf d r i _ (hc i hi) (by rw [hs]) (by simp)

theorem chain_update (hf : K → Nat) (d : List (HM_Entry K V)) (r : Nat) (e : HM_Entry K V)
    (hc : Chain hf d) (hk : e.key = (slot d r).key) (he : e.state ≠ HM_EMPTY)
    (hst : e.state = HM_FILLED → (slot d r).state = HM_FILLED) : Chain hf (d.set r e) := by
  intro i hi
  rcases slot_set_cases d r i e with ⟨h1, _, h3⟩ | h3
  · have hF : (slot d i).state = HM_FILLED := by rw [h3] at hi; rw [h1]; exact hst hi
    exact chainAt_set hf d r i e (hc i hF) (by rw [h3, hk, h1]) he
  · exact chainAt_set hf d r i e (hc i (by rw [← h3]; exact hi)) (by rw [h3]) he

theorem uniq_update (ef : K → K → Bool) (d : List (HM_Entry K V)) (r : Nat) (e : HM_Entry K V)
    (hu : Uniq ef d) (hk : e.key = (slot d r).key)
    (hst : e.state = HM_FILLED → (slot d r).state = HM_FILLED) : Uniq ef (d.set r e) := by
  have key : ∀ i, (slot (d.set r e) i).state = HM_FILLED →
      (slot d i).state = HM_FILLED ∧ (slot (d.set r e) i).key = (slot d i).key := by
    intro i hi
    rcases slot_set_cases d r i e with ⟨h1, _, h3⟩ | h3
    · rw [h3] at hi
      exact ⟨by rw [h1]; exact hst hi, by rw [h3, hk, h1]⟩
    · exact ⟨by rw [← h3]; exact hi, by rw [h3]⟩
  intro i j hi hj heq
  obtain ⟨h1, h2⟩ := key i hi
  obtain ⟨h3, h4⟩ := key j hj
  rw [h2, h4] at heq
  exact hu i j h1 h3 heq

theorem uniq_insert (ef : K → K → Bool) (d : List (HM_Entry K V)) (r : Nat) (k : K) (v : V)
    (hu : Uniq ef d) (hsymm : ∀ a b, ef a b = true → ef b a = true)
    (habs : ∀ i, (slot d i).state = HM_FILLED → ef (slot d i).key k = false) :
    Uniq ef (d.set r ⟨k, v, HM_FILLED⟩) := by
  intro i j hi hj heq
  rcases slot_set_cases d r i ⟨k, v, HM_FILLED⟩ with ⟨h1, _, h3⟩ | h3 <;>
    rcases slot_set_cases d r j ⟨k, v, HM_FILLED⟩ with ⟨h4, _, h6⟩ | h6
  · rw [h1, h4]
  · exfalso
    rw [h3, h6] at heq
    rw [h6] at hj
    have := habs j hj
    rw [hsymm _ _ heq] at this
    simp at this
  · exfalso
    rw [h3, h6] at heq
    rw [h3] at hi
    have := habs i hi
    rw [heq] at this
    simp at this
  · rw [h3, h6] at heq
    rw [h3] at hi
    rw [h6] at hj
    exact hu i j hi hj heq

theorem live_insert (ef : K → K → Bool) (d : List (HM_Entry K V)) (r : Nat) (k k1 : K)
    (v v1 : V) (hr : r < d.length) (hnf : (slot d r).state ≠ HM_FILLED) :
    (∃ i, (slot (d.set r ⟨k, v, HM_FILLED⟩) i).state = HM_FILLED ∧
        ef (slot (d.set r ⟨k, v, HM_FILLED⟩) i).key k1 = true ∧
        (slot (d.set r ⟨k, v, HM_FILLED⟩) i).value = v1) ↔
      (ef k k1 = true ∧ v1 = v) ∨
      ∃ i, (slot d i).state = HM_FILLED ∧ ef (slot d i).key k1 = true ∧ (slot d i).value = v1 := by
  constructor
  · rintro ⟨i, h1, h2, h3⟩
    rcases slot_set_cases d r i ⟨k, v, HM_FILLED⟩ with ⟨_, _, h4⟩ | h4
    · rw [h4] at h2 h3
      exact Or.inl ⟨h2, h3.symm⟩
    · rw [h4] at h1 h2 h3
      exact Or.inr ⟨i, h1, h2, h3⟩
  · rintro (⟨h1, h2⟩ | ⟨i, h1, h2, h3⟩)
    · refine ⟨r, ?_⟩
      rw [slot_set_eq d r _ hr]
      exact ⟨rfl, h1, h2.symm⟩
    · have hir : r ≠ i := fun h => hnf (by rw [h]; exact h1)
      refine ⟨i, ?_⟩
      rw [slot_set_ne d r i _ hir]
      exact ⟨h1, h2, h3⟩

theorem live_update (hf : K → Nat) (ef : K → K → Bool) (d : List (HM_Entry K V)) (r : Nat)
    (k k1 : K) (v v1 : V) (fn : FnOK hf ef) (hu : Uniq ef d) (hr : r < d.length)
    (hF : (slot d r).state = HM_FILLED) (hrk : ef (slot d r).key k = true) :
    (∃ i, (slot (d.set r { slot d r with value := v }) i).state = HM_FILLED ∧
        ef (slot (d.set r { slot d r with value := v }) i).key k1 = true ∧
        (slot (d.set r { slot d r with value := v }) i).value = v1) ↔
      (ef k k1 = true ∧ v1 = v) ∨
      (ef k k1 = false ∧
        ∃ i, (slot d i).state = HM_FILLED ∧ ef (slot d i).key k1 = true ∧ (slot d i).value = v1) := by
  have hs := slot_set_eq d r { slot d r with value := v } hr
  constructor
  · rintro ⟨i, h1, h2, h3⟩
    by_cases hir : r = i
    · subst hir
      rw [hs] at h2 h3
      exact Or.inl ⟨fn.trans _ _ _ (fn.symm _ _ hrk) h2, h3.symm⟩
    · rw [slot_set_ne d r i _ hir] at h1 h2 h3
      right
      refine ⟨?_, i, h1, h2, h3⟩
      cases hkk : ef k k1 with
      | false => rfl
      | true =>
        exfalso
        have h4 : ef (slot d i).key (slot d r).key = true :=
          fn.trans _ _ _ h2 (fn.trans _ _ _ (fn.symm _ _ hkk) (fn.symm _ _ hrk))
        exact hir (hu i r h1 hF h4).symm
  · rintro (⟨h1, h2⟩ | ⟨h0, i, h1, h2, h3⟩)
    · refine ⟨r, ?_⟩
      rw [hs]
      exact ⟨hF, fn.trans _ _ _ hrk h1, h2.symm⟩
    · have hir : r ≠ i := by
        intro h
        subst h
        have := fn.trans _ _ _ (fn.symm _ _ hrk) h2
        rw [h0] at this
        simp at this
      refine ⟨i, ?_⟩
      rw [slot_set_ne d r i _ hir]
      exact ⟨h1, h2, h3⟩

theorem live_remove (hf : K → Nat) (ef : K → K → Bool) (d : List (HM_Entry K V)) (r : Nat)
    (k k1 : K) (v1 : V) (fn : FnOK hf ef) (hu : Uniq ef d) (hr : r < d.length)
    (hF : (slot d r).state = HM_FILLED) (hrk : ef (slot d r).key k = true) :
    (∃ i, (slot (d.set r { slot d r with state := HM_TOMBSTONE }) i).state = HM_FILLED ∧
        ef (slot (d.set r { slot d r with state := HM_TOMBSTONE }) i).key k1 = true ∧
        (slot (d.set r { slot d r with state := HM_TOMBSTONE }) i).value = v1) ↔
      (ef k k1 = false ∧
        ∃ i, (slot d i).state = HM_FILLED ∧ ef (slot d i).key k1 = true ∧ (slot d i).value = v1) := by
  have hs := slot_set_eq d r { slot d r with state := HM_TOMBSTONE } hr
  constructor
  · rintro ⟨i, h1, h2, h3⟩
    by_cases hir : r = i
    · subst hir
      rw [hs] at h1
      simp at h1
    · rw [slot_set_ne d r i _ hir] at h1 h2 h3
      refine ⟨?_, i, h1, h2, h3⟩
      cases hkk : ef k k1 with
      | false => rfl
      | true =>
        exfalso
        have h4 : ef (slot d i).key (slot d r).key = true :=
          fn.trans _ _ _ h2 (fn.trans _ _ _ (fn.symm _ _ hkk) (fn.symm _ _ hrk))
        exact hir (hu i r h1 hF h4).symm
  · rintro ⟨h0, i, h1, h2, h3⟩
    have hir : r ≠ i := by
      intro h
      subst h
      have := fn.trans _ _ _ (fn.symm _ _ hrk) h2
      rw [h0] at this
      simp at this
    refine ⟨i, ?_⟩
    rw [slot_set_ne d r i _ hir]
    exact ⟨h1, h2, h3⟩

theorem liveUpto_length (ef : K → K → Bool) (d : List (HM_Entry K V)) (k : K) (v : V) :
    LiveUpto ef d d.length k v ↔
      ∃ i, (slot d i).state = HM_FILLED ∧ ef (slot d i).key k = true ∧ (slot d i).value = v := by
  constructor
  · rintro ⟨i, _, h⟩; exact ⟨i, h⟩
  · rintro ⟨i, h1, h2⟩; exact ⟨i, filled_lt d i h1, h1, h2⟩

theorem liveUpto_succ (ef : K → K → Bool) (d : List (HM_Entry K V)) (n : Nat) (k : K) (v : V) :
    LiveUpto ef d (n + 1) k v ↔
      ((slot d n).state = HM_FILLED ∧ ef (slot d n).key k = true ∧ (slot d n).value = v) ∨
        LiveUpto ef d n k v := by
  constructor
  · rintro ⟨i, hi, h⟩
    by_cases hin : i = n
    · subst hin; exact Or.inl h
    · exact Or.inr ⟨i, by omega, h⟩
  · rintro (h | ⟨i, hi, h⟩)
    · exact ⟨n, by omega, h⟩
    · exact ⟨i, by omega, h⟩

theorem walk_u64 (p h j : Nat) (hp : p ≤ 64) : (u64 h + j) % 2 ^ p = (h + j) % 2 ^ p := by
  rw [Nat.add_mod, u64_mod_pow p h hp, ← Nat.add_mod]

end Strong

/-! ## Lookup on a table that satisfies the invariant -/

section Lookup
variable {K V : Type} [Inhabited K] [Inhabited V]

theorem inv_store (hm : HM K V) (d : List (HM_Entry K V)) (hinv : Inv hm)
    (hd : hm.data = some d) : StoreOK hm d := by
  rcases hinv.weak with ⟨hnone, _, _⟩ | ⟨d1, hs⟩
  · rw [hnone] at hd; simp at hd
  · have := hs.hdata
    rw [hd] at this
    injection this with this
    rw [this]; exact hs

theorem live_some (hm : HM K V) (d : List (HM_Entry K V)) (k : K) (v : V)
    (hd : hm.data = some d) :
    Live hm k v ↔ ∃ i, (slot d i).state = HM_FILLED ∧ hm.equal_fn (slot d i).key k = true ∧
      (slot d i).value = v := by
  rw [← liveUpto_length]
  constructor
  · rintro ⟨d1, h1, h2⟩
    rw [hd] at h1
    injection h1 with h1
    rw [h1]; exact h2
  · intro h; exact ⟨d, hd, h⟩

theorem live_none (hm : HM K V) (k : K) (v : V) (hd : hm.data = none) : ¬ Live hm k v := by
  rintro ⟨d1, h1, _⟩
  rw [hd] at h1
  simp at h1

/-- A key held by a `Filled` slot is found by the probe, at that very slot. -/
theorem probe_hit (hm : HM K V) (d : List (HM_Entry K V)) (i : Nat) (k : K) (hinv : Inv hm)
    (hd : hm.data = some d) (hF : (slot d i).state = HM_FILLED)
    (hik : hm.equal_fn (slot d i).key k = true) :
    hm_probe hm (u64 (hm.hash_fn k)) k = (i, true) := by
  have hs := inv_store hm d hinv hd
  obtain ⟨p, hp, hc⟩ := hs.hpow
  have fn := hinv.fns
  obtain ⟨t, ht, hit, hne⟩ := hinv.hchain d hd i hF
  rw [fn.hash _ _ hik, hs.hlen, hc] at hit hne
  rw [hs.hlen, hc] at ht
  have h2 : (hm_probe hm (u64 (hm.hash_fn k)) k).2 = true := by
    rw [probe_eq hm d p _ k hd hc]
    apply probe_loop_complete hm.equal_fn d p (u64 (hm.hash_fn k)) k (2 ^ p) 0 UINT64_MAX t
      (Nat.zero_le _) (by omega)
    · rw [walk_u64 p _ _ (by omega), ← hit]; exact hF
    · rw [walk_u64 p _ _ (by omega), ← hit]; exact hik
    · intro j _ hj
      rw [walk_u64 p _ _ (by omega)]
      exact hne j hj
  have h3 : hm_probe hm (u64 (hm.hash_fn k)) k = ((hm_probe hm (u64 (hm.hash_fn k)) k).1, true) :=
    Prod.ext rfl h2
  obtain ⟨_, hF2, hk2⟩ := probe_found hm d _ _ k hs h3
  have h4 : hm.equal_fn (slot d (hm_probe hm (u64 (hm.hash_fn k)) k).1).key (slot d i).key = true :=
    fn.trans _ _ _ hk2 (fn.symm _ _ hik)
  have h5 := hinv.huniq d hd _ _ hF2 hF h4
  rw [h3, h5]

/-- When the probe does not find the key, no `Filled` slot holds an equal key. -/
theorem probe_miss (hm : HM K V) (d : List (HM_Entry K V)) (k : K) (hinv : Inv hm)
    (hd : hm.data = some d) (h : (hm_probe hm (u64 (hm.hash_fn k)) k).2 = false) :
    ∀ i, (slot d i).state = HM_FILLED → hm.equal_fn (slot d i).key k = false := by
  intro i hF
  cases hik : hm.equal_fn (slot d i).key k with
  | false => rfl
  | true =>
    rw [probe_hit hm d i k hinv hd hF hik] at h
    simp at h

/-- The probe finds the key exactly when the key is live. -/
theorem probe_found_iff (hm : HM K V) (k : K) (hinv : Inv hm) :
    (hm_probe hm (u64 (hm.hash_fn k)) k).2 = true ↔ ∃ v, Live hm k v := by
  cases hd : hm.data with
  | none =>
    constructor
    · intro h; simp [hm_probe, hd] at h
    · rintro ⟨v, hv⟩; exact absurd hv (live_none hm k v hd)
  | some d =>
    have hs := inv_store hm d hinv hd
    constructor
    · intro h
      obtain ⟨_, hF, hk⟩ := probe_found hm d _ _ k hs (Prod.ext rfl h)
      exact ⟨_, (live_some hm d k _ hd).mpr ⟨_, hF, hk, rfl⟩⟩
    · rintro ⟨v, hv⟩
      obtain ⟨i, hF, hk, _⟩ := (live_some hm d k v hd).mp hv
      rw [probe_hit hm d i k hinv hd hF hk]

/-- The specification of `hm_get`: it returns `v` exactly when `(k, v)` is live. -/
theorem get_iff (hm : HM K V) (k : K) (v : V) (hinv : Inv hm) :
    hm_get hm k = some v ↔ Live hm k v := by
  unfold hm_get _hm_get
  cases hd : hm.data with
  | none =>
    exact ⟨fun h => by simp at h, fun h => absurd h (live_none hm k v hd)⟩
  | some d =>
    have hs := inv_store hm d hinv hd
    simp only
    constructor
    · intro h
      split at h
      · simp at h
      · next hf =>
        injection h with h
        obtain ⟨_, hF, hk⟩ := probe_found hm d _ _ k hs (Prod.ext rfl (by simpa using hf))
        exact (live_some hm d k v hd).mpr ⟨_, hF, hk, h⟩
    · intro h
      obtain ⟨i, hF, hk, hv⟩ := (live_some hm d k v hd).mp h
      rw [probe_hit hm d i k hinv hd hF hk]
      simp [hv]

/-- A key has at most one live value. -/
theorem live_unique (hm : HM K V) (k : K) (v w : V) (hinv : Inv hm) (h1 : Live hm k v)
    (h2 : Live hm k w) : v = w := by
  have a := (get_iff hm k v hinv).mpr h1
  have b := (get_iff hm k w hinv).mpr h2
  rw [a] at b
  injection b

theorem get_none_iff (hm : HM K V) (k : K) (hinv : Inv hm) :
    hm_get hm k = none ↔ ∀ v, ¬ Live hm k v := by
  constructor
  · intro h v hv
    rw [(get_iff hm k v hinv).mpr hv] at h
    simp at h
  · intro h
    cases hg : hm_get hm k with
    | none => rfl
    | some v => exact absurd ((get_iff hm k v hinv).mp hg) (h v)

/-- Two tables with the same live pairs for `k` answer `hm_get k` alike. -/
theorem get_congr (hm hm1 : HM K V) (k : K) (hinv : Inv hm) (hinv1 : Inv hm1)
    (h : ∀ v, Live hm1 k v ↔ Live hm k v) : hm_get hm1 k = hm_get hm k := by
  cases hg : hm_get hm k with
  | none =>
    rw [get_none_iff hm1 k hinv1]
    intro v hv
    exact (get_none_iff hm k hinv).mp hg v ((h v).mp hv)
  | some v =>
    rw [get_iff hm1 k v hinv1, h v, ← get_iff hm k v hinv]
    exact hg

end Lookup

/-! ## Writing a pair keeps the invariant -/

section WriteInv
variable {K V : Type} [Inhabited K] [Inhabited V]

theorem write_insert_eq (hm : HM K V) (d : List (HM_Entry K V)) (r : Nat) (k : K) (v : V)
    (hr : r ≠ UINT64_MAX) (hd : hm.data = some d) :
    hm_put_write hm r false k v =
      (true, { hm with data := some (d.set r ⟨k, v, HM_FILLED⟩), len := u64 (hm.len + 1) }) := by
  simp [hm_put_write, hr, hd]

theorem write_update_eq (hm : HM K V) (d : List (HM_Entry K V)) (r : Nat) (k : K) (v : V)
    (hr : r ≠ UINT64_MAX) (hd : hm.data = some d) :
    hm_put_write hm r true k v =
      (true, { hm with data := some (d.set r { slot d r with value := v }) }) := by
  simp [hm_put_write, hr, hd]

/-- Inserting a key that the probe did not find, at the slot the probe returned. -/
theorem insert_inv (hm : HM K V) (d : List (HM_Entry K V)) (r : Nat) (k : K) (v : V)
    (hinv : Inv hm) (hd : hm.data = some d)
    (hp : hm_probe hm (u64 (hm.hash_fn k)) k = (r, false))
    (hload : (hm.len + 1) * 4 < hm.cap * 3) :
    hm_put_write hm r false k v =
      (true, { hm with data := some (d.set r ⟨k, v, HM_FILLED⟩), len := hm.len + 1 }) ∧
    Inv { hm with data := some (d.set r ⟨k, v, HM_FILLED⟩), len := hm.len + 1 } ∧
    ∀ k1 v1, Live { hm with data := some (d.set r ⟨k, v, HM_FILLED⟩), len := hm.len + 1 } k1 v1 ↔
      (hm.equal_fn k k1 = true ∧ v1 = v) ∨ (hm.equal_fn k k1 = false ∧ Live hm k1 v1) := by
  have hs := inv_store hm d hinv hd
  obtain ⟨p, hp62, hc⟩ := hs.hpow
  have fn := hinv.fns
  obtain ⟨hmax, t, ht, hrt, hnf, hne⟩ := probe_free_slot hm d _ r k hs hp
  have habs := probe_miss hm d k hinv hd (by rw [hp])
  have hb := storeOK_bounds hm d hs
  have hrlt : r < d.length := by
    rw [hrt, hs.hlen]; exact Nat.mod_lt _ hb.1
  have hu : u64 (hm.len + 1) = hm.len + 1 := u64_of_lt _ (by omega)
  have heq := write_insert_eq hm d r k v hmax hd
  rw [hu] at heq
  obtain ⟨hm1, hw, _, _, _, d1, hs1⟩ := write_weak hm d _ r false k v hs hp (fun _ => hload)
  rw [heq] at hw
  injection hw with _ hw
  subst hw
  refine ⟨heq, ⟨Or.inr ⟨d1, hs1⟩, fn, ?_, ?_, ?_⟩, ?_⟩
  · intro d2 hd2
    simp only [Option.some.injEq] at hd2
    subst hd2
    have := filled_upto_set d r hm.cap ⟨k, v, HM_FILLED⟩ hrlt (by rw [← hs.hlen]; exact hrlt)
    rw [if_neg hnf, if_pos rfl] at this
    have h2 := hinv.hcount d hd
    show hm.len + 1 = filled_upto _ hm.cap
    omega
  · intro d2 hd2
    simp only [Option.some.injEq] at hd2
    subst hd2
    apply chain_insert hm.hash_fn d r t k v (hinv.hchain d hd) hrlt (by rw [hs.hlen]; exact ht)
    · rw [hs.hlen, hc, ← walk_u64 p _ _ (by omega), ← hc]; exact hrt
    · intro j hj
      rw [hs.hlen, hc, ← walk_u64 p _ _ (by omega), ← hc]
      exact hne j hj
  · intro d2 hd2
    simp only [Option.some.injEq] at hd2
    subst hd2
    exact uniq_insert hm.equal_fn d r k v (hinv.huniq d hd) fn.symm habs
  · intro k1 v1
    rw [live_some _ (d.set r ⟨k, v, HM_FILLED⟩) k1 v1 rfl, live_some hm d k1 v1 hd]
    show (∃ i, (slot (d.set r ⟨k, v, HM_FILLED⟩) i).state = HM_FILLED ∧
        hm.equal_fn (slot (d.set r ⟨k, v, HM_FILLED⟩) i).key k1 = true ∧
        (slot (d.set r ⟨k, v, HM_FILLED⟩) i).value = v1) ↔ _
    rw [live_insert hm.equal_fn d r k k1 v v1 hrlt hnf]
    constructor
    · rintro (h | ⟨i, h1, h2, h3⟩)
      · exact Or.inl h
      · right
        refine ⟨?_, i, h1, h2, h3⟩
        cases hkk : hm.equal_fn k k1 with
        | false => rfl
        | true =>
          have := habs i h1
          rw [fn.trans _ _ _ h2 (fn.symm _ _ hkk)] at this
          simp at this
    · rintro (h | ⟨_, h⟩)
      · exact Or.inl h
      · exact Or.inr h

/-- Overwriting the value of a key that the probe found. -/
theorem update_inv (hm : HM K V) (d : List (HM_Entry K V)) (r : Nat) (k : K) (v : V)
    (hinv : Inv hm) (hd : hm.data = some d)
    (hp : hm_probe hm (u64 (hm.hash_fn k)) k = (r, true)) :
    hm_put_write hm r true k v =
      (true, { hm with data := some (d.set r { slot d r with value := v }) }) ∧
    Inv { hm with data := some (d.set r { slot d r with value := v }) } ∧
    ∀ k1 v1, Live { hm with data := some (d.set r { slot d r with value := v }) } k1 v1 ↔
      (hm.equal_fn k k1 = true ∧ v1 = v) ∨ (hm.equal_fn k k1 = false ∧ Live hm k1 v1) := by
  have hs := inv_store hm d hinv hd
  have fn := hinv.fns
  obtain ⟨hrc, hF, hrk⟩ := probe_found hm d _ r k hs hp
  have hb := storeOK_bounds hm d hs
  have hrlt : r < d.length := by rw [hs.hlen]; exact hrc
  have hmax : r ≠ UINT64_MAX := by unfold UINT64_MAX; omega
  have heq := write_update_eq hm d r k v hmax hd
  obtain ⟨hm1, hw, _, _, _, d1, hs1⟩ := write_weak hm d _ r true k v hs hp (fun h => by simp at h)
  rw [heq] at hw
  injection hw with _ hw
  subst hw
  refine ⟨heq, ⟨Or.inr ⟨d1, hs1⟩, fn, ?_, ?_, ?_⟩, ?_⟩
  · intro d2 hd2
    simp only [Option.some.injEq] at hd2
    subst hd2
    have := filled_upto_set d r hm.cap { slot d r with value := v } hrlt hrc
    rw [if_pos hF] at this
    have h2 := hinv.hcount d hd
    show hm.len = filled_upto (d.set r { slot d r with value := v }) hm.cap
    omega
  · intro d2 hd2
    simp only [Option.some.injEq] at hd2
    subst hd2
    exact chain_update hm.hash_fn d r _ (hinv.hchain d hd) rfl (by rw [hF]; simp) (fun _ => hF)
  · intro d2 hd2
    simp only [Option.some.injEq] at hd2
    subst hd2
    exact uniq_update hm.equal_fn d r _ (hinv.huniq d hd) rfl (fun _ => hF)
  · intro k1 v1
    rw [live_some _ (d.set r { slot d r with value := v }) k1 v1 rfl, live_some hm d k1 v1 hd]
    exact live_update hm.hash_fn hm.equal_fn d r k k1 v v1 fn (hinv.huniq d hd) hrlt hF hrk

end WriteInv

/-! ## Remove, clear, free and init keep the invariant -/

section OpsInv
variable {K V : Type} [Inhabited K] [Inhabited V]

theorem live_absent_ne (hm : HM K V) (k k1 : K) (v1 : V) (hinv : Inv hm)
    (hno : ∀ v, ¬ Live hm k v) (h : Live hm k1 v1) : hm.equal_fn k k1 = false := by
  cases hkk : hm.equal_fn k k1 with
  | false => rfl
  | true =>
    exfalso
    obtain ⟨d, hd, i, hi, hF, hk, hv⟩ := h
    exact hno _ ⟨d, hd, i, hi, hF, hinv.fns.trans _ _ _ hk (hinv.fns.symm _ _ hkk), rfl⟩

/-- The specification of `hm_remove`. -/
theorem remove_inv (hm hm1 : HM K V) (k : K) (b : Bool) (hinv : Inv hm)
    (h : hm_remove hm k = (b, hm1)) :
    Inv hm1 ∧ hm1.cap = hm.cap ∧ (b = true ↔ ∃ v, Live hm k v) ∧ (b = false → hm1 = hm) ∧
      (b = true → hm1.len + 1 = hm.len) ∧
      ∀ k1 v1, Live hm1 k1 v1 ↔ (hm.equal_fn k k1 = false ∧ Live hm k1 v1) := by
  have hw := remove_weak hm hm1 _ k b hinv.weak h
  unfold hm_remove _hm_remove at h
  split at h
  · next hf =>
    simp only [Prod.mk.injEq] at h
    obtain ⟨hb, hm'⟩ := h
    subst hb hm'
    have hno : ∀ v, ¬ Live hm k v := fun v hv => by
      have := (probe_found_iff hm k hinv).mpr ⟨v, hv⟩
      rw [hf] at this
      simp at this
    refine ⟨hinv, rfl, ?_, fun _ => rfl, fun h => by simp at h, fun k1 v1 => ?_⟩
    · constructor
      · intro h; simp at h
      · rintro ⟨v, hv⟩; exact absurd hv (hno v)
    · exact ⟨fun h => ⟨live_absent_ne hm k k1 v1 hinv hno h, h⟩, fun h => h.2⟩
  · next hf =>
    simp only [Prod.mk.injEq] at h
    obtain ⟨hb, hm'⟩ := h
    have hf2 : (hm_probe hm (u64 (hm.hash_fn k)) k).2 = true := by simpa using hf
    cases hd : hm.data with
    | none => simp [hm_probe, hd] at hf2
    | some d =>
      have hs := inv_store hm d hinv hd
      have fn := hinv.fns
      obtain ⟨hrc, hF, hrk⟩ := probe_found hm d _ _ k hs (Prod.ext rfl hf2)
      have hrlt : (hm_probe hm (u64 (hm.hash_fn k)) k).1 < d.length := by rw [hs.hlen]; exact hrc
      have hcnt := filled_upto_set d (hm_probe hm (u64 (hm.hash_fn k)) k).1 hm.cap
        { slot d (hm_probe hm (u64 (hm.hash_fn k)) k).1 with state := HM_TOMBSTONE } hrlt hrc
      rw [if_pos hF, if_neg (by simp)] at hcnt
      have hc0 := hinv.hcount d hd
      have hb2 := storeOK_bounds hm d hs
      have hu : u64 (hm.len + (2 ^ 64 - 1)) = hm.len - 1 := by
        unfold u64
        rw [show hm.len + (2 ^ 64 - 1) = (hm.len - 1) + 2 ^ 64 by omega, Nat.add_mod_right]
        exact Nat.mod_eq_of_lt (by omega)
      rw [hd, hu] at hm'
      simp only [Option.map_some'] at hm'
      subst hb hm'
      refine ⟨⟨hw.1, fn, ?_, ?_, ?_⟩, rfl, ?_, fun h => by simp at h, fun _ => ?_, fun k1 v1 => ?_⟩
      · intro d2 hd2
        simp only [Option.some.injEq] at hd2
        subst hd2
        show hm.len - 1 = filled_upto (d.set (hm_probe hm (u64 (hm.hash_fn k)) k).1
          { slot d (hm_probe hm (u64 (hm.hash_fn k)) k).1 with state := HM_TOMBSTONE }) hm.cap
        omega
      · intro d2 hd2
        simp only [Option.some.injEq] at hd2
        subst hd2
        exact chain_update hm.hash_fn d _ _ (hinv.hchain d hd) rfl (by simp) (fun h => by simp at h)
      · intro d2 hd2
        simp only [Option.some.injEq] at hd2
        subst hd2
        exact uniq_update hm.equal_fn d _ _ (hinv.huniq d hd) rfl (fun h => by simp at h)
      · exact ⟨fun _ => (probe_found_iff hm k hinv).mp hf2, fun _ => rfl⟩
      · show hm.len - 1 + 1 = hm.len
        omega
      · rw [live_some _ _ k1 v1 rfl, live_some hm d k1 v1 hd]
        exact live_remove hm.hash_fn hm.equal_fn d _ k k1 v1 fn (hinv.huniq d hd) hrlt hF hrk

/-- The specification of `hm_clear`: no pair is live afterwards. -/
theorem clear_inv (hm : HM K V) (hinv : Inv hm) :
    Inv (hm_clear hm) ∧ ∀ k v, ¬ Live (hm_clear hm) k v := by
  have hw := clear_weak hm hinv.weak
  unfold hm_clear at *
  have hE : ∀ d2, (_hm_clear hm).data = some d2 → ∀ i, (slot d2 i).state ≠ HM_FILLED := by
    intro d2 hd2 i
    unfold _hm_clear at hd2
    cases hd : hm.data with
    | none => rw [hd] at hd2; simp [hd] at hd2
    | some d =>
      rw [hd] at hd2
      simp only [Option.some.injEq] at hd2
      subst hd2
      have hs := inv_store hm d hinv hd
      rw [clear_upto_slot]
      split
      · simp
      · next hc =>
        intro hF
        have := filled_lt d i hF
        rw [hs.hlen] at hc this
        exact hc ⟨this, this⟩
  refine ⟨⟨hw.1, ?_, ?_, ?_, ?_⟩, ?_⟩
  · rw [hw.2.2.2.1, hw.2.2.2.2.1]; exact hinv.fns
  · intro d2 hd2
    rw [hw.2.2.1, filled_upto_none d2 _ (fun i _ => hE d2 hd2 i)]
  · intro d2 hd2 i hF
    exact absurd hF (hE d2 hd2 i)
  · intro d2 hd2 i j hF
    exact absurd hF (hE d2 hd2 i)
  · rintro k v ⟨d2, hd2, i, _, hF, _⟩
    exact hE d2 hd2 i hF

theorem free_inv (hm : HM K V) (hinv : Inv hm) :
    Inv (hm_free hm) ∧ ∀ k v, ¬ Live (hm_free hm) k v := by
  refine ⟨⟨free_weak hm, hinv.fns, ?_, ?_, ?_⟩, fun k v => live_none _ k v rfl⟩ <;>
  · intro d hd
    simp [hm_free, _hm_free] at hd

theorem init_inv (es : Nat) (alloc : Bool) (hm0 hm : HM K V) (hf : K → Nat)
    (ef : K → K → Bool) (fn : FnOK hf ef) (h : _hm_init es alloc hm0 hf ef = (true, hm)) :
    Inv hm ∧ ∀ k v, ¬ Live hm k v := by
  obtain ⟨h1, h2, h3, h4, h5, h6⟩ := init_weak es alloc hm0 hm hf ef h
  have hE : ∀ d2, hm.data = some d2 → ∀ i, (slot d2 i).state ≠ HM_FILLED := by
    intro d2 hd2 i
    rw [h5] at hd2
    injection hd2 with hd2
    rw [← hd2, slot_replicate]
    simp [zero_entry]
  refine ⟨⟨Or.inr ⟨_, h6⟩, by rw [h3, h4]; exact fn, ?_, ?_, ?_⟩, ?_⟩
  · intro d2 hd2
    rw [h2, filled_upto_none d2 _ (fun i _ => hE d2 hd2 i)]
  · intro d2 hd2 i hF
    exact absurd hF (hE d2 hd2 i)
  · intro d2 hd2 i j hF
    exact absurd hF (hE d2 hd2 i)
  · rintro k v ⟨d2, hd2, i, _, hF, _⟩
    exact hE d2 hd2 i hF

end OpsInv

/-! ## Growth keeps the invariant and the live pairs -/

section GrowInv
variable {K V : Type} [Inhabited K] [Inhabited V]

theorem filled_upto_mono (d : List (HM_Entry K V)) (n m : Nat) (h : n ≤ m) :
    filled_upto d n ≤ filled_upto d m := by
  induction m with
  | zero =>
    have : n = 0 := by omega
    subst this; exact Nat.le_refl _
  | succ m ih =>
    by_cases hn : n = m + 1
    · subst hn; exact Nat.le_refl _
    · have := ih (by omega)
      simp only [filled_upto]
      omega

/-- The loop invariant of the migration loop: after `n` iterations the new table
satisfies the invariant and its live pairs are those of the first `n` old slots. -/
theorem rehash_strong (old : List (HM_Entry K V)) (hm1 : HM K V) (N : Nat) (hinv1 : Inv hm1)
    (hsome : hm1.data ≠ none) (hempty : ∀ k v, ¬ Live hm1 k v) (hlen0 : hm1.len = 0)
    (hu : Uniq hm1.equal_fn old) (hold : filled_upto old N * 4 < hm1.cap * 3) :
    ∀ n, n ≤ N →
      Inv (rehash_upto old hm1 n) ∧
      (rehash_upto old hm1 n).cap = hm1.cap ∧
      (rehash_upto old hm1 n).hash_fn = hm1.hash_fn ∧
      (rehash_upto old hm1 n).equal_fn = hm1.equal_fn ∧
      (rehash_upto old hm1 n).len = filled_upto old n ∧
      (rehash_upto old hm1 n).data ≠ none ∧
      ∀ k v, Live (rehash_upto old hm1 n) k v ↔ LiveUpto hm1.equal_fn old n k v := by
  intro n
  induction n with
  | zero =>
    intro _
    refine ⟨hinv1, rfl, rfl, rfl, hlen0, hsome, fun k v => ?_⟩
    constructor
    · intro h; exact absurd h (hempty k v)
    · rintro ⟨i, hi, _⟩; omega
  | succ n ih =>
    intro hn
    obtain ⟨hinv, hcap, hh, he, hl, hdat, hlive⟩ := ih (by omega)
    rw [rehash_upto_succ]
    generalize rehash_upto old hm1 n = hm at hinv hcap hh he hl hdat hlive
    unfold hm_rehash_step
    by_cases hF : (slot old n).state = HM_FILLED
    · rw [if_neg (not_not.mpr hF)]
      obtain ⟨d, hd⟩ := Option.ne_none_iff_exists'.mp hdat
      have hno : ∀ v, ¬ Live hm (slot old n).key v := by
        intro v hv
        obtain ⟨i, hi, hFi, hki, _⟩ := (hlive _ v).mp hv
        have := hu i n hFi hF hki
        omega
      have hmiss : (hm_probe hm (u64 (hm.hash_fn (slot old n).key)) (slot old n).key).2 = false := by
        cases hp : (hm_probe hm (u64 (hm.hash_fn (slot old n).key)) (slot old n).key).2 with
        | false => rfl
        | true =>
          obtain ⟨v, hv⟩ := (probe_found_iff hm _ hinv).mp hp
          exact absurd hv (hno v)
      have hmono := filled_upto_mono old (n + 1) N hn
      simp only [filled_upto, if_pos hF] at hmono
      obtain ⟨_, hinv2, hlive2⟩ := insert_inv hm d _ (slot old n).key (slot old n).value hinv hd
        (Prod.ext rfl hmiss) (by rw [hl, hcap]; omega)
      have hb := storeOK_bounds hm d (inv_store hm d hinv hd)
      have hu64 : u64 (hm.len + 1) = hm.len + 1 := u64_of_lt _ (by omega)
      simp only [hd, Option.map_some', hu64]
      refine ⟨hinv2, hcap, hh, he, ?_, by simp, fun k v => ?_⟩
      · simp only [filled_upto, if_pos hF, hl]
      · rw [liveUpto_succ, ← hlive k v]
        show Live _ k v ↔ _
        rw [hlive2 k v, he]
        constructor
        · rintro (⟨h1, h2⟩ | ⟨_, h2⟩)
          · exact Or.inl ⟨hF, h1, h2.symm⟩
          · exact Or.inr h2
        · rintro (⟨_, h1, h2⟩ | h2)
          · exact Or.inl ⟨h1, h2.symm⟩
          · right
            refine ⟨?_, h2⟩
            have := live_absent_ne hm _ k v hinv hno h2
            rw [he] at this
            exact this
    · rw [if_pos hF]
      refine ⟨hinv, hcap, hh, he, ?_, hdat, fun k v => ?_⟩
      · simp only [filled_upto, if_neg hF, Nat.add_zero, hl]
      · rw [liveUpto_succ, hlive k v]
        constructor
        · intro h; exact Or.inr h
        · rintro (⟨h1, _⟩ | h)
          · exact absurd h1 hF
          · exact h

/-- The outcomes of `_hm_reserve`, with the new table written out. -/
theorem reserve_cases (es : Nat) (alloc : Bool) (hm hm1 : HM K V) (n : Nat) (b : Bool)
    (h : _hm_reserve es alloc hm n = some (b, hm1)) :
    (hm1 = hm ∧ (b = true ↔ n ≤ hm.cap)) ∨
    (b = true ∧ hm.cap < n ∧ 0 < n ∧ ∃ c, hm_reserve_round 65 1 n = some c ∧ c * es < 2 ^ 64 ∧
      alloc = true ∧
      hm1 = rehash_upto (hm.data.getD [])
        { hm with data := some (List.replicate c zero_entry), cap := c, len := 0 } hm.cap) := by
  unfold _hm_reserve at h
  by_cases hle : n ≤ hm.cap
  · rw [if_pos hle] at h
    simp only [Option.some.injEq, Prod.mk.injEq] at h
    exact Or.inl ⟨h.2.symm, by simp [← h.1, hle]⟩
  · rw [if_neg hle] at h
    cases hr : hm_reserve_round 65 1 n with
    | none => rw [hr] at h; simp at h
    | some c =>
      rw [hr] at h
      simp only at h
      cases hcal : (calloc alloc c es : Option (List (HM_Entry K V))) with
      | none =>
        rw [hcal] at h
        simp only [Option.some.injEq, Prod.mk.injEq] at h
        exact Or.inl ⟨h.2.symm, by simp [← h.1, hle]⟩
      | some nd =>
        rw [hcal] at h
        simp only [Option.some.injEq, Prod.mk.injEq] at h
        obtain ⟨hnd, hsize, ha⟩ := calloc_some alloc c es nd hcal
        subst hnd
        exact Or.inr ⟨h.1.symm, by omega, by omega, c, rfl, hsize, ha, h.2.symm⟩

/-- The specification of `_hm_reserve`: the invariant, the live pairs and the length
are kept; when it reallocates, the new capacity is the rounded request. -/
theorem reserve_inv (es : Nat) (alloc : Bool) (hm hm1 : HM K V) (n : Nat) (b : Bool)
    (hes : 3 ≤ es) (hinv : Inv hm) (h : _hm_reserve es alloc hm n = some (b, hm1)) :
    Inv hm1 ∧ (∀ k v, Live hm1 k v ↔ Live hm k v) ∧ hm1.len = hm.len ∧
      hm1.hash_fn = hm.hash_fn ∧ hm1.equal_fn = hm.equal_fn ∧
      ((hm1 = hm ∧ (b = true ↔ n ≤ hm.cap)) ∨
        (b = true ∧ hm.cap < n ∧ hm_reserve_round 65 1 n = some hm1.cap ∧ hm1.data ≠ none)) := by
  rcases reserve_cases es alloc hm hm1 n b h with ⟨h1, h2⟩ | ⟨hb, hlt, hn0, c, hr, hsize, _, hm'⟩
  · subst h1
    exact ⟨hinv, fun _ _ => Iff.rfl, rfl, rfl, rfl, Or.inl ⟨rfl, h2⟩⟩
  · obtain ⟨p, hp, _, hcp, hnc⟩ := round_pow n hn0 65 0 c (by omega) (by simpa using hr)
    have hp62 : p ≤ 62 := pow_bound p es hp hes (by rw [← hcp]; exact hsize)
    have hcpos : 0 < c := by rw [hcp]; exact Nat.pos_pow_of_pos p (by decide)
    have fn := hinv.fns
    have hE : ∀ i, (slot (List.replicate c (zero_entry : HM_Entry K V)) i).state ≠ HM_FILLED := by
      intro i; rw [slot_replicate]; simp [zero_entry]
    have hinv0 : Inv ({ hm with data := some (List.replicate c zero_entry), cap := c, len := 0 }
        : HM K V) := by
      refine ⟨Or.inr ⟨_, ⟨rfl, by simp, ⟨p, hp62, hcp⟩, ?_, ?_⟩⟩, fn, ?_, ?_, ?_⟩
      · show filled_upto _ c ≤ 0
        rw [filled_upto_replicate]
      · show 0 * 4 < c * 3
        omega
      · intro d2 hd2
        simp only [Option.some.injEq] at hd2
        subst hd2
        show 0 = filled_upto _ c
        rw [filled_upto_replicate]
      · intro d2 hd2 i hF
        simp only [Option.some.injEq] at hd2
        subst hd2
        exact absurd hF (hE i)
      · intro d2 hd2 i j hF
        simp only [Option.some.injEq] at hd2
        subst hd2
        exact absurd hF (hE i)
    have hempty : ∀ k v, ¬ Live
        ({ hm with data := some (List.replicate c zero_entry), cap := c, len := 0 } : HM K V)
        k v := by
      rintro k v ⟨d2, hd2, i, _, hF, _⟩
      simp only [Option.some.injEq] at hd2
      subst hd2
      exact hE i hF
    -- the old store
    have hold : Uniq hm.equal_fn (hm.data.getD []) ∧
        filled_upto (hm.data.getD []) hm.cap = hm.len ∧ hm.len * 4 ≤ hm.cap * 3 ∧
        ∀ k v, LiveUpto hm.equal_fn (hm.data.getD []) hm.cap k v ↔ Live hm k v := by
      cases hd : hm.data with
      | none =>
        rcases hinv.weak with ⟨_, hc0, hl0⟩ | ⟨d, hs⟩
        · refine ⟨?_, by rw [hc0, hl0]; rfl, by omega, fun k v => ?_⟩
          · intro i j hF
            simp [slot, zero_entry] at hF
          · rw [hc0]
            constructor
            · rintro ⟨i, hi, _⟩; omega
            · intro hl; exact absurd hl (live_none hm k v hd)
        · have := hs.hdata; rw [hd] at this; simp at this
      | some d =>
        have hs := inv_store hm d hinv hd
        have hl := hs.hload
        refine ⟨hinv.huniq d hd, (hinv.hcount d hd).symm, by omega, fun k v => ?_⟩
        simp only [Option.getD_some]
        rw [← hs.hlen]
        constructor
        · intro hl; exact ⟨d, hd, hl⟩
        · rintro ⟨d2, hd2, hl⟩
          rw [hd] at hd2
          injection hd2 with hd2
          subst hd2
          exact hl
    obtain ⟨hu, hcnt, hload, hlv⟩ := hold
    obtain ⟨r1, r2, r3, r4, r5, r6, r7⟩ := rehash_strong (hm.data.getD [])
      { hm with data := some (List.replicate c zero_entry), cap := c, len := 0 } hm.cap hinv0
      (by simp) hempty rfl hu (by rw [hcnt]; show hm.len * 4 < c * 3; omega) hm.cap (Nat.le_refl _)
    rw [← hm'] at r1 r2 r3 r4 r5 r6 r7
    refine ⟨r1, fun k v => ?_, by rw [r5, hcnt], r3, r4, Or.inr ⟨hb, hlt, ?_, r6⟩⟩
    · rw [r7 k v]; exact hlv k v
    · rw [r2]; exact hr

end GrowInv

/-! ## The specification of `hm_put` -/

section PutInv
variable {K V : Type} [Inhabited K] [Inhabited V]

/-- The specification of `hm_grow`. -/
theorem grow_inv (es : Nat) (alloc : Bool) (hm hm1 : HM K V) (b : Bool) (hes : 3 ≤ es)
    (hinv : Inv hm) (h : hm_grow es alloc hm = some (b, hm1)) :
    Inv hm1 ∧ (∀ k v, Live hm1 k v ↔ Live hm k v) ∧ hm1.len = hm.len ∧
      hm1.hash_fn = hm.hash_fn ∧ hm1.equal_fn = hm.equal_fn ∧
      ((b = false ∧ hm1 = hm) ∨
        (b = true ∧ hm1.cap = (if hm.cap = 0 then 8 else 2 * hm.cap) ∧ hm1.data ≠ none)) := by
  obtain ⟨ht, q, hq, hpow⟩ := grow_target hm hinv.weak
  unfold hm_grow at h
  rw [ht] at h
  obtain ⟨h1, h2, h3, h4, h5, h6⟩ := reserve_inv es alloc hm hm1 _ b hes hinv h
  refine ⟨h1, h2, h3, h4, h5, ?_⟩
  have hlt : hm.cap < (if hm.cap = 0 then 8 else 2 * hm.cap) := by split <;> omega
  rcases h6 with ⟨h7, h8⟩ | ⟨h7, _, h9, h10⟩
  · left
    refine ⟨?_, h7⟩
    cases b
    · rfl
    · have := h8.mp rfl
      omega
  · right
    refine ⟨h7, ?_, h10⟩
    have := round_exact q hq 65 0 (by omega) (by omega)
    rw [Nat.pow_zero, ← hpow] at this
    rw [this] at h9
    injection h9 with h9
    exact h9.symm

theorem put_probe_inv (es : Nat) (alloc : Bool) (hm hm1 : HM K V) (k : K) (v : V) (b : Bool)
    (hes : 3 ≤ es) (hinv : Inv hm) (hsome : hm.data ≠ none)
    (h : hm_put_probe es alloc hm (u64 (hm.hash_fn k)) k v = some (b, hm1)) :
    Inv hm1 ∧ hm1.hash_fn = hm.hash_fn ∧ hm1.equal_fn = hm.equal_fn ∧ (b = false → hm1 = hm) ∧
      (b = true → PutPost hm hm1 k v) := by
  obtain ⟨d, hd⟩ := Option.ne_none_iff_exists'.mp hsome
  have hs := inv_store hm d hinv hd
  have hb := storeOK_bounds hm d hs
  have hl := hs.hload
  have hpres : ∀ r, hm_probe hm (u64 (hm.hash_fn k)) k = (r, true) → ∃ v0, Live hm k v0 :=
    fun r hr => (probe_found_iff hm k hinv).mp (by rw [hr])
  have habs : ∀ r, hm_probe hm (u64 (hm.hash_fn k)) k = (r, false) → ∀ v0, ¬ Live hm k v0 := by
    intro r hr v0 hv0
    have := (probe_found_iff hm k hinv).mpr ⟨v0, hv0⟩
    rw [hr] at this
    simp at this
  unfold hm_put_probe at h
  simp only [load_check hm d hs] at h
  split at h
  · next hc =>
    obtain ⟨hmiss, hload⟩ := hc
    have hno := habs _ (Prod.ext rfl hmiss)
    cases hg : hm_grow es alloc hm with
    | none => rw [hg] at h; simp at h
    | some res =>
      obtain ⟨b1, hm2⟩ := res
      rw [hg] at h
      obtain ⟨hinv2, hlive2, hlen2, hh2, he2, hcase⟩ := grow_inv es alloc hm hm2 b1 hes hinv hg
      rcases hcase with ⟨hb1, hm2eq⟩ | ⟨hb1, hcap2, hdat2⟩
      · subst hb1
        simp only [Option.some.injEq, Prod.mk.injEq] at h
        obtain ⟨hbb, hmm⟩ := h
        subst hbb hmm hm2eq
        exact ⟨hinv, rfl, rfl, fun _ => rfl, fun h => by simp at h⟩
      · subst hb1
        simp only [Option.some.injEq] at h
        rw [if_neg (by omega)] at hcap2
        obtain ⟨d2, hd2⟩ := Option.ne_none_iff_exists'.mp hdat2
        rw [← hh2] at h
        have hno2 : ∀ v0, ¬ Live hm2 k v0 := fun v0 hv0 => hno v0 ((hlive2 k v0).mp hv0)
        have hmiss2 : (hm_probe hm2 (u64 (hm2.hash_fn k)) k).2 = false := by
          cases hp : (hm_probe hm2 (u64 (hm2.hash_fn k)) k).2 with
          | false => rfl
          | true =>
            obtain ⟨v0, hv0⟩ := (probe_found_iff hm2 k hinv2).mp hp
            exact absurd hv0 (hno2 v0)
        obtain ⟨hw, hinv3, hlive3⟩ := insert_inv hm2 d2 _ k v hinv2 hd2 (Prod.ext rfl hmiss2)
          (by rw [hlen2, hcap2]; omega)
        rw [hmiss2, hw] at h
        simp only [Prod.mk.injEq] at h
        obtain ⟨hbb, hmm⟩ := h
        subst hbb hmm
        refine ⟨hinv3, hh2, he2, fun h => by simp at h, fun _ => ⟨fun k1 v1 => ?_, ?_, ?_⟩⟩
        · rw [hlive3 k1 v1, he2, hlive2 k1 v1]
        · rintro ⟨v0, hv0⟩; exact absurd hv0 (hno v0)
        · intro _
          refine ⟨by show hm2.len + 1 = hm.len + 1; rw [hlen2], fun _ hlt => ?_, fun _ _ => hcap2,
            fun hn => absurd hn hsome⟩
          omega
  · next hc =>
    simp only [Option.some.injEq] at h
    cases hp : (hm_probe hm (u64 (hm.hash_fn k)) k).2 with
    | false =>
      have hno := habs _ (Prod.ext rfl hp)
      have hload : (hm.len + 1) * 4 < hm.cap * 3 := Nat.lt_of_not_le (fun h2 => hc ⟨hp, h2⟩)
      obtain ⟨hw, hinv3, hlive3⟩ := insert_inv hm d _ k v hinv hd (Prod.ext rfl hp) hload
      rw [hp, hw] at h
      simp only [Prod.mk.injEq] at h
      obtain ⟨hbb, hmm⟩ := h
      subst hbb hmm
      refine ⟨hinv3, rfl, rfl, fun h => by simp at h, fun _ => ⟨hlive3, ?_, ?_⟩⟩
      · rintro ⟨v0, hv0⟩; exact absurd hv0 (hno v0)
      · intro _
        exact ⟨rfl, fun _ _ => rfl, fun _ hge => by omega, fun hn => absurd hn hsome⟩
    | true =>
      have hyes := hpres _ (Prod.ext rfl hp)
      obtain ⟨hw, hinv3, hlive3⟩ := update_inv hm d _ k v hinv hd (Prod.ext rfl hp)
      rw [hp, hw] at h
      simp only [Prod.mk.injEq] at h
      obtain ⟨hbb, hmm⟩ := h
      subst hbb hmm
      refine ⟨hinv3, rfl, rfl, fun h => by simp at h, fun _ => ⟨hlive3, fun _ => ⟨rfl, rfl⟩, ?_⟩⟩
      intro hno
      obtain ⟨v0, hv0⟩ := hyes
      exact absurd hv0 (hno v0)

/-- The specification of `hm_put`: the invariant is kept; a failed call leaves the table
as it was; a successful call has the effect `PutPost`. -/
theorem put_inv (es : Nat) (alloc : Bool) (hm hm1 : HM K V) (k : K) (v : V) (b : Bool)
    (hes : 3 ≤ es) (hinv : Inv hm) (h : hm_put es alloc hm k v = some (b, hm1)) :
    Inv hm1 ∧ hm1.hash_fn = hm.hash_fn ∧ hm1.equal_fn = hm.equal_fn ∧ (b = false → hm1 = hm) ∧
      (b = true → PutPost hm hm1 k v) := by
  unfold hm_put _hm_put at h
  split at h
  · next hnone =>
    have hdn : hm.data = none := by simpa using hnone
    rcases hinv.weak with ⟨_, hc0, hl0⟩ | ⟨d, hs⟩
    · cases hg : hm_grow es alloc hm with
      | none => rw [hg] at h; simp at h
      | some res =>
        obtain ⟨b1, hm2⟩ := res
        rw [hg] at h
        obtain ⟨hinv2, hlive2, hlen2, hh2, he2, hcase⟩ := grow_inv es alloc hm hm2 b1 hes hinv hg
        rcases hcase with ⟨hb1, hm2eq⟩ | ⟨hb1, hcap2, hdat2⟩
        · subst hb1
          simp only [Option.some.injEq, Prod.mk.injEq] at h
          obtain ⟨hbb, hmm⟩ := h
          subst hbb hmm hm2eq
          exact ⟨hinv, rfl, rfl, fun _ => rfl, fun h => by simp at h⟩
        · subst hb1
          simp only at h
          rw [← hh2] at h
          rw [if_pos hc0] at hcap2
          obtain ⟨i1, i2, i3, i4, i5⟩ := put_probe_inv es alloc hm2 hm1 k v b hes hinv2 hdat2 h
          refine ⟨i1, by rw [i2, hh2], by rw [i3, he2], ?_, ?_⟩
          · intro hbf
            exfalso
            -- a put into the fresh store of capacity 8 needs no further growth
            have := i4 hbf
            subst this
            obtain ⟨d2, hd2⟩ := Option.ne_none_iff_exists'.mp hdat2
            have hs2 := inv_store hm1 d2 hinv2 hd2
            unfold hm_put_probe at h
            simp only [load_check hm1 d2 hs2] at h
            rw [if_neg (by rw [hlen2, hl0, hcap2]; omega)] at h
            simp only [Option.some.injEq] at h
            obtain ⟨hm3, hw3, _⟩ := write_weak hm1 d2 (u64 (hm1.hash_fn k))
              (hm_probe hm1 (u64 (hm1.hash_fn k)) k).1 (hm_probe hm1 (u64 (hm1.hash_fn k)) k).2
              k v hs2 rfl (fun _ => by rw [hlen2, hl0, hcap2]; omega)
            rw [hw3, hbf] at h
            simp at h
          · intro hbt
            obtain ⟨j1, j2, j3⟩ := i5 hbt
            have hno : ∀ v0, ¬ Live hm k v0 := fun v0 hv0 => live_none hm k v0 hdn hv0
            have hno2 : ∀ v0, ¬ Live hm2 k v0 := fun v0 hv0 => hno v0 ((hlive2 k v0).mp hv0)
            obtain ⟨j4, j5, _, _⟩ := j3 hno2
            refine ⟨fun k1 v1 => ?_, ?_, ?_⟩
            · rw [j1 k1 v1, he2, hlive2 k1 v1]
            · rintro ⟨v0, hv0⟩; exact absurd hv0 (hno v0)
            · intro _
              refine ⟨by rw [j4, hlen2], fun hn => absurd hdn hn, fun hn => absurd hdn hn,
                fun _ => ?_⟩
              rw [j5 hdat2 (by rw [hlen2, hl0, hcap2]; omega), hcap2]
    · have := hs.hdata; rw [hdn] at this; simp at this
  · next hsome =>
    have hdn : hm.data ≠ none := by
      intro hn; rw [hn] at hsome; simp at hsome
    exact put_probe_inv es alloc hm hm1 k v b hes hinv hdn h

/-- On a table that satisfies the invariant `hm_put` returns. -/
theorem put_total (es : Nat) (alloc : Bool) (hm : HM K V) (k : K) (v : V) (hes : 3 ≤ es)
    (hw : WInv hm) : ∃ r, hm_put es alloc hm k v = some r := by
  have key : ∀ hm2 : HM K V, WInv hm2 → ∀ hash,
      ∃ r, hm_put_probe es alloc hm2 hash k v = some r := by
    intro hm2 hw2 hash
    unfold hm_put_probe
    split
    · obtain ⟨⟨b1, hm3⟩, hg⟩ := grow_total es alloc hm2 hw2
      rw [hg]
      cases b1 <;> exact ⟨_, rfl⟩
    · exact ⟨_, rfl⟩
  unfold hm_put _hm_put
  split
  · obtain ⟨⟨b1, hm3⟩, hg⟩ := grow_total es alloc hm hw
    rw [hg]
    cases b1
    · exact ⟨_, rfl⟩
    · simp only
      rcases grow_weak es alloc hm hm3 true hes hw hg with ⟨h1, _⟩ | ⟨_, _, _, _, _, _, d, hs⟩
      · simp at h1
      · exact key hm3 (Or.inr ⟨d, hs⟩) _
  · exact key hm hw _

end PutInv

/-! ## Reachable tables satisfy the invariant -/

section ReachInv
variable {K V : Type} [Inhabited K] [Inhabited V]

/-- One public operation keeps the invariant. -/
theorem run_inv (es : Nat) (alloc : Bool) (op : HM_Op K V) (hm hm1 : HM K V) (hes : 3 ≤ es)
    (hinv : Inv hm) (hrun : op.run es alloc hm = some hm1) : Inv hm1 := by
  cases op with
  | put k v =>
    simp only [HM_Op.run, Option.map_eq_some'] at hrun
    obtain ⟨⟨b, hm2⟩, hput, h2⟩ := hrun
    simp only at h2
    subst h2
    exact (put_inv es alloc hm hm2 k v b hes hinv hput).1
  | remove k =>
    simp only [HM_Op.run, Option.some.injEq] at hrun
    subst hrun
    exact (remove_inv hm _ k _ hinv rfl).1
  | clear =>
    simp only [HM_Op.run, Option.some.injEq] at hrun
    subst hrun
    exact (clear_inv hm hinv).1
  | reserve n =>
    simp only [HM_Op.run, hm_reserve, Option.map_eq_some'] at hrun
    obtain ⟨⟨b, hm2⟩, hres, h2⟩ := hrun
    simp only at h2
    subst h2
    exact (reserve_inv es alloc hm hm2 n b hes hinv hres).1
  | free =>
    simp only [HM_Op.run, Option.some.injEq] at hrun
    subst hrun
    exact (free_inv hm hinv).1

/-- Every reachable table satisfies the full invariant, provided the functions given to
`hm_init` satisfy the hashing and equality contract. -/
theorem reachable_inv (es : Nat) (hf : K → Nat) (ef : K → K → Bool) (hm : HM K V)
    (hes : 3 ≤ es) (fn : FnOK hf ef) (hr : Reachable es hf ef hm) : Inv hm := by
  induction hr with
  | init alloc hm0 hm h => exact (init_inv es alloc hm0 hm hf ef fn h).1
  | step alloc op hm hm1 _ hrun ih => exact run_inv es alloc op hm hm1 hes ih hrun

end ReachInv

/-! ## When `hm_put` and `hm_reserve` succeed -/

section Success
variable {K V : Type} [Inhabited K] [Inhabited V]

/-- A put that needs no growth returns `true`, whatever the allocator does. -/
theorem put_nogrow (es : Nat) (alloc : Bool) (hm : HM K V) (k : K) (v : V) (hinv : Inv hm)
    (hsome : hm.data ≠ none)
    (h : (∃ v0, Live hm k v0) ∨ (hm.len + 1) * 4 < hm.cap * 3) :
    ∃ hm1, hm_put es alloc hm k v = some (true, hm1) := by
  obtain ⟨d, hd⟩ := Option.ne_none_iff_exists'.mp hsome
  have hs := inv_store hm d hinv hd
  unfold hm_put _hm_put
  rw [if_neg (by rw [hd]; simp)]
  unfold hm_put_probe
  simp only [load_check hm d hs]
  have hcond : ¬ ((hm_probe hm (u64 (hm.hash_fn k)) k).2 = false ∧
      (hm.len + 1) * 4 ≥ hm.cap * 3) := by
    rintro ⟨h1, h2⟩
    rcases h with h | h
    · have := (probe_found_iff hm k hinv).mpr h
      rw [h1] at this
      simp at this
    · omega
  rw [if_neg hcond]
  obtain ⟨hm1, hw, _⟩ := write_weak hm d (u64 (hm.hash_fn k))
    (hm_probe hm (u64 (hm.hash_fn k)) k).1 (hm_probe hm (u64 (hm.hash_fn k)) k).2 k v hs rfl
    (fun hf => Nat.lt_of_not_le (fun h2 => hcond ⟨hf, h2⟩))
  exact ⟨hm1, by rw [hw]⟩

/-- The rounding loop returns for every request up to `2 ^ 63`. -/
theorem round_total (n : Nat) (hn : n ≤ 2 ^ 63) :
    ∀ (fuel i : Nat), i ≤ 63 → 63 - i < fuel → ∃ c, hm_reserve_round fuel (2 ^ i) n = some c := by
  intro fuel
  induction fuel with
  | zero => intro i _ h; omega
  | succ fuel ih =>
    intro i hi hf
    unfold hm_reserve_round
    by_cases hlt : 2 ^ i < n
    · rw [if_pos hlt]
      have h63 : i ≠ 63 := by
        intro h; subst h; omega
      rw [round_shift i (by omega)]
      exact ih (i + 1) (by omega) (by omega)
    · rw [if_neg hlt]
      exact ⟨_, rfl⟩

/-- The function `_hm_reserve` returns for every request up to `2 ^ 63`. -/
theorem reserve_total (es : Nat) (alloc : Bool) (hm : HM K V) (n : Nat) (hn : n ≤ 2 ^ 63) :
    ∃ r, _hm_reserve es alloc hm n = some r := by
  unfold _hm_reserve
  split
  · exact ⟨_, rfl⟩
  · obtain ⟨c, hc⟩ := round_total n hn 65 0 (by omega) (by omega)
    rw [Nat.pow_zero] at hc
    rw [hc]
    simp only
    split <;> exact ⟨_, rfl⟩

/-- When the allocator serves the request, `hm_grow` succeeds. -/
theorem grow_alloc_ok (es : Nat) (hm : HM K V) (hw : WInv hm)
    (hsize : (if hm.cap = 0 then 8 else 2 * hm.cap) * es < 2 ^ 64) :
    ∃ hm1, hm_grow es true hm = some (true, hm1) := by
  obtain ⟨ht, q, hq, hpow⟩ := grow_target hm hw
  unfold hm_grow _hm_reserve
  rw [ht]
  have hlt : ¬ (if hm.cap = 0 then 8 else 2 * hm.cap) ≤ hm.cap := by split <;> omega
  rw [if_neg hlt]
  have := round_exact q hq 65 0 (by omega) (by omega)
  rw [Nat.pow_zero, ← hpow] at this
  rw [this]
  simp only
  rw [calloc_ok _ es hsize]
  exact ⟨_, rfl⟩

/-- When the allocator serves the request of the growth (if any), `hm_put` succeeds. -/
theorem put_alloc_ok (es : Nat) (hm : HM K V) (k : K) (v : V) (hes : 3 ≤ es) (hinv : Inv hm)
    (hsize : (if hm.cap = 0 then 8 else 2 * hm.cap) * es < 2 ^ 64) :
    ∃ hm1, hm_put es true hm k v = some (true, hm1) := by
  obtain ⟨⟨b, hm1⟩, hput⟩ := put_total es true hm k v hes hinv.weak
  cases b with
  | true => exact ⟨hm1, hput⟩
  | false =>
    exfalso
    have hback := hput
    unfold hm_put _hm_put at hput
    obtain ⟨hm2, hg⟩ := grow_alloc_ok es hm hinv.weak hsize
    split at hput
    · next hnone =>
      rw [hg] at hput
      simp only at hput
      obtain ⟨hinv2, _, hlen2, hh2, _, hcase⟩ := grow_inv es true hm hm2 true hes hinv hg
      rcases hcase with ⟨h1, _⟩ | ⟨_, hcap2, hdat2⟩
      · simp at h1
      · have hc0 : hm.cap = 0 ∧ hm.len = 0 := by
          rcases hinv.weak with ⟨_, h1, h2⟩ | ⟨d, hs⟩
          · exact ⟨h1, h2⟩
          · have := hs.hdata
            rw [Option.isNone_iff_eq_none.mp hnone] at this
            simp at this
        rw [if_pos hc0.1] at hcap2
        rw [← hh2] at hput
        obtain ⟨hm3, h3⟩ := put_nogrow es true hm2 k v hinv2 hdat2
          (Or.inr (by rw [hlen2, hc0.2, hcap2]; omega))
        unfold hm_put _hm_put at h3
        rw [if_neg (by simpa using hdat2)] at h3
        rw [h3] at hput
        simp at hput
    · next hsome =>
      unfold hm_put_probe at hput
      split at hput
      · rw [hg] at hput
        simp only [Option.some.injEq] at hput
        obtain ⟨_, _, _, _, _, _, d2, hs2⟩ :=
          (grow_weak es true hm hm2 true hes hinv.weak hg).resolve_left (by simp)
        obtain ⟨_, hlen2, hcap2⟩ : True ∧ hm2.len ≤ hm.len ∧ 2 * hm.cap ≤ hm2.cap := by
          rcases grow_weak es true hm hm2 true hes hinv.weak hg with ⟨h1, _⟩ | ⟨_, h2, _, h4, _⟩
          · simp at h1
          · exact ⟨trivial, h4, h2⟩
        have hd0 : ∃ d, StoreOK hm d := by
          rcases hinv.weak with ⟨h1, _, _⟩ | h
          · rw [h1] at hsome; simp at hsome
          · exact h
        obtain ⟨d, hs⟩ := hd0
        have hb := storeOK_bounds hm d hs
        have hl := hs.hload
        obtain ⟨hm3, hw3, _⟩ := write_weak hm2 d2 (u64 (hm.hash_fn k))
          (hm_probe hm2 (u64 (hm.hash_fn k)) k).1 (hm_probe hm2 (u64 (hm.hash_fn k)) k).2 k v
          hs2 rfl (fun _ => by omega)
        rw [hw3] at hput
        simp at hput
      · next hcond =>
        have hd0 : ∃ d, StoreOK hm d := by
          rcases hinv.weak with ⟨h1, _, _⟩ | h
          · rw [h1] at hsome; simp at hsome
          · exact h
        obtain ⟨d, hs⟩ := hd0
        simp only [load_check hm d hs] at hcond
        obtain ⟨hm3, hw3, _⟩ := write_weak hm d (u64 (hm.hash_fn k))
          (hm_probe hm (u64 (hm.hash_fn k)) k).1 (hm_probe hm (u64 (hm.hash_fn k)) k).2 k v
          hs rfl (fun hf => Nat.lt_of_not_le (fun h2 => hcond ⟨hf, h2⟩))
        rw [hw3] at hput
        simp at hput

end Success

/-! ## The concrete instance -/

section Examples

theorem ex_fnok : FnOK ex_hash ex_equal := by
  refine ⟨?_, ?_, ?_, ?_⟩
  · intro a; simp [ex_equal]
  · intro a b h; simp [ex_equal] at h ⊢; exact h.symm
  · intro a b c h1 h2; simp [ex_equal] at h1 h2 ⊢; exact h1.trans h2
  · intro a b h; simp [ex_equal] at h; rw [h]

theorem reachable_run_ops {K V : Type} [Inhabited K] [Inhabited V] (es : Nat) (hf : K → Nat)
    (ef : K → K → Bool) (ops : List (Bool × HM_Op K V)) :
    ∀ (hm dflt : HM K V), Reachable es hf ef hm → (run_ops es hm ops).isSome = true →
      Reachable es hf ef ((run_ops es hm ops).getD dflt) := by
  induction ops with
  | nil =>
    intro hm dflt hr _
    exact hr
  | cons x rest ih =>
    intro hm dflt hr h
    obtain ⟨alloc, op⟩ := x
    simp only [run_ops] at h ⊢
    cases hrun : op.run es alloc hm with
    | none => rw [hrun] at h; simp at h
    | some hm2 =>
      rw [hrun] at h
      exact ih hm2 dflt (Reachable.step alloc op hm hm2 hr hrun) h

/-- A run without any reserve stays within the restricted reachability relation. -/
theorem reachable_nsr_run_ops {K V : Type} [Inhabited K] [Inhabited V] (es : Nat) (hf : K → Nat)
    (ef : K → K → Bool) (ops : List (Bool × HM_Op K V)) :
    ∀ (hm dflt : HM K V), ReachableNoSmallReserve es hf ef hm →
      (∀ x ∈ ops, ∀ n, x.2 ≠ HM_Op.reserve n) → (run_ops es hm ops).isSome = true →
      ReachableNoSmallReserve es hf ef ((run_ops es hm ops).getD dflt) := by
  induction ops with
  | nil =>
    intro hm dflt hr _ _
    exact hr
  | cons x rest ih =>
    intro hm dflt hr hno h
    obtain ⟨alloc, op⟩ := x
    simp only [run_ops] at h ⊢
    cases hrun : op.run es alloc hm with
    | none => rw [hrun] at h; simp at h
    | some hm2 =>
      rw [hrun] at h
      exact ih hm2 dflt
        (ReachableNoSmallReserve.step alloc op hm hm2 hr
          (fun n hn => absurd hn (hno (alloc, op) (List.mem_cons_self _ _) n)) hrun)
        (fun y hy => hno y (List.mem_cons_of_mem _ hy)) h

theorem ex_init_reachable : Reachable 24 ex_hash ex_equal ex_init :=
  Reachable.init true ex_blank ex_init rfl

theorem ex_table_reachable : Reachable 24 ex_hash ex_equal ex_table :=
  reachable_run_ops 24 ex_hash ex_equal _ ex_init ex_blank ex_init_reachable (by decide)

theorem ex_small_reachable : Reachable 24 ex_hash ex_equal ex_small :=
  reachable_run_ops 24 ex_hash ex_equal _ ex_init ex_blank ex_init_reachable (by decide)

theorem ex_refilled_reachable : ReachableNoSmallReserve 24 ex_hash ex_equal ex_refilled :=
  reachable_nsr_run_ops 24 ex_hash ex_equal _ ex_init ex_blank
    (ReachableNoSmallReserve.init true ex_blank ex_init rfl)
    (fun x hx n => by
      simp only [List.mem_cons, List.mem_singleton, List.not_mem_nil, or_false] at hx
      rcases hx with h | h <;> rw [h] <;> simp)
    (by decide)

end Examples

/-! ## The claims -/

section Claims
variable {K V : Type} [Inhabited K] [Inhabited V]

/-- C5. Load-factor invariant: in every table reachable from a successful `hm_init` by
put, remove, clear, reserve and free (whatever the allocator does), `cap * 3 ≥ len * 4`.
Arithmetic cannot wrap because `calloc` refuses a store whose byte size does not fit
64 bits and an entry occupies at least 3 bytes. -/
theorem C5_load_factor (es : Nat) (hf : K → Nat) (ef : K → K → Bool) (hm : HM K V)
    (hes : 3 ≤ es) (hr : Reachable es hf ef hm) : hm.cap * 3 ≥ hm.len * 4 := by
  rcases (reachable_weak es hf ef hm hes hr).1 with ⟨_, hc, hl⟩ | ⟨d, hs⟩
  · rw [hc, hl]
  · exact Nat.le_of_lt hs.hload

theorem C5_load_factor_witness :
    (3 ≤ 24 ∧ Reachable 24 ex_hash ex_equal ex_table) ∧ ex_table.cap * 3 ≥ ex_table.len * 4 :=
  ⟨⟨by decide, ex_table_reachable⟩,
    C5_load_factor 24 ex_hash ex_equal ex_table (by decide) ex_table_reachable⟩

/-- C6. In every reachable table a store is allocated exactly when `cap ≠ 0`, and then
`cap` is a power of two, so that `hash & (cap - 1)` is a slot index below `cap` and
equals `hash % cap`. -/
theorem C6_capacity_power_of_two (es : Nat) (hf : K → Nat) (ef : K → K → Bool) (hm : HM K V)
    (hes : 3 ≤ es) (hr : Reachable es hf ef hm) :
    (hm.data ≠ none ↔ hm.cap ≠ 0) ∧
    (hm.cap ≠ 0 → (∃ p, hm.cap = 2 ^ p) ∧
      ∀ hash, hash &&& (hm.cap - 1) < hm.cap ∧ hash &&& (hm.cap - 1) = hash % hm.cap) := by
  rcases (reachable_weak es hf ef hm hes hr).1 with ⟨hd, hc, _⟩ | ⟨d, hs⟩
  · exact ⟨by simp [hd, hc], fun h => absurd hc h⟩
  · have hb := storeOK_bounds hm d hs
    obtain ⟨p, _, hc⟩ := hs.hpow
    refine ⟨⟨fun _ => by omega, fun _ => by simp [hs.hdata]⟩,
      fun _ => ⟨⟨p, hc⟩, fun hash => ?_⟩⟩
    rw [hc, land_mask]
    exact ⟨Nat.mod_lt _ (by omega), rfl⟩

theorem C6_capacity_power_of_two_witness :
    (3 ≤ 24 ∧ Reachable 24 ex_hash ex_equal ex_table) ∧
    ((ex_table.data ≠ none ↔ ex_table.cap ≠ 0) ∧
    (ex_table.cap ≠ 0 → (∃ p, ex_table.cap = 2 ^ p) ∧
      ∀ hash, hash &&& (ex_table.cap - 1) < ex_table.cap ∧
        hash &&& (ex_table.cap - 1) = hash % ex_table.cap)) :=
  ⟨⟨by decide, ex_table_reachable⟩,
    C6_capacity_power_of_two 24 ex_hash ex_equal ex_table (by decide) ex_table_reachable⟩

/-- C7, as stated, fails: after `hm_init`, `hm_free`, `hm_reserve(1)` the table is
reachable, has a store, and its capacity is 1. -/
theorem C7_counterexample :
    Reachable 24 ex_hash ex_equal ex_small ∧ ex_small.data ≠ none ∧ ex_small.cap = 1 ∧
      ¬ (8 ≤ ex_small.cap) :=
  ⟨ex_small_reachable, by decide, by decide, by decide⟩

/-- C7, amended. In every table reachable from a successful `hm_init` by put, remove,
clear, reserve and free in which `hm_reserve` is never called with a request below 5 on a
table of capacity 0, an allocated store has capacity at least 8; this covers a store
allocated by put after a free. -/
theorem C7_capacity_at_least_8 (es : Nat) (hf : K → Nat) (ef : K → K → Bool) (hm : HM K V)
    (hes : 3 ≤ es) (hr : ReachableNoSmallReserve es hf ef hm) :
    hm.data ≠ none → 8 ≤ hm.cap := by
  have key : Reachable es hf ef hm ∧ (hm.data ≠ none → 8 ≤ hm.cap) := by
    induction hr with
    | init alloc hm0 hm h =>
      obtain ⟨h1, _⟩ := init_weak es alloc hm0 hm hf ef h
      exact ⟨Reachable.init alloc hm0 hm h, fun _ => by omega⟩
    | step alloc op hm hm1 _ hsmall hrun ih =>
      obtain ⟨hr0, h8⟩ := ih
      refine ⟨Reachable.step alloc op hm hm1 hr0 hrun, ?_⟩
      have hw := (reachable_weak es hf ef hm hes hr0).1
      have hcap0 : hm.data = none → hm.cap = 0 := by
        intro hn
        rcases hw with ⟨_, hc, _⟩ | ⟨d, hs⟩
        · exact hc
        · have := hs.hdata; rw [hn] at this; simp at this
      have hdat : hm.cap ≠ 0 → hm.data ≠ none := fun h hn => h (hcap0 hn)
      cases op with
      | put k v =>
        simp only [HM_Op.run, hm_put, Option.map_eq_some'] at hrun
        obtain ⟨⟨b, hm2⟩, hput, h2⟩ := hrun
        simp only at h2
        subst h2
        obtain ⟨_, h2, _, _, h5⟩ := put_weak es alloc hm hm2 _ k v b hes hw hput
        intro hd
        by_cases hc : hm.cap = 0
        · rcases h5 hc with h | h
          · subst h
            exact h8 hd
          · exact h
        · have := h8 (hdat hc)
          omega
      | remove k =>
        simp only [HM_Op.run, hm_remove, Option.some.injEq] at hrun
        obtain ⟨_, h2, _, _, h5⟩ := remove_weak hm (_hm_remove hm (u64 (hm.hash_fn k)) k).2
          (u64 (hm.hash_fn k)) k (_hm_remove hm (u64 (hm.hash_fn k)) k).1 hw rfl
        rw [hrun] at h2 h5
        intro hd
        rw [h2]
        exact h8 (fun hn => hd (h5.mpr hn))
      | clear =>
        simp only [HM_Op.run, hm_clear, Option.some.injEq] at hrun
        obtain ⟨_, h2, _, _, _, h5⟩ := clear_weak hm hw
        rw [hrun] at h2 h5
        intro hd
        rw [h2]
        exact h8 (fun hn => hd (h5.mpr hn))
      | reserve n =>
        simp only [HM_Op.run, hm_reserve, Option.map_eq_some'] at hrun
        obtain ⟨⟨b, hm2⟩, hres, h2⟩ := hrun
        simp only at h2
        subst h2
        intro hd
        rcases reserve_weak es alloc hm hm2 n b hes hw hres with
          ⟨h1, _⟩ | ⟨_, hlt, hle, _, _, _, d, hs⟩
        · subst h1; exact h8 hd
        · by_cases hc : hm.cap = 0
          · have h5 := hsmall n rfl hc
            obtain ⟨p, _, hp⟩ := hs.hpow
            have hp3 : 3 ≤ p := by
              by_contra hlt3
              have : p = 0 ∨ p = 1 ∨ p = 2 := by omega
              rcases this with h | h | h <;> subst h <;> simp at hp <;> omega
            have := Nat.pow_le_pow_right (by decide : 0 < 2) hp3
            omega
          · have := h8 (hdat hc)
            omega
      | free =>
        simp only [HM_Op.run, hm_free, Option.some.injEq] at hrun
        subst hrun
        intro hd
        simp [_hm_free] at hd
  exact key.2

theorem C7_capacity_at_least_8_witness :
    (3 ≤ 24 ∧ ReachableNoSmallReserve 24 ex_hash ex_equal ex_refilled ∧
      ex_refilled.data ≠ none) ∧ 8 ≤ ex_refilled.cap :=
  ⟨⟨by decide, ex_refilled_reachable, by decide⟩,
    C7_capacity_at_least_8 24 ex_hash ex_equal ex_refilled (by decide) ex_refilled_reachable
      (by decide)⟩

/-- C9. Key uniqueness: in every reachable table (functions satisfying the contract) two
distinct slots that are both `Filled` never hold keys that `equal_fn` reports equal. -/
theorem C9_key_uniqueness (es : Nat) (hf : K → Nat) (ef : K → K → Bool) (hm : HM K V)
    (hes : 3 ≤ es) (fn : FnOK hf ef) (hr : Reachable es hf ef hm) :
    ∀ d, hm.data = some d → ∀ i j, i < hm.cap → j < hm.cap → i ≠ j →
      (slot d i).state = HM_FILLED → (slot d j).state = HM_FILLED →
      hm.equal_fn (slot d i).key (slot d j).key = false := by
  intro d hd i j _ _ hij hi hj
  have hinv := reachable_inv es hf ef hm hes fn hr
  cases h : hm.equal_fn (slot d i).key (slot d j).key with
  | false => rfl
  | true => exact absurd (hinv.huniq d hd i j hi hj h) hij

theorem C9_key_uniqueness_witness :
    (3 ≤ 24 ∧ FnOK ex_hash ex_equal ∧ Reachable 24 ex_hash ex_equal ex_table) ∧
    ∀ d, ex_table.data = some d → ∀ i j, i < ex_table.cap → j < ex_table.cap → i ≠ j →
      (slot d i).state = HM_FILLED → (slot d j).state = HM_FILLED →
      ex_table.equal_fn (slot d i).key (slot d j).key = false :=
  ⟨⟨by decide, ex_fnok, ex_table_reachable⟩,
    C9_key_uniqueness 24 ex_hash ex_equal ex_table (by decide) ex_fnok ex_table_reachable⟩

end Claims

section Claims2
variable {K V : Type} [Inhabited K] [Inhabited V]

/-- C1. Last write wins. On every reachable table `hm_put(k, v1)` returns; when it
succeeds (it fails only if the allocation of a growth fails, leaving the table as it
was) `hm_get(k)` yields `v1`, a following `hm_put(k, v2)` succeeds whatever the allocator
does, and `hm_get(k)` then yields `v2`. -/
theorem C1_last_write_wins (es : Nat) (hf : K → Nat) (ef : K → K → Bool) (hm : HM K V)
    (hes : 3 ≤ es) (fn : FnOK hf ef) (hr : Reachable es hf ef hm) (k : K) (v1 v2 : V)
    (a1 a2 : Bool) :
    ∃ b1 hm1, hm_put es a1 hm k v1 = some (b1, hm1) ∧
      (b1 = true → hm_get hm1 k = some v1 ∧
        ∃ hm2, hm_put es a2 hm1 k v2 = some (true, hm2) ∧ hm_get hm2 k = some v2) := by
  have hinv := reachable_inv es hf ef hm hes fn hr
  obtain ⟨⟨b1, hm1⟩, hput⟩ := put_total es a1 hm k v1 hes hinv.weak
  refine ⟨b1, hm1, hput, fun hb => ?_⟩
  obtain ⟨hinv1, _, he1, _, hpost⟩ := put_inv es a1 hm hm1 k v1 b1 hes hinv hput
  obtain ⟨hlive, _, _⟩ := hpost hb
  have hl1 : Live hm1 k v1 := (hlive k v1).mpr (Or.inl ⟨hinv.fns.refl k, rfl⟩)
  have hsome1 : hm1.data ≠ none := by
    obtain ⟨d, hd, _⟩ := hl1
    rw [hd]; simp
  refine ⟨(get_iff hm1 k v1 hinv1).mpr hl1, ?_⟩
  obtain ⟨hm2, hput2⟩ := put_nogrow es a2 hm1 k v2 hinv1 hsome1 (Or.inl ⟨v1, hl1⟩)
  obtain ⟨hinv2, _, _, _, hpost2⟩ := put_inv es a2 hm1 hm2 k v2 true hes hinv1 hput2
  obtain ⟨hlive2, _, _⟩ := hpost2 rfl
  exact ⟨hm2, hput2, (get_iff hm2 k v2 hinv2).mpr
    ((hlive2 k v2).mpr (Or.inl ⟨hinv1.fns.refl k, rfl⟩))⟩

theorem C1_last_write_wins_witness :
    (3 ≤ 24 ∧ FnOK ex_hash ex_equal ∧ Reachable 24 ex_hash ex_equal ex_table) ∧
    ∃ b1 hm1, hm_put 24 true ex_table 5 7 = some (b1, hm1) ∧
      (b1 = true → hm_get hm1 5 = some 7 ∧
        ∃ hm2, hm_put 24 false hm1 5 8 = some (true, hm2) ∧ hm_get hm2 5 = some 8) :=
  ⟨⟨by decide, ex_fnok, ex_table_reachable⟩,
    C1_last_write_wins 24 ex_hash ex_equal ex_table (by decide) ex_fnok ex_table_reachable
      5 7 8 true false⟩

/-- C2. On every reachable table, for a key `k` that is present: `hm_remove(k)` returns
`true` and afterwards `hm_get(k)` reports not-found; a following `hm_put(k, v)` returns
`true` (whatever the allocator does: it needs no growth) and `hm_get(k)` then yields `v`. -/
theorem C2_remove_then_put (es : Nat) (hf : K → Nat) (ef : K → K → Bool) (hm : HM K V)
    (hes : 3 ≤ es) (fn : FnOK hf ef) (hr : Reachable es hf ef hm) (k : K) (v0 : V)
    (hpres : hm_get hm k = some v0) :
    (hm_remove hm k).1 = true ∧ hm_get (hm_remove hm k).2 k = none ∧
      ∀ (alloc : Bool) (v : V), ∃ hm2,
        hm_put es alloc (hm_remove hm k).2 k v = some (true, hm2) ∧ hm_get hm2 k = some v := by
  have hinv := reachable_inv es hf ef hm hes fn hr
  have hl0 := (get_iff hm k v0 hinv).mp hpres
  obtain ⟨hinv1, hcap, hb, _, hlen, hlive⟩ :=
    remove_inv hm (hm_remove hm k).2 k (hm_remove hm k).1 hinv rfl
  have hbt := hb.mpr ⟨v0, hl0⟩
  have hno : ∀ v, ¬ Live (hm_remove hm k).2 k v := by
    intro v hv
    have := ((hlive k v).mp hv).1
    rw [hinv.fns.refl k] at this
    simp at this
  refine ⟨hbt, (get_none_iff _ k hinv1).mpr hno, fun alloc v => ?_⟩
  have hsome : hm.data ≠ none := by
    obtain ⟨d, hd, _⟩ := hl0
    rw [hd]; simp
  obtain ⟨d, hd⟩ := Option.ne_none_iff_exists'.mp hsome
  have hs := inv_store hm d hinv hd
  have hsome1 : (hm_remove hm k).2.data ≠ none := by
    intro hn
    have := (remove_weak hm (hm_remove hm k).2 _ k (hm_remove hm k).1 hinv.weak rfl).2.2.2.2
    exact hsome (this.mp hn)
  have hl := hs.hload
  have hlen1 := hlen hbt
  obtain ⟨hm2, hput⟩ := put_nogrow es alloc (hm_remove hm k).2 k v hinv1 hsome1
    (Or.inr (by rw [hlen1, hcap]; exact hl))
  obtain ⟨hinv2, _, _, _, hpost⟩ := put_inv es alloc _ hm2 k v true hes hinv1 hput
  obtain ⟨hlive2, _, _⟩ := hpost rfl
  exact ⟨hm2, hput, (get_iff hm2 k v hinv2).mpr
    ((hlive2 k v).mpr (Or.inl ⟨hinv1.fns.refl k, rfl⟩))⟩

theorem C2_remove_then_put_witness :
    (3 ≤ 24 ∧ FnOK ex_hash ex_equal ∧ Reachable 24 ex_hash ex_equal ex_table ∧
      hm_get ex_table 9 = some 90) ∧
    ((hm_remove ex_table 9).1 = true ∧ hm_get (hm_remove ex_table 9).2 9 = none ∧
      ∀ (alloc : Bool) (v : Nat), ∃ hm2,
        hm_put 24 alloc (hm_remove ex_table 9).2 9 v = some (true, hm2) ∧
          hm_get hm2 9 = some v) :=
  ⟨⟨by decide, ex_fnok, ex_table_reachable, by decide⟩,
    C2_remove_then_put 24 ex_hash ex_equal ex_table (by decide) ex_fnok ex_table_reachable
      9 90 (by decide)⟩

/-- C3. Growth preserves the live pairs. On every reachable table, whenever
`hm_reserve(n)` returns (it does for every request up to `2 ^ 63`), in particular
whenever it reallocates, `hm_get(k)` gives for every key `k` the same answer (found with
the same value, or not-found) as before the call, and the length is unchanged. The
function `hm_grow` is `_hm_reserve` with the request `2 * cap` (or 8). -/
theorem C3_growth_preserves_pairs (es : Nat) (hf : K → Nat) (ef : K → K → Bool) (hm : HM K V)
    (hes : 3 ≤ es) (fn : FnOK hf ef) (hr : Reachable es hf ef hm) (alloc : Bool) (n : Nat) :
    (n ≤ 2 ^ 63 → ∃ r, hm_reserve es alloc hm n = some r) ∧
    ∀ b hm1, hm_reserve es alloc hm n = some (b, hm1) →
      (∀ k, hm_get hm1 k = hm_get hm k) ∧ hm1.len = hm.len ∧
      (b = true → hm.cap < n → hm.cap < hm1.cap ∧ n ≤ hm1.cap) := by
  have hinv := reachable_inv es hf ef hm hes fn hr
  refine ⟨fun hn => reserve_total es alloc hm n hn, fun b hm1 h => ?_⟩
  obtain ⟨hinv1, hlive, hlen, _, _, _⟩ := reserve_inv es alloc hm hm1 n b hes hinv h
  refine ⟨fun k => get_congr hm hm1 k hinv hinv1 (fun v => hlive k v), hlen, fun hb hlt => ?_⟩
  rcases reserve_weak es alloc hm hm1 n b hes hinv.weak h with ⟨_, h2⟩ | ⟨_, _, h3, _⟩
  · have := h2.mp hb
    omega
  · omega

theorem C3_growth_preserves_pairs_witness :
    (3 ≤ 24 ∧ FnOK ex_hash ex_equal ∧ Reachable 24 ex_hash ex_equal ex_table) ∧
    ((20 ≤ 2 ^ 63 → ∃ r, hm_reserve 24 true ex_table 20 = some r) ∧
    ∀ b hm1, hm_reserve 24 true ex_table 20 = some (b, hm1) →
      (∀ k, hm_get hm1 k = hm_get ex_table k) ∧ hm1.len = ex_table.len ∧
      (b = true → ex_table.cap < 20 → ex_table.cap < hm1.cap ∧ 20 ≤ hm1.cap)) :=
  ⟨⟨by decide, ex_fnok, ex_table_reachable⟩,
    C3_growth_preserves_pairs 24 ex_hash ex_equal ex_table (by decide) ex_fnok
      ex_table_reachable true 20⟩

theorem iterate_length (d : List (HM_Entry K V)) (n : Nat) :
    (((List.range n).map (slot d)).filter (fun it => it.state = HM_FILLED)).length =
      filled_upto d n := by
  induction n with
  | zero => rfl
  | succ n ih =>
    rw [List.range_succ, List.map_append, List.filter_append, List.length_append, ih]
    simp only [filled_upto, List.map_cons, List.map_nil]
    by_cases h : (slot d n).state = HM_FILLED
    · simp [h]
    · simp [h]

/-- C8. In every reachable table the traversal of `hm_iterate` (the `Filled` slots in
increasing slot order) visits exactly `len` entries, `len` is the number of `Filled`
slots, and every visited entry is a live pair: `hm_get` of its key yields its value. -/
theorem C8_iterate (es : Nat) (hf : K → Nat) (ef : K → K → Bool) (hm : HM K V)
    (hes : 3 ≤ es) (fn : FnOK hf ef) (hr : Reachable es hf ef hm) :
    (hm_iterate hm).length = hm.len ∧
    hm.len = filled_upto (hm.data.getD []) hm.cap ∧
    ∀ it ∈ hm_iterate hm, it.state = HM_FILLED ∧ hm_get hm it.key = some it.value := by
  have hinv := reachable_inv es hf ef hm hes fn hr
  have hcnt : hm.len = filled_upto (hm.data.getD []) hm.cap := by
    cases hd : hm.data with
    | none =>
      rcases hinv.weak with ⟨_, hc, hl⟩ | ⟨d, hs⟩
      · rw [hc, hl]; rfl
      · have := hs.hdata; rw [hd] at this; simp at this
    | some d => exact hinv.hcount d hd
  refine ⟨by rw [hcnt]; exact iterate_length _ _, hcnt, fun it hit => ?_⟩
  simp only [hm_iterate, List.mem_filter, List.mem_map, List.mem_range,
    decide_eq_true_eq] at hit
  obtain ⟨⟨i, _, hi⟩, hF⟩ := hit
  refine ⟨hF, (get_iff hm it.key it.value hinv).mpr ?_⟩
  cases hd : hm.data with
  | none =>
    rw [hd] at hi
    rw [← hi] at hF
    simp [slot, zero_entry] at hF
  | some d =>
    rw [hd] at hi
    simp only [Option.getD_some] at hi
    rw [live_some hm d _ _ hd]
    exact ⟨i, by rw [hi]; exact hF, by rw [hi]; exact hinv.fns.refl _, by rw [hi]⟩

theorem C8_iterate_witness :
    (3 ≤ 24 ∧ FnOK ex_hash ex_equal ∧ Reachable 24 ex_hash ex_equal ex_table) ∧
    ((hm_iterate ex_table).length = ex_table.len ∧
    ex_table.len = filled_upto (ex_table.data.getD []) ex_table.cap ∧
    ∀ it ∈ hm_iterate ex_table, it.state = HM_FILLED ∧
      hm_get ex_table it.key = some it.value) :=
  ⟨⟨by decide, ex_fnok, ex_table_reachable⟩,
    C8_iterate 24 ex_hash ex_equal ex_table (by decide) ex_fnok ex_table_reachable⟩

end Claims2

/-! ## Runs of puts and removes -/

section Runs
variable {K V : Type} [Inhabited K] [Inhabited V]

theorem put_all_cons (es : Nat) (hm hm1 : HM K V) (a : Bool) (k : K) (v : V)
    (rest : List (Bool × K × V)) (h : put_all es hm ((a, k, v) :: rest) = some hm1) :
    ∃ hm2, hm_put es a hm k v = some (true, hm2) ∧ put_all es hm2 rest = some hm1 := by
  simp only [put_all] at h
  cases hp : hm_put es a hm k v with
  | none => rw [hp] at h; simp at h
  | some res =>
    obtain ⟨b, hm2⟩ := res
    rw [hp] at h
    cases b
    · simp at h
    · exact ⟨hm2, rfl, h⟩

theorem put_all_append (es : Nat) (l1 l2 : List (Bool × K × V)) :
    ∀ hm : HM K V, put_all es hm (l1 ++ l2) = (put_all es hm l1).bind (fun t => put_all es t l2) := by
  induction l1 with
  | nil => intro hm; rfl
  | cons x rest ih =>
    intro hm
    obtain ⟨a, k, v⟩ := x
    simp only [List.cons_append, put_all]
    cases hp : hm_put es a hm k v with
    | none => rfl
    | some res =>
      obtain ⟨b, hm2⟩ := res
      cases b
      · rfl
      · exact ih hm2

/-- A fresh key put into a table: what the successful call does. -/
theorem put_fresh (es : Nat) (a : Bool) (hm hm1 : HM K V) (k : K) (v : V) (hes : 3 ≤ es)
    (hinv : Inv hm) (hno : ∀ v0, ¬ Live hm k v0) (h : hm_put es a hm k v = some (true, hm1)) :
    Inv hm1 ∧ hm1.equal_fn = hm.equal_fn ∧ hm1.len = hm.len + 1 ∧ hm1.data ≠ none ∧
      (hm.data ≠ none → (hm.len + 1) * 4 < hm.cap * 3 → hm1.cap = hm.cap) ∧
      (hm.data ≠ none → hm.cap * 3 ≤ (hm.len + 1) * 4 → hm1.cap = 2 * hm.cap) ∧
      ∀ k1 v1, Live hm1 k1 v1 ↔ Live hm k1 v1 ∨ (hm.equal_fn k k1 = true ∧ v1 = v) := by
  obtain ⟨hinv1, _, he, _, hpost⟩ := put_inv es a hm hm1 k v true hes hinv h
  obtain ⟨hlive, _, habs⟩ := hpost rfl
  obtain ⟨hlen, hc1, hc2, _⟩ := habs hno
  have hl : Live hm1 k v := (hlive k v).mpr (Or.inl ⟨hinv.fns.refl k, rfl⟩)
  refine ⟨hinv1, he, hlen, ?_, hc1, hc2, fun k1 v1 => ?_⟩
  · obtain ⟨d, hd, _⟩ := hl
    rw [hd]; simp
  · rw [hlive k1 v1]
    constructor
    · rintro (h1 | ⟨_, h1⟩)
      · exact Or.inr h1
      · exact Or.inl h1
    · rintro (h1 | h1)
      · exact Or.inr ⟨live_absent_ne hm k k1 v1 hinv hno h1, h1⟩
      · exact Or.inl h1

/-- A run of successful puts of fresh, pairwise non-equal keys. -/
theorem put_all_spec (es : Nat) (hes : 3 ≤ es) (kvs : List (Bool × K × V)) :
    ∀ (hm hm1 : HM K V), Inv hm → (∀ x ∈ kvs, ∀ v, ¬ Live hm x.2.1 v) →
      kvs.Pairwise (fun a b => hm.equal_fn a.2.1 b.2.1 = false) →
      put_all es hm kvs = some hm1 →
      Inv hm1 ∧ hm1.equal_fn = hm.equal_fn ∧ hm1.len = hm.len + kvs.length ∧
      ∀ k v, Live hm1 k v ↔
        Live hm k v ∨ ∃ x ∈ kvs, hm.equal_fn x.2.1 k = true ∧ v = x.2.2 := by
  induction kvs with
  | nil =>
    intro hm hm1 hinv _ _ h
    simp only [put_all, Option.some.injEq] at h
    subst h
    exact ⟨hinv, rfl, rfl, fun k v => by simp⟩
  | cons x rest ih =>
    intro hm hm1 hinv hfresh hpw h
    obtain ⟨a, k0, v0⟩ := x
    obtain ⟨hm2, hput, hrest⟩ := put_all_cons es hm hm1 a k0 v0 rest h
    rw [List.pairwise_cons] at hpw
    obtain ⟨hhead, htail⟩ := hpw
    obtain ⟨hinv2, he2, hlen2, _, _, _, hlive2⟩ := put_fresh es a hm hm2 k0 v0 hes hinv
      (hfresh _ (List.mem_cons_self _ _)) hput
    have hfresh2 : ∀ x ∈ rest, ∀ v, ¬ Live hm2 x.2.1 v := by
      intro x hx v hv
      rcases (hlive2 _ v).mp hv with h1 | ⟨h1, _⟩
      · exact hfresh x (List.mem_cons_of_mem _ hx) v h1
      · have := hhead x hx
        simp only at this
        rw [h1] at this
        simp at this
    obtain ⟨hinv1, he1, hlen1, hlive1⟩ := ih hm2 hm1 hinv2 hfresh2 (by rw [he2]; exact htail) hrest
    refine ⟨hinv1, by rw [he1, he2], by rw [hlen1, hlen2, List.length_cons]; omega, fun k v => ?_⟩
    rw [hlive1 k v, hlive2 k v, he2]
    constructor
    · rintro ((h1 | ⟨h1, h2⟩) | ⟨x, hx, h1⟩)
      · exact Or.inl h1
      · exact Or.inr ⟨_, List.mem_cons_self _ _, h1, h2⟩
      · exact Or.inr ⟨x, List.mem_cons_of_mem _ hx, h1⟩
    · rintro (h1 | ⟨x, hx, h1⟩)
      · exact Or.inl (Or.inl h1)
      · rcases List.mem_cons.mp hx with hx | hx
        · subst hx
          exact Or.inl (Or.inr h1)
        · exact Or.inr ⟨x, hx, h1⟩

/-- A run of puts of fresh keys that stays below the load-factor threshold succeeds
without growth, whatever the allocator does. -/
theorem put_all_nogrow (es : Nat) (hes : 3 ≤ es) (kvs : List (Bool × K × V)) :
    ∀ (hm : HM K V), Inv hm → hm.data ≠ none → (∀ x ∈ kvs, ∀ v, ¬ Live hm x.2.1 v) →
      kvs.Pairwise (fun a b => hm.equal_fn a.2.1 b.2.1 = false) →
      (hm.len + kvs.length) * 4 < hm.cap * 3 →
      ∃ t, put_all es hm kvs = some t ∧ t.cap = hm.cap := by
  induction kvs with
  | nil => intro hm _ _ _ _ _; exact ⟨hm, rfl, rfl⟩
  | cons x rest ih =>
    intro hm hinv hsome hfresh hpw hload
    obtain ⟨a, k0, v0⟩ := x
    rw [List.pairwise_cons] at hpw
    obtain ⟨hhead, htail⟩ := hpw
    rw [List.length_cons] at hload
    obtain ⟨hm2, hput⟩ := put_nogrow es a hm k0 v0 hinv hsome (Or.inr (by omega))
    obtain ⟨hinv2, he2, hlen2, hsome2, hcap2, _, hlive2⟩ := put_fresh es a hm hm2 k0 v0 hes hinv
      (hfresh _ (List.mem_cons_self _ _)) hput
    have hc := hcap2 hsome (by omega)
    have hfresh2 : ∀ x ∈ rest, ∀ v, ¬ Live hm2 x.2.1 v := by
      intro x hx v hv
      rcases (hlive2 _ v).mp hv with h1 | ⟨h1, _⟩
      · exact hfresh x (List.mem_cons_of_mem _ hx) v h1
      · have := hhead x hx
        simp only at this
        rw [h1] at this
        simp at this
    obtain ⟨t, ht, htc⟩ := ih hm2 hinv2 hsome2 hfresh2 (by rw [he2]; exact htail)
      (by rw [hlen2, hc]; omega)
    refine ⟨t, ?_, by rw [htc, hc]⟩
    simp only [put_all, hput]
    exact ht

/-- A run of removes of present, pairwise non-equal keys lowers the length by the
number of removes. -/
theorem remove_all_spec (rs : List K) :
    ∀ (hm : HM K V), Inv hm → (∀ r ∈ rs, ∃ v, Live hm r v) →
      rs.Pairwise (fun a b => hm.equal_fn a b = false) →
      (remove_all hm rs).len + rs.length = hm.len := by
  induction rs with
  | nil => intro hm _ _ _; rfl
  | cons r rest ih =>
    intro hm hinv hpres hpw
    rw [List.pairwise_cons] at hpw
    obtain ⟨hhead, htail⟩ := hpw
    obtain ⟨hinv1, _, hb, _, hlen, hlive⟩ :=
      remove_inv hm (hm_remove hm r).2 r (hm_remove hm r).1 hinv rfl
    have he := (remove_weak hm (hm_remove hm r).2 _ r (hm_remove hm r).1 hinv.weak rfl).2.2.2.1
    have hbt := hb.mpr (hpres r (List.mem_cons_self _ _))
    have hpres1 : ∀ r1 ∈ rest, ∃ v, Live (hm_remove hm r).2 r1 v := by
      intro r1 hr1
      obtain ⟨v, hv⟩ := hpres r1 (List.mem_cons_of_mem _ hr1)
      exact ⟨v, (hlive r1 v).mpr ⟨hhead r1 hr1, hv⟩⟩
    have := ih (hm_remove hm r).2 hinv1 hpres1 (by
      have he2 : (hm_remove hm r).2.equal_fn = hm.equal_fn := he
      rw [he2]; exact htail)
    simp only [remove_all, List.length_cons]
    have h2 := hlen hbt
    omega

end Runs

section Claims3
variable {K V : Type} [Inhabited K] [Inhabited V]

theorem some_getD_of_isSome {α : Type} (o : Option α) (d : α) (h : o.isSome = true) :
    o = some (o.getD d) := by
  cases o with
  | none => simp at h
  | some x => rfl

/-- C4. Starting from a freshly initialised table, after `n` successful `hm_put` calls
with pairwise non-equal keys followed by `m` `hm_remove` calls on `m` pairwise non-equal
keys that were inserted, `hm_count` is `n - m` (and `m ≤ n`). -/
theorem C4_length_after_puts_and_removes (es : Nat) (hf : K → Nat) (ef : K → K → Bool)
    (hes : 3 ≤ es) (fn : FnOK hf ef) (alloc : Bool) (hm0 hm hm1 : HM K V)
    (hinit : _hm_init es alloc hm0 hf ef = (true, hm)) (kvs : List (Bool × K × V))
    (rs : List K) (hputs : put_all es hm kvs = some hm1)
    (hpw : kvs.Pairwise (fun a b => ef a.2.1 b.2.1 = false))
    (hrs : rs.Pairwise (fun a b => ef a b = false))
    (hsub : ∀ r ∈ rs, ∃ x ∈ kvs, ef x.2.1 r = true) :
    hm_count (remove_all hm1 rs) = kvs.length - rs.length ∧ rs.length ≤ kvs.length := by
  obtain ⟨hinv, hempty⟩ := init_inv es alloc hm0 hm hf ef fn hinit
  obtain ⟨_, hlen0, _, hef, _, _⟩ := init_weak es alloc hm0 hm hf ef hinit
  obtain ⟨hinv1, he1, hlen1, hlive1⟩ := put_all_spec es hes kvs hm hm1 hinv
    (fun x _ v => hempty x.2.1 v) (by rw [hef]; exact hpw) hputs
  have hpres : ∀ r ∈ rs, ∃ v, Live hm1 r v := by
    intro r hr
    obtain ⟨x, hx, hxr⟩ := hsub r hr
    exact ⟨x.2.2, (hlive1 r x.2.2).mpr (Or.inr ⟨x, hx, by rw [hef]; exact hxr, rfl⟩)⟩
  have := remove_all_spec rs hm1 hinv1 hpres (by rw [he1, hef]; exact hrs)
  unfold hm_count
  omega

theorem C4_length_after_puts_and_removes_witness :
    (3 ≤ 24 ∧ FnOK ex_hash ex_equal ∧
      _hm_init 24 true ex_blank ex_hash ex_equal = (true, ex_init) ∧
      put_all 24 ex_init ex_kvs = some ex_three ∧
      ex_kvs.Pairwise (fun a b => ex_equal a.2.1 b.2.1 = false) ∧
      [5, 1].Pairwise (fun a b => ex_equal a b = false) ∧
      ∀ r ∈ [5, 1], ∃ x ∈ ex_kvs, ex_equal x.2.1 r = true) ∧
    (hm_count (remove_all ex_three [5, 1]) = ex_kvs.length - [5, 1].length ∧
      [5, 1].length ≤ ex_kvs.length) :=
  ⟨⟨by decide, ex_fnok, rfl, some_getD_of_isSome _ _ (by decide), by decide, by decide,
      by decide⟩,
    C4_length_after_puts_and_removes 24 ex_hash ex_equal (by decide) ex_fnok true ex_blank
      ex_init ex_three rfl ex_kvs [5, 1] (some_getD_of_isSome _ _ (by decide)) (by decide)
      (by decide) (by decide)⟩

/-- C10. Starting from a fresh table (capacity 8, length 0) and inserting 6 pairwise
non-equal keys with `hm_put`: each of the first 5 inserts succeeds whatever the allocator
does and leaves the capacity at 8; the 6th insert succeeds when its allocation does, and
then the capacity is 16, the length is 6 and `hm_get` yields for each of the 6 keys the
value it was inserted with. -/
theorem C10_six_inserts (es : Nat) (hf : K → Nat) (ef : K → K → Bool) (hes : 3 ≤ es)
    (fn : FnOK hf ef) (alloc : Bool) (hm0 hm : HM K V)
    (hinit : _hm_init es alloc hm0 hf ef = (true, hm)) (kvs : List (Bool × K × V))
    (hlen : kvs.length = 6) (hpw : kvs.Pairwise (fun a b => ef a.2.1 b.2.1 = false)) :
    hm.cap = 8 ∧ hm.len = 0 ∧
    (∀ i, i ≤ 5 → ∃ t, put_all es hm (kvs.take i) = some t ∧ t.cap = 8 ∧ t.len = i) ∧
    (∀ t6, put_all es hm kvs = some t6 →
      t6.cap = 16 ∧ t6.len = 6 ∧ ∀ x ∈ kvs, hm_get t6 x.2.1 = some x.2.2) ∧
    ((∀ x ∈ kvs, x.1 = true) → 16 * es < 2 ^ 64 → ∃ t6, put_all es hm kvs = some t6) := by
  obtain ⟨hinv, hempty⟩ := init_inv es alloc hm0 hm hf ef fn hinit
  obtain ⟨hcap0, hlen0, _, hef, hdat0, _⟩ := init_weak es alloc hm0 hm hf ef hinit
  have hsome0 : hm.data ≠ none := by rw [hdat0]; simp
  have hpw' : kvs.Pairwise (fun a b => hm.equal_fn a.2.1 b.2.1 = false) := by
    rw [hef]; exact hpw
  have hfirst : ∀ i, i ≤ 5 → ∃ t, put_all es hm (kvs.take i) = some t ∧ t.cap = 8 ∧ t.len = i ∧
      Inv t ∧ t.equal_fn = hm.equal_fn ∧
      ∀ k v, Live t k v ↔ ∃ x ∈ kvs.take i, hm.equal_fn x.2.1 k = true ∧ v = x.2.2 := by
    intro i hi
    have hpwi := List.Pairwise.sublist (List.take_sublist i kvs) hpw'
    have hli : (kvs.take i).length = i := by rw [List.length_take]; omega
    obtain ⟨t, ht, htc⟩ := put_all_nogrow es hes (kvs.take i) hm hinv hsome0
      (fun x _ v => hempty x.2.1 v) hpwi (by rw [hli, hlen0, hcap0]; omega)
    obtain ⟨hinvt, het, hlt, hlivet⟩ := put_all_spec es hes (kvs.take i) hm t hinv
      (fun x _ v => hempty x.2.1 v) hpwi ht
    refine ⟨t, ht, by rw [htc, hcap0], by rw [hlt, hli, hlen0]; omega, hinvt, het,
      fun k v => ?_⟩
    rw [hlivet k v]
    constructor
    · rintro (h | h)
      · exact absurd h (hempty k v)
      · exact h
    · intro h; exact Or.inr h
  -- the sixth pair
  obtain ⟨x6, hx6⟩ : ∃ x, kvs.drop 5 = [x] := by
    apply List.length_eq_one.mp
    rw [List.length_drop]; omega
  have hsplit : kvs = kvs.take 5 ++ [x6] := by
    rw [← hx6, List.take_append_drop]
  obtain ⟨t5, ht5, hc5, hl5, hinv5, he5, hlive5⟩ := hfirst 5 (Nat.le_refl _)
  have hsome5 : t5.data ≠ none := by
    intro hn
    rcases hinv5.weak with ⟨_, hc, _⟩ | ⟨d, hs⟩
    · omega
    · have := hs.hdata; rw [hn] at this; simp at this
  have hfresh6 : ∀ v0, ¬ Live t5 x6.2.1 v0 := by
    intro v0 hv0
    obtain ⟨x, hx, hxk, _⟩ := (hlive5 _ v0).mp hv0
    rw [hsplit, List.pairwise_append] at hpw'
    have := hpw'.2.2 x hx x6 (List.mem_singleton_self _)
    simp only at this
    rw [hxk] at this
    simp at this
  have hall : put_all es hm kvs = put_all es t5 [x6] := by
    conv_lhs => rw [hsplit]
    rw [put_all_append, ht5]
    rfl
  refine ⟨hcap0, hlen0, fun i hi => ?_, fun t6 ht6 => ?_, fun hflags hsize => ?_⟩
  · obtain ⟨t, h1, h2, h3, _⟩ := hfirst i hi
    exact ⟨t, h1, h2, h3⟩
  · obtain ⟨hinv6, _, hlen6, hlive6⟩ := put_all_spec es hes kvs hm t6 hinv
      (fun x _ v => hempty x.2.1 v) hpw' ht6
    rw [hall] at ht6
    obtain ⟨a6, k6, v6⟩ := x6
    obtain ⟨t6', hput, hnil⟩ := put_all_cons es t5 t6 a6 k6 v6 [] ht6
    simp only [put_all, Option.some.injEq] at hnil
    subst hnil
    obtain ⟨_, _, _, _, _, hgrow, _⟩ := put_fresh es a6 t5 t6' k6 v6 hes hinv5 hfresh6 hput
    refine ⟨by rw [hgrow hsome5 (by rw [hc5, hl5]), hc5], by rw [hlen6, hlen0, hlen], ?_⟩
    intro x hx
    exact (get_iff t6' x.2.1 x.2.2 hinv6).mpr
      ((hlive6 _ _).mpr (Or.inr ⟨x, hx, hinv.fns.refl _, rfl⟩))
  · rw [hall]
    obtain ⟨a6, k6, v6⟩ := x6
    have ha6 : a6 = true := by
      have hmem : (a6, k6, v6) ∈ kvs := by
        rw [hsplit]; simp
      exact hflags _ hmem
    subst ha6
    obtain ⟨t6, hput⟩ := put_alloc_ok es t5 k6 v6 hes hinv5
      (by rw [hc5]; simp only [if_neg (by omega : ¬ (8 = 0))]; omega)
    exact ⟨t6, by simp only [put_all, hput]⟩

theorem C10_six_inserts_witness :
    (3 ≤ 24 ∧ FnOK ex_hash ex_equal ∧
      _hm_init 24 true ex_blank ex_hash ex_equal = (true, ex_init) ∧ ex_six.length = 6 ∧
      ex_six.Pairwise (fun a b => ex_equal a.2.1 b.2.1 = false)) ∧
    (ex_init.cap = 8 ∧ ex_init.len = 0 ∧
    (∀ i, i ≤ 5 → ∃ t, put_all 24 ex_init (ex_six.take i) = some t ∧ t.cap = 8 ∧ t.len = i) ∧
    (∀ t6, put_all 24 ex_init ex_six = some t6 →
      t6.cap = 16 ∧ t6.len = 6 ∧ ∀ x ∈ ex_six, hm_get t6 x.2.1 = some x.2.2) ∧
    ((∀ x ∈ ex_six, x.1 = true) → 16 * 24 < 2 ^ 64 → ∃ t6, put_all 24 ex_init ex_six = some t6)) :=
  ⟨⟨by decide, ex_fnok, rfl, by decide, by decide⟩,
    C10_six_inserts 24 ex_hash ex_equal (by decide) ex_fnok true ex_blank ex_init rfl ex_six
      (by decide) (by decide)⟩

end Claims3

/-! ## The outcomes of `hm_grow` and `_hm_put` in terms of the allocation -/

section Outcome
variable {K V : Type} [Inhabited K] [Inhabited V]

/-- On a table that satisfies the weak invariant, `hm_grow` requests `2 * cap` slots (8
for capacity 0) and fails exactly when that allocation fails. -/
theorem grow_eq (es : Nat) (alloc : Bool) (hm : HM K V) (hw : WInv hm) :
    hm_grow es alloc hm =
      match (calloc alloc (if hm.cap = 0 then 8 else 2 * hm.cap) es :
          Option (List (HM_Entry K V))) with
      | none => some (false, hm)
      | some nd =>
        some (true, rehash_upto (hm.data.getD [])
          { hm with data := some nd, cap := (if hm.cap = 0 then 8 else 2 * hm.cap), len := 0 }
          hm.cap) := by
  obtain ⟨ht, q, hq, hpow⟩ := grow_target hm hw
  unfold hm_grow _hm_reserve
  rw [ht]
  have hlt : ¬ (if hm.cap = 0 then 8 else 2 * hm.cap) ≤ hm.cap := by split <;> omega
  rw [if_neg hlt]
  have := round_exact q hq 65 0 (by omega) (by omega)
  rw [Nat.pow_zero, ← hpow] at this
  rw [this]

theorem grow_fail (es : Nat) (alloc : Bool) (hm : HM K V) (hw : WInv hm)
    (hc : (calloc alloc (if hm.cap = 0 then 8 else 2 * hm.cap) es :
      Option (List (HM_Entry K V))) = none) :
    hm_grow es alloc hm = some (false, hm) := by
  rw [grow_eq es alloc hm hw, hc]

theorem grow_succeed (es : Nat) (alloc : Bool) (hm : HM K V) (hes : 3 ≤ es) (hw : WInv hm)
    (hc : (calloc alloc (if hm.cap = 0 then 8 else 2 * hm.cap) es :
      Option (List (HM_Entry K V))) ≠ none) :
    ∃ hm1 d1, hm_grow es alloc hm = some (true, hm1) ∧ StoreOK hm1 d1 ∧
      hm1.cap = (if hm.cap = 0 then 8 else 2 * hm.cap) ∧ hm1.len ≤ hm.len ∧
      hm1.hash_fn = hm.hash_fn ∧ hm1.equal_fn = hm.equal_fn := by
  obtain ⟨nd, hnd⟩ := Option.ne_none_iff_exists'.mp hc
  have heq := grow_eq es alloc hm hw
  rw [hnd] at heq
  simp only at heq
  rcases grow_weak es alloc hm _ true hes hw heq with ⟨h1, _⟩ | ⟨_, _, _, h4, h5, h6, d1, hs1⟩
  · simp at h1
  · refine ⟨_, d1, heq, hs1, ?_, h4, h5, h6⟩
    obtain ⟨hnd', _, _⟩ := calloc_some alloc _ es nd hnd
    have hold : hm.cap < 2 ^ 63 := by
      rcases hw with ⟨_, h0, _⟩ | ⟨d, hs⟩
      · rw [h0]; decide
      · have := storeOK_bounds hm d hs; omega
    exact (rehash_weak (hm.data.getD [])
      { hm with data := some nd, cap := (if hm.cap = 0 then 8 else 2 * hm.cap), len := 0 } nd
      rfl rfl hm.cap hold).1

/-- The outcome of `_hm_put` on a table that satisfies the weak invariant, for any hash:
it needs a growth exactly when there is no store, or the key is not found and
`(len + 1) * 4 ≥ cap * 3`; it fails exactly when it needs a growth and the allocation
fails, and then the table is left as it was. -/
theorem put_cases (es : Nat) (alloc : Bool) (hm : HM K V) (hash : Nat) (k : K) (v : V)
    (hes : 3 ≤ es) (hw : WInv hm) :
    (¬ (hm.data = none ∨ ((hm_probe hm hash k).2 = false ∧ hm.cap * 3 ≤ (hm.len + 1) * 4)) →
      ∃ d, hm.data = some d ∧ (hm_probe hm hash k).1 ≠ UINT64_MAX ∧
        _hm_put es alloc hm hash k v =
          some (hm_put_write hm (hm_probe hm hash k).1 (hm_probe hm hash k).2 k v) ∧
        ∃ hm1, hm_put_write hm (hm_probe hm hash k).1 (hm_probe hm hash k).2 k v = (true, hm1) ∧
          hm1.cap = hm.cap) ∧
    ((hm.data = none ∨ ((hm_probe hm hash k).2 = false ∧ hm.cap * 3 ≤ (hm.len + 1) * 4)) →
      ((calloc alloc (if hm.cap = 0 then 8 else 2 * hm.cap) es :
          Option (List (HM_Entry K V))) = none →
        _hm_put es alloc hm hash k v = some (false, hm)) ∧
      ((calloc alloc (if hm.cap = 0 then 8 else 2 * hm.cap) es :
          Option (List (HM_Entry K V))) ≠ none →
        ∃ hm1, _hm_put es alloc hm hash k v = some (true, hm1) ∧
          hm1.cap = (if hm.cap = 0 then 8 else 2 * hm.cap) ∧ hm1.len ≤ hm.len + 1)) := by
  -- the write after a successful growth
  have hafter : ∀ hm2 d2, StoreOK hm2 d2 → (hm2.len + 1) * 4 < hm2.cap * 3 →
      ∃ hm1, hm_put_probe es alloc hm2 hash k v = some (true, hm1) ∧ hm1.cap = hm2.cap ∧
        hm1.len ≤ hm2.len + 1 := by
    intro hm2 d2 hs2 hl2
    obtain ⟨hm3, hw3, hc3, _, _, d3, hs3⟩ := write_weak hm2 d2 hash
      (hm_probe hm2 hash k).1 (hm_probe hm2 hash k).2 k v hs2 rfl (fun _ => hl2)
    refine ⟨hm3, ?_, hc3, ?_⟩
    · unfold hm_put_probe
      simp only [load_check hm2 d2 hs2]
      rw [if_neg (by rintro ⟨_, h⟩; omega), hw3]
    · have h1 := hs3.hload
      rw [hc3] at h1
      unfold hm_put_write at hw3
      split at hw3
      · simp at hw3
      · split at hw3
        · simp only [Prod.mk.injEq, true_and] at hw3
          rw [← hw3]
          show u64 (hm2.len + 1) ≤ hm2.len + 1
          exact Nat.mod_le _ _
        · simp only [Prod.mk.injEq, true_and] at hw3
          rw [← hw3]
          show hm2.len ≤ hm2.len + 1
          omega
  constructor
  · intro hnt
    have hdn : hm.data ≠ none := fun h => hnt (Or.inl h)
    obtain ⟨d, hd⟩ := Option.ne_none_iff_exists'.mp hdn
    have hs : StoreOK hm d := by
      rcases hw with ⟨h1, _, _⟩ | ⟨d1, hs⟩
      · exact absurd h1 hdn
      · have := hs.hdata; rw [hd] at this; injection this with this; rw [this]; exact hs
    have hcond : ¬ ((hm_probe hm hash k).2 = false ∧ (hm.len + 1) * 4 ≥ hm.cap * 3) :=
      fun h => hnt (Or.inr h)
    obtain ⟨hm3, hw3, hc3, _⟩ := write_weak hm d hash
      (hm_probe hm hash k).1 (hm_probe hm hash k).2 k v hs rfl
      (fun hf => Nat.lt_of_not_le (fun h2 => hcond ⟨hf, h2⟩))
    refine ⟨d, hd, ?_, ?_, hm3, hw3, hc3⟩
    · have hb := storeOK_bounds hm d hs
      cases hf : (hm_probe hm hash k).2 with
      | false => exact (probe_free_slot hm d hash _ k hs (Prod.ext rfl hf)).1
      | true =>
        have := (probe_found hm d hash (hm_probe hm hash k).1 k hs (Prod.ext rfl hf)).1
        intro hmax
        rw [hmax] at this
        unfold UINT64_MAX at this
        omega
    · unfold _hm_put
      rw [if_neg (by rw [hd]; simp)]
      unfold hm_put_probe
      simp only [load_check hm d hs]
      rw [if_neg hcond]
  · intro ht
    constructor
    · intro hc
      have hg := grow_fail es alloc hm hw hc
      unfold _hm_put
      split
      · rw [hg]
      · next hsome =>
        rcases ht with h | h
        · rw [h] at hsome; simp at hsome
        · have hs : ∃ d, StoreOK hm d := by
            rcases hw with ⟨h1, _, _⟩ | h2
            · rw [h1] at hsome; simp at hsome
            · exact h2
          obtain ⟨d, hs⟩ := hs
          unfold hm_put_probe
          simp only [load_check hm d hs]
          rw [if_pos h, hg]
    · intro hc
      obtain ⟨hm2, d2, hg, hs2, hcap2, hlen2, _, _⟩ := grow_succeed es alloc hm hes hw hc
      unfold _hm_put
      split
      · next hnone =>
        rw [hg]
        simp only
        have h0 : hm.cap = 0 ∧ hm.len = 0 := by
          rcases hw with ⟨_, h1, h2⟩ | ⟨d, hs⟩
          · exact ⟨h1, h2⟩
          · have := hs.hdata
            rw [Option.isNone_iff_eq_none.mp hnone] at this
            simp at this
        rw [if_pos h0.1] at hcap2
        obtain ⟨hm1, h1, h2, h3⟩ := hafter hm2 d2 hs2 (by rw [hcap2]; omega)
        exact ⟨hm1, h1, by rw [h2, hcap2, if_pos h0.1], by omega⟩
      · next hsome =>
        rcases ht with h | h
        · rw [h] at hsome; simp at hsome
        · have hs : ∃ d, StoreOK hm d := by
            rcases hw with ⟨h1, _, _⟩ | h2
            · rw [h1] at hsome; simp at hsome
            · exact h2
          obtain ⟨d, hs⟩ := hs
          have hb := storeOK_bounds hm d hs
          have hl := hs.hload
          rw [if_neg (by omega)] at hcap2
          obtain ⟨hm1, h1, h2, h3⟩ := hafter hm2 d2 hs2 (by rw [hcap2]; omega)
          refine ⟨hm1, ?_, by rw [h2, hcap2, if_neg (by omega)], by omega⟩
          unfold hm_put_probe
          simp only [load_check hm d hs]
          rw [if_pos h, hg]
          simp only
          unfold hm_put_probe at h1
          simp only [load_check hm2 d2 hs2] at h1
          rw [if_neg (by rintro ⟨_, h⟩; omega)] at h1
          exact h1

end Outcome

/-! ## Failure, removal and update: claims C11 to C16 -/

section Claims4
variable {K V : Type} [Inhabited K] [Inhabited V]

theorem ex_five_reachable : Reachable 24 ex_hash ex_equal ex_five :=
  reachable_run_ops 24 ex_hash ex_equal _ ex_init ex_blank ex_init_reachable (by decide)

theorem ex_saturated_reachable : Reachable 24 ex_hash ex_equal ex_saturated :=
  reachable_run_ops 24 ex_hash ex_equal _ ex_init ex_blank ex_init_reachable (by decide)

theorem ex_three_reachable : Reachable 24 ex_hash ex_equal ex_three :=
  have h : ex_three = (run_ops 24 ex_init [(true, HM_Op.put 1 10), (true, HM_Op.put 5 50),
      (true, HM_Op.put 9 90)]).getD ex_blank := rfl
  h ▸ reachable_run_ops 24 ex_hash ex_equal _ ex_init ex_blank ex_init_reachable (by decide)

/-- With a store, `hm_get` reports not-found exactly when the probe does not find the key. -/
theorem get_none_probe (hm : HM K V) (d : List (HM_Entry K V)) (k : K) (hd : hm.data = some d) :
    hm_get hm k = none ↔ (hm_probe hm (u64 (hm.hash_fn k)) k).2 = false := by
  unfold hm_get _hm_get
  rw [hd]
  simp only
  split <;> simp_all

theorem get_none_of_null (hm : HM K V) (k : K) (hd : hm.data = none) : hm_get hm k = none := by
  unfold hm_get _hm_get
  rw [hd]

theorem weak_store (hm : HM K V) (d : List (HM_Entry K V)) (hw : WInv hm)
    (hd : hm.data = some d) : StoreOK hm d := by
  rcases hw with ⟨h1, _, _⟩ | ⟨d1, hs⟩
  · rw [h1] at hd; simp at hd
  · have := hs.hdata; rw [hd] at this; injection this with this; rw [this]; exact hs

/-- The growth trigger of `hm_put`, stated with `hm_get`. -/
theorem trigger_iff (hm : HM K V) (k : K) :
    (hm.data = none ∨ (hm_get hm k = none ∧ hm.cap * 3 ≤ (hm.len + 1) * 4)) ↔
    (hm.data = none ∨ ((hm_probe hm (u64 (hm.hash_fn k)) k).2 = false ∧
      hm.cap * 3 ≤ (hm.len + 1) * 4)) := by
  cases hd : hm.data with
  | none => simp
  | some d => rw [get_none_probe hm d k hd]

/-- C11. Atomicity on allocation failure. On every reachable table, when `hm_put` needs a
growth (no store, or key not found and `(len + 1) * 4 ≥ cap * 3`) and the allocation of
that growth fails, `hm_put` returns `false` and the table (slots, capacity, length) is
exactly what it was; and whenever `hm_put` returns `false` the table is what it was. -/
theorem C11_put_atomic_on_allocation_failure (es : Nat) (hf : K → Nat) (ef : K → K → Bool)
    (hm : HM K V) (hes : 3 ≤ es) (hr : Reachable es hf ef hm) (alloc : Bool) (k : K) (v : V) :
    ((hm.data = none ∨ (hm_get hm k = none ∧ hm.cap * 3 ≤ (hm.len + 1) * 4)) →
      (calloc alloc (if hm.cap = 0 then 8 else 2 * hm.cap) es :
        Option (List (HM_Entry K V))) = none →
      hm_put es alloc hm k v = some (false, hm)) ∧
    (∀ b hm1, hm_put es alloc hm k v = some (b, hm1) → b = false → hm1 = hm) := by
  have hw := (reachable_weak es hf ef hm hes hr).1
  obtain ⟨h1, h2⟩ := put_cases es alloc hm (u64 (hm.hash_fn k)) k v hes hw
  rw [trigger_iff hm k]
  refine ⟨fun ht hc => (h2 ht).1 hc, fun b hm1 hput hb => ?_⟩
  subst hb
  unfold hm_put at hput
  by_cases ht : hm.data = none ∨ ((hm_probe hm (u64 (hm.hash_fn k)) k).2 = false ∧
      hm.cap * 3 ≤ (hm.len + 1) * 4)
  · by_cases hc : (calloc alloc (if hm.cap = 0 then 8 else 2 * hm.cap) es :
        Option (List (HM_Entry K V))) = none
    · rw [(h2 ht).1 hc] at hput
      simp only [Option.some.injEq, Prod.mk.injEq, true_and] at hput
      exact hput.symm
    · obtain ⟨hm2, h3, _⟩ := (h2 ht).2 hc
      rw [h3] at hput
      simp at hput
  · obtain ⟨_, _, _, h3, hm2, h4, _⟩ := h1 ht
    rw [h3, h4] at hput
    simp at hput

theorem C11_put_atomic_on_allocation_failure_witness :
    (3 ≤ 24 ∧ Reachable 24 ex_hash ex_equal ex_five) ∧
    (((ex_five.data = none ∨ (hm_get ex_five 6 = none ∧
        ex_five.cap * 3 ≤ (ex_five.len + 1) * 4)) →
      (calloc false (if ex_five.cap = 0 then 8 else 2 * ex_five.cap) 24 :
        Option (List (HM_Entry Nat Nat))) = none →
      hm_put 24 false ex_five 6 60 = some (false, ex_five)) ∧
    (∀ b hm1, hm_put 24 false ex_five 6 60 = some (b, hm1) → b = false → hm1 = ex_five)) :=
  ⟨⟨by decide, ex_five_reachable⟩,
    C11_put_atomic_on_allocation_failure 24 ex_hash ex_equal ex_five (by decide)
      ex_five_reachable false 6 60⟩

/-- C12. `hm_put` fails only on allocation failure. On every reachable table `hm_put`
returns; it returns `true` when the allocation of the growth it may need succeeds, and a
`false` result means that allocation failed. The probe never returns the sentinel
`UINT64_MAX` on an allocated store: it returns an index below `cap`, also when the store
has no `Empty` slot. -/
theorem C12_put_fails_only_on_allocation_failure (es : Nat) (hf : K → Nat)
    (ef : K → K → Bool) (hm : HM K V) (hes : 3 ≤ es) (hr : Reachable es hf ef hm)
    (alloc : Bool) (k : K) (v : V) :
    (∃ b hm1, hm_put es alloc hm k v = some (b, hm1) ∧
      (b = false → (calloc alloc (if hm.cap = 0 then 8 else 2 * hm.cap) es :
        Option (List (HM_Entry K V))) = none)) ∧
    ((calloc alloc (if hm.cap = 0 then 8 else 2 * hm.cap) es :
        Option (List (HM_Entry K V))) ≠ none →
      ∃ hm1, hm_put es alloc hm k v = some (true, hm1)) ∧
    (∀ hash key, hm.data ≠ none →
      (hm_probe hm hash key).1 ≠ UINT64_MAX ∧ (hm_probe hm hash key).1 < hm.cap) := by
  have hw := (reachable_weak es hf ef hm hes hr).1
  obtain ⟨h1, h2⟩ := put_cases es alloc hm (u64 (hm.hash_fn k)) k v hes hw
  have hsucc : (calloc alloc (if hm.cap = 0 then 8 else 2 * hm.cap) es :
      Option (List (HM_Entry K V))) ≠ none → ∃ hm1, hm_put es alloc hm k v = some (true, hm1) := by
    intro hc
    unfold hm_put
    by_cases ht : hm.data = none ∨ ((hm_probe hm (u64 (hm.hash_fn k)) k).2 = false ∧
        hm.cap * 3 ≤ (hm.len + 1) * 4)
    · obtain ⟨hm2, h3, _⟩ := (h2 ht).2 hc
      exact ⟨hm2, h3⟩
    · obtain ⟨_, _, _, h3, hm2, h4, _⟩ := h1 ht
      exact ⟨hm2, by rw [h3, h4]⟩
  refine ⟨?_, hsucc, fun hash key hd => ?_⟩
  · by_cases hc : (calloc alloc (if hm.cap = 0 then 8 else 2 * hm.cap) es :
        Option (List (HM_Entry K V))) = none
    · obtain ⟨⟨b, hm1⟩, hput⟩ := put_total es alloc hm k v hes hw
      exact ⟨b, hm1, hput, fun _ => hc⟩
    · obtain ⟨hm1, hput⟩ := hsucc hc
      exact ⟨true, hm1, hput, fun h => by simp at h⟩
  · obtain ⟨d, hd⟩ := Option.ne_none_iff_exists'.mp hd
    have hs := weak_store hm d hw hd
    have hb := storeOK_bounds hm d hs
    cases hfd : (hm_probe hm hash key).2 with
    | false =>
      obtain ⟨h3, t, _, h4, _⟩ :=
        probe_free_slot hm d hash (hm_probe hm hash key).1 key hs (Prod.ext rfl hfd)
      refine ⟨h3, ?_⟩
      rw [h4]
      exact Nat.mod_lt _ hb.1
    | true =>
      have := (probe_found hm d hash (hm_probe hm hash key).1 key hs (Prod.ext rfl hfd)).1
      refine ⟨fun hmax => ?_, this⟩
      rw [hmax] at this
      unfold UINT64_MAX at this
      omega

theorem C12_put_fails_only_on_allocation_failure_witness :
    (3 ≤ 24 ∧ Reachable 24 ex_hash ex_equal ex_saturated ∧
      ∀ i, i < 8 → (slot (ex_saturated.data.getD []) i).state ≠ HM_EMPTY) ∧
    ((∃ b hm1, hm_put 24 true ex_saturated 23 230 = some (b, hm1) ∧
      (b = false → (calloc true (if ex_saturated.cap = 0 then 8 else 2 * ex_saturated.cap) 24 :
        Option (List (HM_Entry Nat Nat))) = none)) ∧
    ((calloc true (if ex_saturated.cap = 0 then 8 else 2 * ex_saturated.cap) 24 :
        Option (List (HM_Entry Nat Nat))) ≠ none →
      ∃ hm1, hm_put 24 true ex_saturated 23 230 = some (true, hm1)) ∧
    (∀ hash key, ex_saturated.data ≠ none →
      (hm_probe ex_saturated hash key).1 ≠ UINT64_MAX ∧
        (hm_probe ex_saturated hash key).1 < ex_saturated.cap)) :=
  ⟨⟨by decide, ex_saturated_reachable, by decide⟩,
    C12_put_fails_only_on_allocation_failure 24 ex_hash ex_equal ex_saturated (by decide)
      ex_saturated_reachable true 23 230⟩

end Claims4

section Claims5
variable {K V : Type} [Inhabited K] [Inhabited V]

/-- C13. On every reachable table `hm_remove(k)` returns `true` exactly when `hm_get(k)`
found the key before the call. The capacity is unchanged in both cases. When it returns
`false` the table is unchanged. When it returns `true` the length decreases by 1 and
exactly one slot, which was `Filled`, becomes `Tombstone` (its key and value stay), all
other slots being unchanged. -/
theorem C13_remove_result (es : Nat) (hf : K → Nat) (ef : K → K → Bool) (hm : HM K V)
    (hes : 3 ≤ es) (hr : Reachable es hf ef hm) (k : K) :
    ((hm_remove hm k).1 = true ↔ hm_get hm k ≠ none) ∧
    (hm_remove hm k).2.cap = hm.cap ∧
    ((hm_remove hm k).1 = false → (hm_remove hm k).2 = hm) ∧
    ((hm_remove hm k).1 = true →
      (hm_remove hm k).2.len + 1 = hm.len ∧
      ∃ d r, hm.data = some d ∧ r < hm.cap ∧ (slot d r).state = HM_FILLED ∧
        (hm_remove hm k).2.data = some (d.set r { slot d r with state := HM_TOMBSTONE }) ∧
        slot (d.set r { slot d r with state := HM_TOMBSTONE }) r =
          { slot d r with state := HM_TOMBSTONE } ∧
        ∀ i, i ≠ r → slot (d.set r { slot d r with state := HM_TOMBSTONE }) i = slot d i) := by
  have hw := (reachable_weak es hf ef hm hes hr).1
  have hcap := (remove_weak hm (hm_remove hm k).2 (u64 (hm.hash_fn k)) k (hm_remove hm k).1
    hw rfl).2.1
  cases hd : hm.data with
  | none =>
    have hp : (hm_probe hm (u64 (hm.hash_fn k)) k).2 = false := by simp [hm_probe, hd]
    have hrem : hm_remove hm k = (false, hm) := by
      unfold hm_remove _hm_remove
      rw [if_pos hp]
    rw [hrem]
    refine ⟨?_, rfl, fun _ => rfl, fun h => by simp at h⟩
    rw [get_none_of_null hm k hd]
    simp
  | some d =>
    have hs := weak_store hm d hw hd
    cases hp : (hm_probe hm (u64 (hm.hash_fn k)) k).2 with
    | false =>
      have hrem : hm_remove hm k = (false, hm) := by
        unfold hm_remove _hm_remove
        rw [if_pos hp]
      rw [hrem]
      refine ⟨?_, rfl, fun _ => rfl, fun h => by simp at h⟩
      rw [(get_none_probe hm d k hd).mpr hp]
      simp
    | true =>
      obtain ⟨hrc, hF, _⟩ := probe_found hm d _ (hm_probe hm (u64 (hm.hash_fn k)) k).1 k hs
        (Prod.ext rfl hp)
      have hrlt : (hm_probe hm (u64 (hm.hash_fn k)) k).1 < d.length := by
        rw [hs.hlen]; exact hrc
      have hcnt := filled_upto_set d (hm_probe hm (u64 (hm.hash_fn k)) k).1 hm.cap
        { slot d (hm_probe hm (u64 (hm.hash_fn k)) k).1 with state := HM_TOMBSTONE } hrlt hrc
      rw [if_pos hF, if_neg (by simp)] at hcnt
      have h1 := hs.hcnt
      have hb := storeOK_bounds hm d hs
      have hu : u64 (hm.len + (2 ^ 64 - 1)) = hm.len - 1 := by
        unfold u64
        rw [show hm.len + (2 ^ 64 - 1) = (hm.len - 1) + 2 ^ 64 by omega, Nat.add_mod_right]
        exact Nat.mod_eq_of_lt (by omega)
      have hrem : hm_remove hm k = (true, { hm with
          data := some (d.set (hm_probe hm (u64 (hm.hash_fn k)) k).1
            { slot d (hm_probe hm (u64 (hm.hash_fn k)) k).1 with state := HM_TOMBSTONE })
          len := hm.len - 1 }) := by
        unfold hm_remove _hm_remove
        rw [if_neg (by rw [hp]; simp), hd, hu]
        rfl
      rw [hrem]
      refine ⟨?_, rfl, fun h => by simp at h, fun _ => ⟨?_, d, _, rfl, hrc, hF, rfl,
        slot_set_eq d _ _ hrlt, fun i hi => slot_set_ne d _ i _ (Ne.symm hi)⟩⟩
      · have : hm_get hm k ≠ none := by
          rw [Ne, get_none_probe hm d k hd, hp]; simp
        simp [this]
      · show hm.len - 1 + 1 = hm.len
        omega

theorem C13_remove_result_witness :
    (3 ≤ 24 ∧ Reachable 24 ex_hash ex_equal ex_three) ∧
    (((hm_remove ex_three 5).1 = true ↔ hm_get ex_three 5 ≠ none) ∧
    (hm_remove ex_three 5).2.cap = ex_three.cap ∧
    ((hm_remove ex_three 5).1 = false → (hm_remove ex_three 5).2 = ex_three) ∧
    ((hm_remove ex_three 5).1 = true →
      (hm_remove ex_three 5).2.len + 1 = ex_three.len ∧
      ∃ d r, ex_three.data = some d ∧ r < ex_three.cap ∧ (slot d r).state = HM_FILLED ∧
        (hm_remove ex_three 5).2.data =
          some (d.set r { slot d r with state := HM_TOMBSTONE }) ∧
        slot (d.set r { slot d r with state := HM_TOMBSTONE }) r =
          { slot d r with state := HM_TOMBSTONE } ∧
        ∀ i, i ≠ r → slot (d.set r { slot d r with state := HM_TOMBSTONE }) i = slot d i)) :=
  ⟨⟨by decide, ex_three_reachable⟩,
    C13_remove_result 24 ex_hash ex_equal ex_three (by decide) ex_three_reachable 5⟩

/-- C14. Removing a key does not disturb other keys: on every reachable table, for keys
`k`, `k1` that `equal_fn` reports not equal, `hm_get(k1)` after `hm_remove(k)` gives the
same result (found with the same value, or not-found) as before, also when `k1` is
stored farther along the probe chain than `k`. -/
theorem C14_remove_keeps_other_keys (es : Nat) (hf : K → Nat) (ef : K → K → Bool)
    (hm : HM K V) (hes : 3 ≤ es) (fn : FnOK hf ef) (hr : Reachable es hf ef hm) (k k1 : K)
    (hne : ef k k1 = false) : hm_get (hm_remove hm k).2 k1 = hm_get hm k1 := by
  have hinv := reachable_inv es hf ef hm hes fn hr
  have hef := (reachable_weak es hf ef hm hes hr).2.2
  obtain ⟨hinv1, _, _, _, _, hlive⟩ :=
    remove_inv hm (hm_remove hm k).2 k (hm_remove hm k).1 hinv rfl
  apply get_congr hm _ k1 hinv hinv1
  intro v
  rw [hlive k1 v, hef, hne]
  simp

theorem C14_remove_keeps_other_keys_witness :
    (3 ≤ 24 ∧ FnOK ex_hash ex_equal ∧ Reachable 24 ex_hash ex_equal ex_three ∧
      ex_equal 5 9 = false) ∧
    hm_get (hm_remove ex_three 5).2 9 = hm_get ex_three 9 :=
  ⟨⟨by decide, ex_fnok, ex_three_reachable, by decide⟩,
    C14_remove_keeps_other_keys 24 ex_hash ex_equal ex_three (by decide) ex_fnok
      ex_three_reachable 5 9 (by decide)⟩

/-- A put of a key that `hm_get` finds overwrites the value in the slot the probe
returns and changes nothing else. -/
theorem put_present (es : Nat) (alloc : Bool) (hm : HM K V) (k : K) (v v0 : V) (hes : 3 ≤ es)
    (hw : WInv hm) (hpres : hm_get hm k = some v0) :
    ∃ d r, hm.data = some d ∧ r < hm.cap ∧ (slot d r).state = HM_FILLED ∧
      hm.equal_fn (slot d r).key k = true ∧
      hm_put es alloc hm k v =
        some (true, { hm with data := some (d.set r { slot d r with value := v }) }) := by
  cases hd : hm.data with
  | none => rw [get_none_of_null hm k hd] at hpres; simp at hpres
  | some d =>
    have hs := weak_store hm d hw hd
    have hp : (hm_probe hm (u64 (hm.hash_fn k)) k).2 = true := by
      cases h : (hm_probe hm (u64 (hm.hash_fn k)) k).2 with
      | true => rfl
      | false =>
        rw [(get_none_probe hm d k hd).mpr h] at hpres
        simp at hpres
    obtain ⟨hrc, hF, hk⟩ := probe_found hm d _ (hm_probe hm (u64 (hm.hash_fn k)) k).1 k hs
      (Prod.ext rfl hp)
    obtain ⟨h1, _⟩ := put_cases es alloc hm (u64 (hm.hash_fn k)) k v hes hw
    obtain ⟨_, _, hmax, hput, _⟩ := h1 (by
      rintro (h | ⟨h, _⟩)
      · rw [hd] at h; simp at h
      · rw [hp] at h; simp at h)
    refine ⟨d, _, rfl, hrc, hF, hk, ?_⟩
    unfold hm_put
    rw [hput, hp, write_update_eq hm d _ k v hmax hd]

/-- C15. Updating an existing key never grows the table: on every reachable table, for a
key `k` that `hm_get` finds, `hm_put(k, v)` returns `true` whatever the allocator does,
leaves capacity and length unchanged and only overwrites the value of the slot holding
`k`; no condition on the load factor is needed. -/
theorem C15_update_never_grows (es : Nat) (hf : K → Nat) (ef : K → K → Bool) (hm : HM K V)
    (hes : 3 ≤ es) (hr : Reachable es hf ef hm) (alloc : Bool) (k : K) (v v0 : V)
    (hpres : hm_get hm k = some v0) :
    ∃ hm1 d r, hm_put es alloc hm k v = some (true, hm1) ∧ hm1.cap = hm.cap ∧
      hm1.len = hm.len ∧ hm.data = some d ∧ r < hm.cap ∧ (slot d r).state = HM_FILLED ∧
      hm.equal_fn (slot d r).key k = true ∧
      hm1.data = some (d.set r { slot d r with value := v }) := by
  have hw := (reachable_weak es hf ef hm hes hr).1
  obtain ⟨d, r, hd, hrc, hF, hk, hput⟩ := put_present es alloc hm k v v0 hes hw hpres
  exact ⟨_, d, r, hput, rfl, rfl, hd, hrc, hF, hk, rfl⟩

theorem C15_update_never_grows_witness :
    (3 ≤ 24 ∧ Reachable 24 ex_hash ex_equal ex_five ∧ hm_get ex_five 1 = some 10 ∧
      (ex_five.len + 1) * 4 ≥ ex_five.cap * 3) ∧
    ∃ hm1 d r, hm_put 24 true ex_five 1 11 = some (true, hm1) ∧ hm1.cap = ex_five.cap ∧
      hm1.len = ex_five.len ∧ ex_five.data = some d ∧ r < ex_five.cap ∧
      (slot d r).state = HM_FILLED ∧ ex_five.equal_fn (slot d r).key 1 = true ∧
      hm1.data = some (d.set r { slot d r with value := 11 }) :=
  ⟨⟨by decide, ex_five_reachable, by decide, by decide⟩,
    C15_update_never_grows 24 ex_hash ex_equal ex_five (by decide) ex_five_reachable true 1 11
      10 (by decide)⟩

/-- C16, as stated, fails: the table `ex_five` (capacity 8 holding 5 keys, so that
`(len + 1) * 4 ≥ cap * 3`) is reachable and holds key 1, and `hm_put(1, 11)` with a
serving allocator returns `true` with capacity 8 and length 5: the table did not grow. -/
theorem C16_counterexample :
    Reachable 24 ex_hash ex_equal ex_five ∧ (ex_five.len + 1) * 4 ≥ ex_five.cap * 3 ∧
      ex_five.cap = 8 ∧ hm_get ex_five 1 = some 10 ∧
      (hm_put 24 true ex_five 1 11).map (fun r => (r.1, r.2.cap, r.2.len)) = some (true, 8, 5) :=
  ⟨ex_five_reachable, by decide, by decide, by decide, by decide⟩

/-- C16, amended. The growth check of `_hm_put` runs after the probe and grows only when
the key was not found: on a reachable table with a store and `(len + 1) * 4 ≥ cap * 3`,
a put of a key that is present returns `true` with capacity and length unchanged, and a
put of a key that is not present doubles the capacity when it succeeds. -/
theorem C16_growth_only_for_new_keys (es : Nat) (hf : K → Nat) (ef : K → K → Bool)
    (hm : HM K V) (hes : 3 ≤ es) (hr : Reachable es hf ef hm) (alloc : Bool) (k : K) (v : V)
    (hsome : hm.data ≠ none) (hload : (hm.len + 1) * 4 ≥ hm.cap * 3) :
    (hm_get hm k ≠ none →
      ∃ hm1, hm_put es alloc hm k v = some (true, hm1) ∧ hm1.cap = hm.cap ∧
        hm1.len = hm.len) ∧
    (hm_get hm k = none →
      ∀ hm1, hm_put es alloc hm k v = some (true, hm1) → hm1.cap = 2 * hm.cap) := by
  have hw := (reachable_weak es hf ef hm hes hr).1
  constructor
  · intro hg
    obtain ⟨v0, hv0⟩ := Option.ne_none_iff_exists'.mp hg
    obtain ⟨d, r, _, _, _, _, hput⟩ := put_present es alloc hm k v v0 hes hw hv0
    exact ⟨_, hput, rfl, rfl⟩
  · intro hg hm1 hput
    obtain ⟨d, hd⟩ := Option.ne_none_iff_exists'.mp hsome
    have hs := weak_store hm d hw hd
    have hb := storeOK_bounds hm d hs
    obtain ⟨_, h2⟩ := put_cases es alloc hm (u64 (hm.hash_fn k)) k v hes hw
    have ht : hm.data = none ∨ ((hm_probe hm (u64 (hm.hash_fn k)) k).2 = false ∧
        hm.cap * 3 ≤ (hm.len + 1) * 4) :=
      Or.inr ⟨(get_none_probe hm d k hd).mp hg, hload⟩
    unfold hm_put at hput
    by_cases hc : (calloc alloc (if hm.cap = 0 then 8 else 2 * hm.cap) es :
        Option (List (HM_Entry K V))) = none
    · rw [(h2 ht).1 hc] at hput
      simp at hput
    · obtain ⟨hm2, h3, h4, _⟩ := (h2 ht).2 hc
      rw [h3] at hput
      simp only [Option.some.injEq, Prod.mk.injEq, true_and] at hput
      rw [← hput, h4, if_neg (by omega)]

theorem C16_growth_only_for_new_keys_witness :
    (3 ≤ 24 ∧ Reachable 24 ex_hash ex_equal ex_five ∧ ex_five.data ≠ none ∧
      (ex_five.len + 1) * 4 ≥ ex_five.cap * 3) ∧
    ((hm_get ex_five 6 ≠ none →
      ∃ hm1, hm_put 24 true ex_five 6 60 = some (true, hm1) ∧ hm1.cap = ex_five.cap ∧
        hm1.len = ex_five.len) ∧
    (hm_get ex_five 6 = none →
      ∀ hm1, hm_put 24 true ex_five 6 60 = some (true, hm1) → hm1.cap = 2 * ex_five.cap)) :=
  ⟨⟨by decide, ex_five_reachable, by decide, by decide⟩,
    C16_growth_only_for_new_keys 24 ex_hash ex_equal ex_five (by decide) ex_five_reachable
      true 6 60 (by decide) (by decide)⟩

end Claims5

/-! ## Clear and free: claims C17 and C18 -/

section Claims6
variable {K V : Type} [Inhabited K] [Inhabited V]

theorem probe_loop_first_empty (ef : K → K → Bool) (d : List (HM_Entry K V)) (mask : Nat)
    (key : K) (n idx : Nat) (hn : 0 < n) (h : (slot d idx).state = HM_EMPTY) :
    hm_probe_loop ef d mask key n idx UINT64_MAX = (idx, false) := by
  cases n with
  | zero => omega
  | succ n =>
    unfold hm_probe_loop
    rw [if_pos h]
    simp

/-- In a store whose slots are all `Empty` no key is found. -/
theorem get_all_empty (hm : HM K V) (d : List (HM_Entry K V)) (k : K) (hs : StoreOK hm d)
    (h : ∀ i, i < hm.cap → (slot d i).state = HM_EMPTY) : hm_get hm k = none := by
  obtain ⟨p, _, hc⟩ := hs.hpow
  have hpos : 0 < 2 ^ p := Nat.pos_pow_of_pos p (by decide)
  rw [get_none_probe hm d k hs.hdata, probe_eq hm d p _ k hs.hdata hc,
    probe_loop_first_empty hm.equal_fn d _ k _ _ hpos
      (h _ (by rw [hc]; exact Nat.mod_lt _ hpos))]

/-- C17. On every reachable table with an allocated store `hm_clear` sets the tag of
every slot to `Empty` (keys and values stay in place), sets the length to 0 and leaves
the capacity and the store size unchanged; afterwards `hm_get` reports not-found for
every key. -/
theorem C17_clear (es : Nat) (hf : K → Nat) (ef : K → K → Bool) (hm : HM K V)
    (hes : 3 ≤ es) (hr : Reachable es hf ef hm) (d : List (HM_Entry K V))
    (hd : hm.data = some d) :
    (hm_clear hm).cap = hm.cap ∧ (hm_clear hm).len = 0 ∧
    (∃ d1, (hm_clear hm).data = some d1 ∧ d1.length = d.length ∧
      ∀ i, i < hm.cap → slot d1 i = { slot d i with state := HM_EMPTY }) ∧
    ∀ k, hm_get (hm_clear hm) k = none := by
  have hw := (reachable_weak es hf ef hm hes hr).1
  have hs := weak_store hm d hw hd
  obtain ⟨hw1, hcap, hlen, _, _, _⟩ := clear_weak hm hw
  have hdat : (hm_clear hm).data = some (clear_upto d hm.cap) := by
    unfold hm_clear _hm_clear
    rw [hd]
  have hslots : ∀ i, i < hm.cap →
      slot (clear_upto d hm.cap) i = { slot d i with state := HM_EMPTY } := by
    intro i hi
    rw [clear_upto_slot, if_pos ⟨hi, by rw [hs.hlen]; exact hi⟩]
  refine ⟨hcap, hlen, ⟨_, hdat, clear_upto_length d hm.cap, hslots⟩, fun k => ?_⟩
  apply get_all_empty (hm_clear hm) (clear_upto d hm.cap) k (weak_store _ _ hw1 hdat)
  intro i hi
  have hcap' : (hm_clear hm).cap = hm.cap := hcap
  rw [hcap'] at hi
  rw [hslots i hi]

theorem C17_clear_witness :
    (3 ≤ 24 ∧ Reachable 24 ex_hash ex_equal ex_table ∧
      ex_table.data = some (ex_table.data.getD [])) ∧
    ((hm_clear ex_table).cap = ex_table.cap ∧ (hm_clear ex_table).len = 0 ∧
    (∃ d1, (hm_clear ex_table).data = some d1 ∧ d1.length = (ex_table.data.getD []).length ∧
      ∀ i, i < ex_table.cap →
        slot d1 i = { slot (ex_table.data.getD []) i with state := HM_EMPTY }) ∧
    ∀ k, hm_get (hm_clear ex_table) k = none) :=
  ⟨⟨by decide, ex_table_reachable, by decide⟩,
    C17_clear 24 ex_hash ex_equal ex_table (by decide) ex_table_reachable _ (by decide)⟩

/-- The initial allocation of a reachable table succeeded, so 8 entries fit 64 bits. -/
theorem reachable_size (es : Nat) (hf : K → Nat) (ef : K → K → Bool) (hm : HM K V)
    (hr : Reachable es hf ef hm) : 8 * es < 2 ^ 64 := by
  induction hr with
  | init alloc hm0 hm h =>
    unfold _hm_init at h
    cases hc : (calloc alloc 8 es : Option (List (HM_Entry K V))) with
    | none => rw [hc] at h; simp at h
    | some dat => exact (calloc_some alloc 8 es dat hc).2.1
  | step _ _ _ _ _ _ ih => exact ih

/-- C18. On every reachable table `hm_free` leaves capacity 0, length 0 and no store;
afterwards `hm_get` and `hm_remove` report not-found for every key, and the table is
usable again without `hm_init`: the next `hm_put(k, v)` with a serving allocator
allocates a store of capacity 8, returns `true`, and leaves length 1 with `hm_get(k)`
yielding `v`. -/
theorem C18_free (es : Nat) (hf : K → Nat) (ef : K → K → Bool) (hm : HM K V)
    (hes : 3 ≤ es) (fn : FnOK hf ef) (hr : Reachable es hf ef hm) :
    (hm_free hm).cap = 0 ∧ (hm_free hm).len = 0 ∧ (hm_free hm).data = none ∧
    (∀ k, hm_get (hm_free hm) k = none ∧ hm_remove (hm_free hm) k = (false, hm_free hm)) ∧
    ∀ k v, ∃ hm1, hm_put es true (hm_free hm) k v = some (true, hm1) ∧ hm1.cap = 8 ∧
      hm1.len = 1 ∧ hm1.data ≠ none ∧ hm_get hm1 k = some v := by
  have hinv := reachable_inv es hf ef hm hes fn hr
  have hsz := reachable_size es hf ef hm hr
  obtain ⟨hinvf, hnol⟩ := free_inv hm hinv
  refine ⟨rfl, rfl, rfl, fun k => ⟨get_none_of_null _ k rfl, ?_⟩, fun k v => ?_⟩
  · unfold hm_remove _hm_remove
    rw [if_pos (by simp [hm_probe, hm_free, _hm_free])]
  · obtain ⟨hm1, hput⟩ := put_alloc_ok es (hm_free hm) k v hes hinvf
      (by rw [if_pos (show (hm_free hm).cap = 0 from rfl)]; exact hsz)
    obtain ⟨hinv1, _, _, _, hpost⟩ := put_inv es true (hm_free hm) hm1 k v true hes hinvf hput
    obtain ⟨hlive, _, habs⟩ := hpost rfl
    obtain ⟨hlen, _, _, hcap⟩ := habs (fun v0 => hnol k v0)
    have hl : Live hm1 k v := (hlive k v).mpr (Or.inl ⟨hinvf.fns.refl k, rfl⟩)
    refine ⟨hm1, hput, hcap rfl, hlen, ?_, (get_iff hm1 k v hinv1).mpr hl⟩
    obtain ⟨d, hd, _⟩ := hl
    rw [hd]; simp

theorem C18_free_witness :
    (3 ≤ 24 ∧ FnOK ex_hash ex_equal ∧ Reachable 24 ex_hash ex_equal ex_table) ∧
    ((hm_free ex_table).cap = 0 ∧ (hm_free ex_table).len = 0 ∧
    (hm_free ex_table).data = none ∧
    (∀ k, hm_get (hm_free ex_table) k = none ∧
      hm_remove (hm_free ex_table) k = (false, hm_free ex_table)) ∧
    ∀ k v, ∃ hm1, hm_put 24 true (hm_free ex_table) k v = some (true, hm1) ∧ hm1.cap = 8 ∧
      hm1.len = 1 ∧ hm1.data ≠ none ∧ hm_get hm1 k = some v) :=
  ⟨⟨by decide, ex_fnok, ex_table_reachable⟩,
    C18_free 24 ex_hash ex_equal ex_table (by decide) ex_fnok ex_table_reachable⟩

end Claims6

/-! ## The dynamic array: claim C19 -/

section DAProofs
variable {T : Type}

theorem memmove_length (d : List T) (dst src n : Nat) (h1 : dst + n ≤ d.length)
    (h2 : src + n ≤ d.length) : (memmove d dst src n).length = d.length := by
  simp only [memmove, List.length_append, List.length_take, List.length_drop]
  omega

theorem memmove_getElem? (d : List T) (dst src n j : Nat) (h1 : dst + n ≤ d.length)
    (h2 : src + n ≤ d.length) :
    (memmove d dst src n)[j]? =
      if dst ≤ j ∧ j < dst + n then d[src + (j - dst)]? else d[j]? := by
  simp only [memmove, List.getElem?_append, List.length_append, List.length_take,
    List.length_drop, List.getElem?_take, List.getElem?_drop]
  have e1 : min dst d.length = dst := by omega
  have e2 : min n (d.length - src) = n := by omega
  rw [e1, e2]
  by_cases hj1 : j < dst
  · have : j < dst + n := by omega
    simp [hj1, this, show ¬ dst ≤ j by omega]
  · by_cases hj2 : j < dst + n
    · simp [hj1, hj2, show dst ≤ j by omega, show j - dst < n by omega]
    · simp [hj1, hj2]
      congr 1
      omega

/-- The write of `_da_insert` on a block with room: the element sequence gets `x` at
position `i`. -/
theorem insert_write_items (D : List T) (L i : Nat) (x : T) (hi : i ≤ L) (hL : L < D.length) :
    ((if i < L then memmove D (i + 1) i (L - i) else D).set i x).take (L + 1) =
      (D.take L).take i ++ x :: (D.take L).drop i := by
  apply List.ext_getElem?
  intro j
  by_cases hiL : i < L
  · rw [if_pos hiL]
    simp only [List.getElem?_take, List.getElem?_set, memmove_length D (i + 1) i (L - i)
      (by omega) (by omega), memmove_getElem? D (i + 1) i (L - i) j (by omega) (by omega),
      List.getElem?_append, List.length_take, List.getElem?_cons, List.getElem?_drop]
    have e1 : min i (min L D.length) = i := by omega
    rw [e1]
    by_cases h1 : j < i
    · simp [h1, show j < L + 1 by omega, show ¬ i = j by omega, show ¬ (i + 1 ≤ j) by omega,
        show j < L by omega]
    · by_cases h2 : j = i
      · subst h2
        simp [show j < L + 1 by omega, show j < D.length by omega]
      · by_cases h3 : j < L + 1
        · have e2 : i + (j - (i + 1)) = j - 1 := by omega
          have e3 : i + (j - i - 1) = j - 1 := by omega
          simp [h1, h2, h3, show ¬ i = j by omega, show i + 1 ≤ j by omega,
            show j < i + 1 + (L - i) by omega, show j - i ≠ 0 by omega, e2, e3,
            show j - 1 < L by omega]
        · simp [h1, h2, h3, show j - i ≠ 0 by omega, show ¬ (i + (j - i - 1) < L) by omega]
  · have hiL2 : i = L := by omega
    subst hiL2
    rw [if_neg hiL]
    simp only [List.getElem?_take, List.getElem?_set, List.getElem?_append, List.length_take,
      List.getElem?_cons, List.getElem?_drop]
    have e1 : min i (min i D.length) = i := by omega
    rw [e1]
    by_cases h1 : j < i
    · simp [h1, show j < i + 1 by omega, show ¬ i = j by omega]
    · by_cases h2 : j = i
      · subst h2
        simp [show j < D.length by omega]
      · simp [h1, h2, show ¬ j < i + 1 by omega, show j - i ≠ 0 by omega,
          show ¬ (i + (j - i - 1) < i) by omega]

theorem insert_write_length (D : List T) (L i : Nat) (x : T) (hL : L < D.length) :
    ((if i < L then memmove D (i + 1) i (L - i) else D).set i x).length = D.length := by
  rw [List.length_set]
  split
  · exact memmove_length D (i + 1) i (L - i) (by omega) (by omega)
  · rfl

/-- The move of `_da_remove_at`: the element sequence loses position `i`. -/
theorem remove_move_items (D : List T) (L i : Nat) (hi : i < L) (hL : L ≤ D.length) :
    (if i < L - 1 then memmove D i (i + 1) (L - i - 1) else D).take (L - 1) =
      (D.take L).eraseIdx i := by
  apply List.ext_getElem?
  intro j
  rw [List.getElem?_eraseIdx]
  by_cases hiL : i < L - 1
  · rw [if_pos hiL]
    simp only [List.getElem?_take, memmove_getElem? D i (i + 1) (L - i - 1) j (by omega)
      (by omega)]
    by_cases h1 : j < i
    · simp [h1, show j < L - 1 by omega, show ¬ i ≤ j by omega, show j < L by omega]
    · by_cases h2 : j < L - 1
      · have e : i + 1 + (j - i) = j + 1 := by omega
        simp [h1, h2, show i ≤ j by omega, show j < i + (L - i - 1) by omega, e,
          show j + 1 < L by omega]
      · simp [h1, h2, show ¬ j + 1 < L by omega]
  · rw [if_neg hiL]
    simp only [List.getElem?_take]
    by_cases h1 : j < i
    · simp [h1, show j < L - 1 by omega, show j < L by omega]
    · simp [h1, show ¬ j < L - 1 by omega, show ¬ j + 1 < L by omega]

theorem remove_move_length (D : List T) (L i : Nat) (hi : i < L) (hL : L ≤ D.length) :
    (if i < L - 1 then memmove D i (i + 1) (L - i - 1) else D).length = D.length := by
  split
  · exact memmove_length D i (i + 1) (L - i - 1) (by omega) (by omega)
  · rfl

theorem eraseIdx_insert (l : List T) (i : Nat) (x : T) (hi : i ≤ l.length) :
    (l.take i ++ x :: l.drop i).eraseIdx i = l := by
  apply List.ext_getElem?
  intro j
  rw [List.getElem?_eraseIdx]
  simp only [List.getElem?_append, List.length_take, List.getElem?_take, List.getElem?_cons,
    List.getElem?_drop]
  have e1 : min i l.length = i := by omega
  rw [e1]
  by_cases h1 : j < i
  · simp [h1]
  · have e : i + (j + 1 - i - 1) = j := by omega
    simp [h1, show ¬ j + 1 < i by omega, show j + 1 - i ≠ 0 by omega, e]

end DAProofs

section DAClaim
variable {T : Type}

theorem da_nowrap (item_size n : Nat) (his : 0 < item_size) (h : n * item_size < 2 ^ 64) :
    u64 (n * item_size) / item_size = n := by
  rw [u64_of_lt _ h]
  exact Nat.mul_div_cancel n his

theorem da_bound (item_size n : Nat) (his : 0 < item_size) : n ≤ n * item_size :=
  Nat.le_mul_of_pos_right n his

/-- The growth of `_da_insert` on a full well-formed array. -/
theorem da_reserve_grow (alloc : Bool) (fresh : Nat → T) (da : DA_Generic T) (item_size : Nat)
    (hok : DA_OK da item_size) :
    (alloc = false →
      _da_reserve alloc fresh da item_size (if da.cap = 0 then 8 else u64 (da.cap * 2)) =
        (false, da)) ∧
    (alloc = true → ∃ junk nc,
      _da_reserve alloc fresh da item_size (if da.cap = 0 then 8 else u64 (da.cap * 2)) =
        (true, { da with data := da.data ++ junk, cap := nc }) ∧
      (da.data ++ junk).length = nc ∧ da.cap < nc) := by
  have hcap := da_bound item_size da.cap hok.hitem
  have hobj := hok.hobj
  have his := hok.hitem
  have hlt := hok.hitem_lt
  have hnc : (if da.cap = 0 then 8 else u64 (da.cap * 2)) = (if da.cap = 0 then 8 else 2 * da.cap) := by
    split
    · rfl
    · rw [u64_of_lt _ (by omega), Nat.mul_comm]
  have hgt : ¬ (if da.cap = 0 then 8 else 2 * da.cap) ≤ da.cap := by split <;> omega
  have hbytes : (if da.cap = 0 then 8 else 2 * da.cap) * item_size < 2 ^ 64 := by
    split
    · omega
    · rw [Nat.mul_assoc]; omega
  rw [hnc]
  unfold _da_reserve realloc
  rw [if_neg hgt, da_nowrap item_size _ his hbytes]
  constructor
  · intro ha
    rw [if_neg (by rw [ha]; simp)]
  · intro ha
    rw [if_pos ha]
    refine ⟨(List.range ((if da.cap = 0 then 8 else 2 * da.cap) - da.data.length)).map
        (fun j => fresh (da.data.length + j)), (if da.cap = 0 then 8 else 2 * da.cap),
      ?_, ?_, Nat.lt_of_not_le hgt⟩
    · simp only
      rw [List.take_of_length_le (by rw [hok.hblock]; exact Nat.le_of_lt (Nat.lt_of_not_le hgt))]
    · rw [List.length_append, List.length_map, List.length_range, hok.hblock]
      omega

/-- The write of `_da_insert` into a block with room. -/
theorem da_write_spec (da : DA_Generic T) (item_size i : Nat) (x : T) (his : 0 < item_size)
    (hi : i ≤ da.len) (hroom : da.len < da.data.length) (hb : da.len * item_size < 2 ^ 63) :
    (da_insert_write da item_size i x).len = da.len + 1 ∧
    (da_insert_write da item_size i x).cap = da.cap ∧
    (da_insert_write da item_size i x).data.length = da.data.length ∧
    da_items (da_insert_write da item_size i x) =
      (da_items da).take i ++ x :: (da_items da).drop i := by
  have hl := da_bound item_size da.len his
  have hsub : (da.len - i) * item_size ≤ da.len * item_size :=
    Nat.mul_le_mul_right _ (Nat.sub_le _ _)
  have hn := da_nowrap item_size (da.len - i) his (by omega)
  have hu : u64 (da.len + 1) = da.len + 1 := u64_of_lt _ (by omega)
  unfold da_insert_write da_items
  simp only [hn, hu]
  exact ⟨trivial, trivial, insert_write_length da.data da.len i x hroom,
    insert_write_items da.data da.len i x hi hroom⟩

/-- The function `_da_remove_at` on an index in range. -/
theorem da_remove_spec (da : DA_Generic T) (item_size i : Nat) (his : 0 < item_size)
    (hi : i < da.len) (hblock : da.len ≤ da.data.length) (hb : da.len * item_size < 2 ^ 64) :
    (_da_remove_at da item_size i).1 = true ∧
    (_da_remove_at da item_size i).2.len = da.len - 1 ∧
    (_da_remove_at da item_size i).2.cap = da.cap ∧
    da_items (_da_remove_at da item_size i).2 = (da_items da).eraseIdx i := by
  have hsub : (da.len - i - 1) * item_size ≤ da.len * item_size :=
    Nat.mul_le_mul_right _ (by omega)
  have hn := da_nowrap item_size (da.len - i - 1) his (by omega)
  unfold _da_remove_at da_items
  rw [if_neg (by omega)]
  simp only [hn]
  exact ⟨trivial, trivial, trivial, remove_move_items da.data da.len i hi hblock⟩

/-- C19. Dynamic array insert. For every well-formed array (`len ≤ cap`, `data` a block
of `cap` items that is an object of fewer than `2 ^ 63` bytes, items of fewer than
`2 ^ 60` bytes), every index `i` and item `x`: `_da_insert` returns `false` and leaves the array
unchanged when `i > len`; when `i ≤ len` it returns `true` if the allocation (if any)
succeeds, a `false` result leaves the array unchanged, and after a `true` result `len`
has increased by 1, the element at position `i` is `x`, the elements formerly at positions
below `i` are unchanged, the elements formerly at positions `j ≥ i` are at `j + 1`, and a
following `_da_remove_at(i)` returns `true` and restores the element sequence and `len`. -/
theorem C19_da_insert (alloc : Bool) (fresh : Nat → T) (da : DA_Generic T)
    (item_size index : Nat) (item : T) (hok : DA_OK da item_size) :
    (index > da.len → _da_insert alloc fresh da item_size index item = (false, da)) ∧
    (index ≤ da.len →
      (alloc = true → (_da_insert alloc fresh da item_size index item).1 = true) ∧
      ((_da_insert alloc fresh da item_size index item).1 = false →
        (_da_insert alloc fresh da item_size index item).2 = da) ∧
      ((_da_insert alloc fresh da item_size index item).1 = true →
        (_da_insert alloc fresh da item_size index item).2.len = da.len + 1 ∧
        (_da_insert alloc fresh da item_size index item).2.len ≤
          (_da_insert alloc fresh da item_size index item).2.cap ∧
        (_da_insert alloc fresh da item_size index item).2.data.length =
          (_da_insert alloc fresh da item_size index item).2.cap ∧
        da_items (_da_insert alloc fresh da item_size index item).2 =
          (da_items da).take index ++ item :: (da_items da).drop index ∧
        (da_items (_da_insert alloc fresh da item_size index item).2)[index]? = some item ∧
        (∀ j, j < index →
          (da_items (_da_insert alloc fresh da item_size index item).2)[j]? =
            (da_items da)[j]?) ∧
        (∀ j, index ≤ j → j < da.len →
          (da_items (_da_insert alloc fresh da item_size index item).2)[j + 1]? =
            (da_items da)[j]?) ∧
        (_da_remove_at (_da_insert alloc fresh da item_size index item).2 item_size index).1 =
          true ∧
        (_da_remove_at (_da_insert alloc fresh da item_size index item).2 item_size index).2.len =
          da.len ∧
        da_items
          (_da_remove_at (_da_insert alloc fresh da item_size index item).2 item_size index).2 =
          da_items da)) := by
  have his := hok.hitem
  have hobj := hok.hobj
  have hlencap : da.len * item_size ≤ da.cap * item_size := Nat.mul_le_mul_right _ hok.hlen
  have hitems_len : (da_items da).length = da.len := by
    unfold da_items
    rw [List.length_take, hok.hblock]
    exact Nat.min_eq_left hok.hlen
  -- what follows from a successful write into a block `da1` with room
  have hwrite : ∀ da1 : DA_Generic T, da1.len = da.len → da_items da1 = da_items da →
      da1.len < da1.data.length → da1.data.length = da1.cap → index ≤ da.len →
      (da_insert_write da1 item_size index item).len = da.len + 1 ∧
      (da_insert_write da1 item_size index item).len ≤
        (da_insert_write da1 item_size index item).cap ∧
      (da_insert_write da1 item_size index item).data.length =
        (da_insert_write da1 item_size index item).cap ∧
      da_items (da_insert_write da1 item_size index item) =
        (da_items da).take index ++ item :: (da_items da).drop index ∧
      (da_items (da_insert_write da1 item_size index item))[index]? = some item ∧
      (∀ j, j < index →
        (da_items (da_insert_write da1 item_size index item))[j]? = (da_items da)[j]?) ∧
      (∀ j, index ≤ j → j < da.len →
        (da_items (da_insert_write da1 item_size index item))[j + 1]? = (da_items da)[j]?) ∧
      (_da_remove_at (da_insert_write da1 item_size index item) item_size index).1 = true ∧
      (_da_remove_at (da_insert_write da1 item_size index item) item_size index).2.len =
        da.len ∧
      da_items (_da_remove_at (da_insert_write da1 item_size index item) item_size index).2 =
        da_items da := by
    intro da1 hl1 hit1 hroom hblk hi
    obtain ⟨w1, w2, w3, w4⟩ := da_write_spec da1 item_size index item his (by rw [hl1]; exact hi)
      hroom (by rw [hl1]; omega)
    rw [hit1] at w4
    rw [hl1] at w1
    have hlt := hok.hitem_lt
    obtain ⟨r1, r2, _, r4⟩ := da_remove_spec (da_insert_write da1 item_size index item)
      item_size index his (by rw [w1]; omega) (by rw [w1, w3]; omega)
      (by rw [w1, Nat.add_mul]; omega)
    refine ⟨w1, by rw [w1, w2, ← hblk]; omega, by rw [w3, w2, hblk], w4, ?_, ?_, ?_, r1,
      by rw [r2, w1]; omega, ?_⟩
    · rw [w4, List.getElem?_append_right (by rw [List.length_take]; omega)]
      simp [hitems_len, Nat.min_eq_left hi]
    · intro j hj
      rw [w4, List.getElem?_append_left (by rw [List.length_take]; omega),
        List.getElem?_take_of_lt hj]
    · intro j hj1 hj2
      rw [w4, List.getElem?_append_right (by rw [List.length_take]; omega)]
      simp only [List.length_take, hitems_len, Nat.min_eq_left hi]
      rw [show j + 1 - index = (j - index) + 1 by omega, List.getElem?_cons_succ,
        List.getElem?_drop]
      congr 1
      omega
    · rw [r4, w4]
      exact eraseIdx_insert (da_items da) index item (by rw [hitems_len]; exact hi)
  constructor
  · intro hgt
    unfold _da_insert
    rw [if_pos hgt]
  · intro hi
    unfold _da_insert
    rw [if_neg (by omega)]
    by_cases hfull : da.len ≥ da.cap
    · rw [if_pos hfull]
      obtain ⟨hf, ht⟩ := da_reserve_grow alloc fresh da item_size hok
      by_cases ha : alloc = true
      case neg =>
        have ha2 : alloc = false := by simpa using ha
        rw [hf ha2]
        exact ⟨fun h => absurd h ha, fun _ => rfl, fun h => by simp at h⟩
      case pos =>
        obtain ⟨junk, nc, hres, hlen, hcap⟩ := ht ha
        rw [hres]
        have hit1 : da_items ({ da with data := da.data ++ junk, cap := nc } : DA_Generic T) =
            da_items da := by
          unfold da_items
          simp only
          rw [List.take_append_of_le_length (by rw [hok.hblock]; exact hok.hlen)]
        have hroom : da.len < (da.data ++ junk).length := by
          rw [hlen]; have := hok.hlen; omega
        exact ⟨fun _ => rfl, fun h => by simp at h, fun _ =>
          hwrite { da with data := da.data ++ junk, cap := nc } rfl hit1 hroom hlen hi⟩
    · rw [if_neg hfull]
      exact ⟨fun _ => rfl, fun h => by simp at h, fun _ =>
        hwrite da rfl rfl (by rw [hok.hblock]; omega) hok.hblock hi⟩

theorem ex_array_ok : DA_OK ex_array 8 :=
  ⟨rfl, by decide, by decide, by norm_num, by norm_num [ex_array]⟩

theorem C19_da_insert_witness :
    DA_OK ex_array 8 ∧
    da_items (_da_insert true ex_fresh ex_array 8 1 99).2 =
      (da_items ex_array).take 1 ++ 99 :: (da_items ex_array).drop 1 ∧
    da_items (_da_remove_at (_da_insert true ex_fresh ex_array 8 1 99).2 8 1).2 =
      da_items ex_array :=
  ⟨ex_array_ok,
    (((C19_da_insert true ex_fresh ex_array 8 1 99 ex_array_ok).2 (by decide)).2.2
      (by decide)).2.2.2.1,
    (((C19_da_insert true ex_fresh ex_array 8 1 99 ex_array_ok).2 (by decide)).2.2
      (by decide)).2.2.2.2.2.2.2.2.2⟩

end DAClaim

section LLBasics
variable {T : Type}


theorem ll_first_append (l1 l2 : List (Nat × T)) (e : Nat) :
    ll_first (l1 ++ l2) e = ll_first l1 (ll_first l2 e) := by
  cases l1 with
  | nil => rfl
  | cons a rest => rfl

theorem ll_last_concat (pre : List (Nat × T)) (p : Nat × T) : ll_last (pre ++ [p]) = p.1 := by
  induction pre with
  | nil => rfl
  | cons a rest ih =>
    cases rest with
    | nil => rfl
    | cons b rest2 => exact ih

theorem ll_last_cons (a : Nat × T) (rest : List (Nat × T)) (h : rest ≠ []) :
    ll_last (a :: rest) = ll_last rest := by
  cases rest with
  | nil => exact absurd rfl h
  | cons b rest2 => rfl

theorem ll_concat_cases (ns : List (Nat × T)) (h : ns ≠ []) : ∃ pre p, ns = pre ++ [p] :=
  ⟨ns.dropLast, ns.getLast h, (List.dropLast_append_getLast h).symm⟩

theorem linked_congr (mem mem2 : Nat → Option (LL_Node T)) (ns : List (Nat × T)) (e : Nat)
    (hagree : ∀ a, a ∈ ns.map Prod.fst → mem2 a = mem a) (h : LinkedSeg mem ns e) :
    LinkedSeg mem2 ns e := by
  induction ns with
  | nil => trivial
  | cons n rest ih =>
    obtain ⟨a, x⟩ := n
    obtain ⟨h1, h2, h3, h4⟩ := h
    refine ⟨h1, h2, ?_, ih (fun b hb => hagree b (List.mem_cons_of_mem _ hb)) h4⟩
    rw [hagree a (List.mem_cons_self _ _)]
    exact h3

theorem linked_append (mem : Nat → Option (LL_Node T)) (l1 l2 : List (Nat × T)) (e : Nat) :
    LinkedSeg mem (l1 ++ l2) e ↔ LinkedSeg mem l1 (ll_first l2 e) ∧ LinkedSeg mem l2 e := by
  induction l1 with
  | nil => exact ⟨fun h => ⟨trivial, h⟩, fun h => h.2⟩
  | cons n rest ih =>
    obtain ⟨a, x⟩ := n
    show (a ≠ 0 ∧ a < 2 ^ 64 ∧ mem a = some { data := x, next := ll_first (rest ++ l2) e } ∧
        LinkedSeg mem (rest ++ l2) e) ↔
      (a ≠ 0 ∧ a < 2 ^ 64 ∧ mem a = some { data := x, next := ll_first rest (ll_first l2 e) } ∧
        LinkedSeg mem rest (ll_first l2 e)) ∧ LinkedSeg mem l2 e
    rw [ll_first_append, ih]
    tauto

theorem linked_live (mem : Nat → Option (LL_Node T)) (ns : List (Nat × T)) (e : Nat)
    (h : LinkedSeg mem ns e) (a : Nat) (ha : a ∈ ns.map Prod.fst) :
    a ≠ 0 ∧ a < 2 ^ 64 ∧ (mem a).isSome = true := by
  induction ns with
  | nil => simp at ha
  | cons n rest ih =>
    obtain ⟨b, x⟩ := n
    obtain ⟨h1, h2, h3, h4⟩ := h
    rw [List.map_cons, List.mem_cons] at ha
    rcases ha with ha | ha
    · rw [ha]
      exact ⟨h1, h2, by rw [h3]; rfl⟩
    · exact ih h4 ha

/-- Distinct non-null addresses that fit a pointer are fewer than `2 ^ 64`. -/
theorem addrs_bound (l : List Nat) (hn : l.Nodup) (hb : ∀ a, a ∈ l → a ≠ 0 ∧ a < 2 ^ 64) :
    l.length < 2 ^ 64 := by
  have hsub : l.toFinset ⊆ Finset.Ico 1 (2 ^ 64) := by
    intro a ha
    rw [List.mem_toFinset] at ha
    rw [Finset.mem_Ico]
    have := hb a ha
    omega
  have hcard := Finset.card_le_card hsub
  rw [List.toFinset_card_of_nodup hn, Nat.card_Ico] at hcard
  omega

theorem linked_walk (mem : Nat → Option (LL_Node T)) (pre : List (Nat × T)) (a : Nat) (x : T)
    (post : List (Nat × T)) (e : Nat) (h : LinkedSeg mem (pre ++ (a, x) :: post) e) :
    ll_walk mem pre.length (ll_first (pre ++ (a, x) :: post) e) = some a := by
  induction pre with
  | nil => rfl
  | cons n rest ih =>
    obtain ⟨b, y⟩ := n
    obtain ⟨h1, h2, h3, h4⟩ := h
    show ll_walk mem (rest.length + 1) b = some a
    unfold ll_walk mem_deref
    rw [if_neg h1, h3]
    exact ih h4

theorem linked_foreach (mem : Nat → Option (LL_Node T)) (ns : List (Nat × T))
    (h : LinkedSeg mem ns 0) (fuel : Nat) (hf : ns.length < fuel) :
    ll_foreach mem fuel (ll_first ns 0) = some (ns.map Prod.snd) := by
  induction ns generalizing fuel with
  | nil =>
    cases fuel with
    | zero => exact absurd hf (Nat.lt_irrefl 0)
    | succ f => rfl
  | cons n rest ih =>
    obtain ⟨b, y⟩ := n
    obtain ⟨h1, h2, h3, h4⟩ := h
    cases fuel with
    | zero => exact absurd hf (Nat.not_lt_zero _)
    | succ f =>
      show ll_foreach mem (f + 1) b = some (y :: rest.map Prod.snd)
      unfold ll_foreach mem_deref
      rw [if_neg h1, if_neg h1, h3]
      simp only
      rw [ih h4 f (by simpa using hf)]

theorem ll_first_null (mem : Nat → Option (LL_Node T)) (ns : List (Nat × T)) (e : Nat)
    (h : LinkedSeg mem ns e) : ll_first ns 0 = 0 ↔ ns = [] := by
  cases ns with
  | nil => exact ⟨fun _ => rfl, fun _ => rfl⟩
  | cons n rest =>
    obtain ⟨b, y⟩ := n
    exact ⟨fun h0 => absurd h0 h.1, fun h0 => by simp at h0⟩

theorem ll_last_mem (ns : List (Nat × T)) (h : ns ≠ []) : ll_last ns ∈ ns.map Prod.fst := by
  obtain ⟨pre, p, hp⟩ := ll_concat_cases ns h
  rw [hp, ll_last_concat]
  simp

theorem ll_last_null (mem : Nat → Option (LL_Node T)) (ns : List (Nat × T)) (e : Nat)
    (h : LinkedSeg mem ns e) : ll_last ns = 0 ↔ ns = [] := by
  constructor
  · intro h0
    by_contra hne
    exact (linked_live mem ns e h _ (ll_last_mem ns hne)).1 h0
  · intro h0
    rw [h0]
    rfl

theorem ll_ok_bound (ll : LL_Generic T) (ns : List (Nat × T)) (hok : LL_OK ll ns) :
    ns.length < 2 ^ 64 := by
  have := addrs_bound (ns.map Prod.fst) hok.hnodup
    (fun a ha => ⟨(linked_live _ _ _ hok.hlinked a ha).1, (linked_live _ _ _ hok.hlinked a ha).2.1⟩)
  rwa [List.length_map] at this

end LLBasics

section LLOps
variable {T : Type}

theorem malloc_fresh_iff (ll : LL_Generic T) (m : Nat) :
    malloc_fresh ll m = true ↔ m ≠ 0 ∧ m < 2 ^ 64 ∧ ll.mem m = none := by
  unfold malloc_fresh
  rw [Bool.and_eq_true, Bool.and_eq_true, decide_eq_true_iff, decide_eq_true_iff,
    Option.isNone_iff_eq_none, and_assoc]

theorem ll_last_append (l1 l2 : List (Nat × T)) (h : l2 ≠ []) :
    ll_last (l1 ++ l2) = ll_last l2 := by
  induction l1 with
  | nil => rfl
  | cons a rest ih =>
    rw [List.cons_append, ll_last_cons a (rest ++ l2) (by simp [h]), ih]

theorem eraseIdx_mid {α : Type} (l1 : List α) (a b : α) (l2 : List α) :
    (l1 ++ a :: b :: l2).eraseIdx (l1.length + 1) = l1 ++ a :: l2 := by
  induction l1 with
  | nil => rfl
  | cons c rest ih =>
    show c :: (rest ++ a :: b :: l2).eraseIdx (rest.length + 1) = c :: (rest ++ a :: l2)
    rw [ih]

/-- A fresh address is not the address of a node of the list. -/
theorem fresh_not_mem (ll : LL_Generic T) (ns : List (Nat × T)) (hok : LL_OK ll ns) (m : Nat)
    (hm : ll.mem m = none) : m ∉ ns.map Prod.fst := by
  intro hmem
  have := (linked_live _ _ _ hok.hlinked m hmem).2.2
  rw [hm] at this
  exact absurd this (by simp)

theorem ll_push_front_ok (ll : LL_Generic T) (ns : List (Nat × T)) (hok : LL_OK ll ns)
    (m : Nat) (x : T) (hm : malloc_fresh ll m = true) :
    ∃ ll2, _ll_push_front ll m x = some (true, ll2) ∧ LL_OK ll2 ((m, x) :: ns) := by
  obtain ⟨hm0, hmlt, hmn⟩ := (malloc_fresh_iff ll m).1 hm
  have hnot := fresh_not_mem ll ns hok m hmn
  have hlinked : LinkedSeg (mem_store ll.mem m { data := x, next := ll.head }) ((m, x) :: ns) 0 := by
    refine ⟨hm0, hmlt, ?_, ?_⟩
    · unfold mem_store
      rw [if_pos rfl, hok.hhead]
    · refine linked_congr ll.mem _ ns 0 (fun a ha => ?_) hok.hlinked
      unfold mem_store
      rw [if_neg (fun (h : a = m) => hnot (h ▸ ha))]
  have hnodup : (((m, x) :: ns).map Prod.fst).Nodup := by
    rw [List.map_cons, List.nodup_cons]
    exact ⟨hnot, hok.hnodup⟩
  have hbound := addrs_bound _ hnodup (fun a ha =>
    ⟨(linked_live _ _ _ hlinked a ha).1, (linked_live _ _ _ hlinked a ha).2.1⟩)
  rw [List.length_map, List.length_cons] at hbound
  unfold _ll_push_front
  rw [if_neg hm0]
  refine ⟨_, rfl, hlinked, hnodup, rfl, ?_, ?_⟩
  · show (if ll.tail = 0 then m else ll.tail) = ll_last ((m, x) :: ns)
    by_cases hns : ns = []
    · have : ll.tail = 0 := by rw [hok.htail, hns]; rfl
      rw [if_pos this, hns]
      rfl
    · have : ll.tail ≠ 0 := by
        rw [hok.htail]
        exact fun h => hns ((ll_last_null _ _ _ hok.hlinked).1 h)
      rw [if_neg this, ll_last_cons _ _ hns, hok.htail]
  · show u64 (ll.len + 1) = ns.length + 1
    rw [hok.hlen, u64_of_lt _ hbound]

theorem ll_push_back_ok (ll : LL_Generic T) (ns : List (Nat × T)) (hok : LL_OK ll ns)
    (m : Nat) (x : T) (hm : malloc_fresh ll m = true) :
    ∃ ll2, _ll_push_back ll m x = some (true, ll2) ∧ LL_OK ll2 (ns ++ [(m, x)]) := by
  obtain ⟨hm0, hmlt, hmn⟩ := (malloc_fresh_iff ll m).1 hm
  have hnot := fresh_not_mem ll ns hok m hmn
  have hnodup : ((ns ++ [(m, x)]).map Prod.fst).Nodup := by
    rw [List.map_append, List.nodup_append]
    refine ⟨hok.hnodup, by simp, ?_⟩
    intro a ha hb
    simp only [List.map_cons, List.map_nil, List.mem_singleton] at hb
    exact hnot (hb ▸ ha)
  have hb0 : ∀ a, a ∈ (ns ++ [(m, x)]).map Prod.fst → a ≠ 0 ∧ a < 2 ^ 64 := by
    intro a ha
    rw [List.map_append, List.mem_append] at ha
    rcases ha with ha | ha
    · exact ⟨(linked_live _ _ _ hok.hlinked a ha).1, (linked_live _ _ _ hok.hlinked a ha).2.1⟩
    · simp only [List.map_cons, List.map_nil, List.mem_singleton] at ha
      rw [ha]
      exact ⟨hm0, hmlt⟩
  have hbound := addrs_bound _ hnodup hb0
  rw [List.length_map, List.length_append, List.length_singleton] at hbound
  have hlen : u64 (ll.len + 1) = (ns ++ [(m, x)]).length := by
    rw [hok.hlen, u64_of_lt _ hbound, List.length_append, List.length_singleton]
  unfold _ll_push_back
  rw [if_neg hm0]
  by_cases hns : ns = []
  · have ht : ll.tail = 0 := by rw [hok.htail, hns]; rfl
    rw [if_neg (by rw [ht]; exact fun h => h rfl)]
    refine ⟨_, rfl, ?_, hnodup, ?_, ?_, hlen⟩
    · rw [hns]
      refine ⟨hm0, hmlt, ?_, trivial⟩
      show mem_store ll.mem m { data := x, next := 0 } m = _
      unfold mem_store
      rw [if_pos rfl]
      rfl
    · rw [hns]; rfl
    · rw [hns]; rfl
  · have ht : ll.tail ≠ 0 := by
      rw [hok.htail]
      exact fun h => hns ((ll_last_null _ _ _ hok.hlinked).1 h)
    rw [if_pos ht]
    obtain ⟨pre, ⟨p, xp⟩, hp⟩ := ll_concat_cases ns hns
    have htp : ll.tail = p := by rw [hok.htail, hp, ll_last_concat]
    have hl := hok.hlinked
    rw [hp, linked_append] at hl
    obtain ⟨hl1, hp0, hplt, hpm, _⟩ := hl
    have hpm_ne : p ≠ m := by
      intro h
      apply hnot
      rw [hp, ← h]
      simp
    have hderef : mem_deref (mem_store ll.mem m { data := x, next := 0 }) ll.tail =
        some { data := xp, next := 0 } := by
      unfold mem_deref mem_store
      rw [if_neg ht, htp, if_neg hpm_ne, hpm]
      rfl
    rw [hderef]
    have hnd := hok.hnodup
    rw [hp, List.map_append, List.nodup_append] at hnd
    obtain ⟨_, _, hdisj⟩ := hnd
    have hpre_p : ∀ a, a ∈ pre.map Prod.fst → a ≠ p := by
      intro a ha h
      exact hdisj ha (by rw [h]; simp)
    have hpre_m : ∀ a, a ∈ pre.map Prod.fst → a ≠ m := by
      intro a ha h
      apply hnot
      rw [hp, ← h, List.map_append]
      exact List.mem_append_left _ ha
    refine ⟨_, rfl, ?_, hnodup, hok.hhead.trans ?_, ?_, hlen⟩
    · show LinkedSeg (mem_store (mem_store ll.mem m { data := x, next := 0 }) ll.tail
        { data := xp, next := m }) (ns ++ [(m, x)]) 0
      rw [hp, List.append_assoc, linked_append]
      constructor
      · refine linked_congr ll.mem _ pre _ (fun a ha => ?_) hl1
        unfold mem_store
        rw [htp, if_neg (hpre_p a ha), if_neg (hpre_m a ha)]
      · refine ⟨hp0, hplt, ?_, hm0, hmlt, ?_, trivial⟩
        · unfold mem_store
          rw [htp, if_pos rfl]
          rfl
        · unfold mem_store
          rw [htp, if_neg (Ne.symm hpm_ne), if_pos rfl]
          rfl
    · cases ns with
      | nil => exact absurd rfl hns
      | cons a rest => rfl
    · rw [ll_last_concat]

end LLOps

section LLOps2
variable {T : Type}

theorem u64_dec (n : Nat) (h : n + 1 < 2 ^ 64) : u64 (n + 1 + 2 ^ 64 - 1) = n := by
  unfold u64
  omega

theorem ll_pop_front_ok (ll : LL_Generic T) (a : Nat) (x : T) (rest : List (Nat × T))
    (hok : LL_OK ll ((a, x) :: rest)) :
    ∃ ll2, _ll_pop_front ll = some (true, ll2) ∧ LL_OK ll2 rest := by
  obtain ⟨ha0, halt, ham, hrest⟩ := hok.hlinked
  have hbound := ll_ok_bound ll _ hok
  rw [List.length_cons] at hbound
  have hnd := hok.hnodup
  rw [List.map_cons, List.nodup_cons] at hnd
  have hhead : ll.head = a := hok.hhead
  unfold _ll_pop_front
  rw [if_neg (by rw [hhead]; exact ha0)]
  have hderef : mem_deref ll.mem ll.head = some { data := x, next := ll_first rest 0 } := by
    unfold mem_deref
    rw [hhead, if_neg ha0, ham]
  rw [hderef]
  refine ⟨_, rfl, ?_, hnd.2, rfl, ?_, ?_⟩
  · refine linked_congr ll.mem _ rest 0 (fun b hb => ?_) hrest
    show mem_free ll.mem ll.head b = ll.mem b
    unfold mem_free
    rw [hhead, if_neg (fun (h : b = a) => hnd.1 (h ▸ hb))]
  · show (if ll_first rest 0 = 0 then 0 else ll.tail) = ll_last rest
    by_cases hr : rest = []
    · rw [if_pos ((ll_first_null _ _ _ hrest).2 hr), hr]
      rfl
    · rw [if_neg (fun h => hr ((ll_first_null _ _ _ hrest).1 h)), hok.htail,
        ll_last_cons _ _ hr]
  · show u64 (ll.len + 2 ^ 64 - 1) = rest.length
    rw [hok.hlen, List.length_cons]
    exact u64_dec _ hbound

theorem ll_pop_front_empty (ll : LL_Generic T) (hok : LL_OK ll []) :
    _ll_pop_front ll = some (false, ll) := by
  unfold _ll_pop_front
  rw [if_pos (by rw [hok.hhead]; rfl)]

theorem ll_remove_mid_ok (ll : LL_Generic T) (pre : List (Nat × T)) (p : Nat) (xp : T)
    (r : Nat) (xr : T) (post : List (Nat × T))
    (hok : LL_OK ll (pre ++ (p, xp) :: (r, xr) :: post)) :
    ∃ ll2, _ll_remove_at ll (pre.length + 1) = some (true, ll2) ∧
      LL_OK ll2 (pre ++ (p, xp) :: post) := by
  have hbound := ll_ok_bound ll _ hok
  have hlen := hok.hlen
  rw [List.length_append, List.length_cons, List.length_cons] at hbound hlen
  have hl := hok.hlinked
  have hwalk := linked_walk ll.mem pre p xp ((r, xr) :: post) 0 hl
  rw [← hok.hhead] at hwalk
  rw [linked_append] at hl
  obtain ⟨hl1, hp0, hplt, hpm, hr0, hrlt, hrm, hpost⟩ := hl
  have hnd := hok.hnodup
  rw [List.map_append, List.nodup_append, List.map_cons, List.map_cons, List.nodup_cons,
    List.nodup_cons] at hnd
  obtain ⟨hnd1, ⟨hp_not, hr_not, hnd3⟩, hdisj⟩ := hnd
  have hpr : p ≠ r := fun h => hp_not (by rw [h]; exact List.mem_cons_self _ _)
  have hpre_p : ∀ b, b ∈ pre.map Prod.fst → b ≠ p :=
    fun b hb h => hdisj hb (by rw [h]; exact List.mem_cons_self _ _)
  have hpre_r : ∀ b, b ∈ pre.map Prod.fst → b ≠ r :=
    fun b hb h => hdisj hb (by rw [h]; exact List.mem_cons_of_mem _ (List.mem_cons_self _ _))
  have hpost_p : ∀ b, b ∈ post.map Prod.fst → b ≠ p :=
    fun b hb h => hp_not (by rw [← h]; exact List.mem_cons_of_mem _ hb)
  have hpost_r : ∀ b, b ∈ post.map Prod.fst → b ≠ r :=
    fun b hb h => hr_not (by rw [← h]; exact hb)
  unfold _ll_remove_at
  rw [if_neg (by omega), if_neg (by omega), Nat.add_sub_cancel, hwalk]
  have hd1 : mem_deref ll.mem p = some { data := xp, next := r } := by
    unfold mem_deref
    rw [if_neg hp0, hpm]
    rfl
  have hd2 : mem_deref ll.mem r = some { data := xr, next := ll_first post 0 } := by
    unfold mem_deref
    rw [if_neg hr0, hrm]
  simp only [hd1, hd2]
  refine ⟨_, rfl, ?_, ?_, ?_, ?_, ?_⟩
  · show LinkedSeg (mem_free (mem_store ll.mem p { data := xp, next := ll_first post 0 }) r)
      (pre ++ (p, xp) :: post) 0
    rw [linked_append]
    refine ⟨linked_congr ll.mem _ pre _ (fun b hb => ?_) hl1, hp0, hplt, ?_,
      linked_congr ll.mem _ post _ (fun b hb => ?_) hpost⟩
    · unfold mem_free mem_store
      rw [if_neg (hpre_r b hb), if_neg (hpre_p b hb)]
    · unfold mem_free mem_store
      rw [if_neg hpr, if_pos rfl]
    · unfold mem_free mem_store
      rw [if_neg (hpost_r b hb), if_neg (hpost_p b hb)]
  · rw [List.map_append, List.nodup_append, List.map_cons, List.nodup_cons]
    exact ⟨hnd1, ⟨fun h => hp_not (List.mem_cons_of_mem _ h), hnd3⟩,
      fun b hb1 hb2 => hdisj hb1 (by
        rw [List.mem_cons] at hb2
        rcases hb2 with h | h
        · rw [h]; exact List.mem_cons_self _ _
        · exact List.mem_cons_of_mem _ (List.mem_cons_of_mem _ h))⟩
  · show ll.head = ll_first (pre ++ (p, xp) :: post) 0
    rw [hok.hhead, ll_first_append, ll_first_append]
    rfl
  · show (if r = ll.tail then p else ll.tail) = ll_last (pre ++ (p, xp) :: post)
    rw [hok.htail]
    by_cases hpost0 : post = []
    · rw [hpost0]
      have h1 : ll_last (pre ++ [(p, xp), (r, xr)]) = r := by
        rw [show pre ++ [(p, xp), (r, xr)] = (pre ++ [(p, xp)]) ++ [(r, xr)] by simp]
        exact ll_last_concat _ _
      rw [h1, if_pos rfl, ll_last_concat]
    · have h1 : ll_last (pre ++ (p, xp) :: (r, xr) :: post) = ll_last post := by
        rw [show pre ++ (p, xp) :: (r, xr) :: post = (pre ++ [(p, xp), (r, xr)]) ++ post by simp]
        exact ll_last_append _ _ hpost0
      have h2 : ll_last (pre ++ (p, xp) :: post) = ll_last post := by
        rw [show pre ++ (p, xp) :: post = (pre ++ [(p, xp)]) ++ post by simp]
        exact ll_last_append _ _ hpost0
      rw [h1, h2, if_neg (fun h => hpost_r _ (ll_last_mem post hpost0) h.symm)]
  · show u64 (ll.len + 2 ^ 64 - 1) = (pre ++ (p, xp) :: post).length
    rw [hlen, List.length_append, List.length_cons]
    unfold u64
    omega

/-- A list with an element at index `i + 1` splits around the elements at `i` and
`i + 1`. -/
theorem split_at_pair {α : Type} (l : List α) (i : Nat) (h : i + 1 < l.length) :
    ∃ pre a b post, l = pre ++ a :: b :: post ∧ pre.length = i := by
  induction l generalizing i with
  | nil => exact absurd h (Nat.not_lt_zero _)
  | cons c rest ih =>
    cases i with
    | zero =>
      cases rest with
      | nil => simp at h
      | cons d rest2 => exact ⟨[], c, d, rest2, rfl, rfl⟩
    | succ j =>
      obtain ⟨pre, a, b, post, h1, h2⟩ := ih j (by simpa using h)
      exact ⟨c :: pre, a, b, post, by rw [h1]; rfl, by rw [List.length_cons, h2]⟩

/-- One call refines the call on the abstract list. -/
theorem ll_step (ll : LL_Generic T) (ns : List (Nat × T)) (hok : LL_OK ll ns) (m : Nat)
    (op : LL_Op T) (hm : op.allocates = true → malloc_fresh ll m = true) :
    ∃ b ll2 ns2, op.run ll m = some (b, ll2) ∧ LL_OK ll2 ns2 ∧
      (b, ns2.map Prod.snd) = op.spec (ns.map Prod.snd) := by
  cases op with
  | push_front x =>
    obtain ⟨ll2, h1, h2⟩ := ll_push_front_ok ll ns hok m x (hm rfl)
    exact ⟨true, ll2, _, h1, h2, rfl⟩
  | push_back x =>
    obtain ⟨ll2, h1, h2⟩ := ll_push_back_ok ll ns hok m x (hm rfl)
    refine ⟨true, ll2, _, h1, h2, ?_⟩
    rw [List.map_append]
    rfl
  | pop_front =>
    cases ns with
    | nil => exact ⟨false, ll, [], ll_pop_front_empty ll hok, hok, rfl⟩
    | cons n rest =>
      obtain ⟨a, x⟩ := n
      obtain ⟨ll2, h1, h2⟩ := ll_pop_front_ok ll a x rest hok
      exact ⟨true, ll2, rest, h1, h2, rfl⟩
  | remove_at i =>
    by_cases hi : i < ns.length
    · cases i with
      | zero =>
        cases ns with
        | nil => exact absurd hi (Nat.lt_irrefl 0)
        | cons n rest =>
          obtain ⟨a, x⟩ := n
          obtain ⟨ll2, h1, h2⟩ := ll_pop_front_ok ll a x rest hok
          refine ⟨true, ll2, rest, ?_, h2, ?_⟩
          · show _ll_remove_at ll 0 = _
            unfold _ll_remove_at
            rw [if_neg (by rw [hok.hlen]; simp), if_pos rfl]
            exact h1
          · show _ = (if 0 < (List.map Prod.snd ((a, x) :: rest)).length then _ else _)
            rw [if_pos (by simp)]
            rfl
      | succ j =>
        obtain ⟨pre, ⟨p, xp⟩, ⟨r, xr⟩, post, hns, hpre⟩ := split_at_pair ns j hi
        subst hns
        obtain ⟨ll2, h1, h2⟩ := ll_remove_mid_ok ll pre p xp r xr post hok
        rw [hpre] at h1
        refine ⟨true, ll2, _, h1, h2, ?_⟩
        show _ = (if j + 1 < ((pre ++ (p, xp) :: (r, xr) :: post).map Prod.snd).length
          then _ else _)
        rw [if_pos (by rw [List.length_map]; exact hi)]
        simp only [List.map_append, List.map_cons]
        rw [← hpre, ← List.length_map pre Prod.snd, eraseIdx_mid]
    · refine ⟨false, ll, ns, ?_, hok, ?_⟩
      · show _ll_remove_at ll i = _
        unfold _ll_remove_at
        rw [if_pos (by rw [hok.hlen]; omega)]
      · show _ = (if i < (ns.map Prod.snd).length then _ else _)
        rw [if_neg (by rw [List.length_map]; exact hi)]

end LLOps2

section LLRuns
variable {T : Type}

theorem ll_init_ok (ll0 : LL_Generic T) : LL_OK (_ll_init ll0) [] :=
  ⟨trivial, List.nodup_nil, rfl, rfl, rfl⟩

/-- A run whose allocations succeed refines the run on the abstract list. -/
theorem ll_run_refines (ops : List (Nat × LL_Op T)) (ll : LL_Generic T) (ns : List (Nat × T))
    (hok : LL_OK ll ns) (hm : ll_malloc_ok ll ops = true) :
    ∃ rs ll2 ns2, ll_run_ops ll ops = some (rs, ll2) ∧ LL_OK ll2 ns2 ∧
      (rs, ns2.map Prod.snd) = ll_spec_ops (ns.map Prod.snd) (ops.map Prod.snd) := by
  induction ops generalizing ll ns with
  | nil => exact ⟨[], ll, ns, rfl, hok, rfl⟩
  | cons o rest ih =>
    obtain ⟨m, op⟩ := o
    unfold ll_malloc_ok at hm
    rw [Bool.and_eq_true] at hm
    obtain ⟨hm1, hm2⟩ := hm
    have hfresh : op.allocates = true → malloc_fresh ll m = true := by
      intro ha
      rw [ha] at hm1
      simpa using hm1
    obtain ⟨b, ll1, ns1, hrun, hok1, hspec⟩ := ll_step ll ns hok m op hfresh
    rw [hrun] at hm2
    obtain ⟨rs, ll2, ns2, hrun2, hok2, hspec2⟩ := ih ll1 ns1 hok1 hm2
    refine ⟨b :: rs, ll2, ns2, ?_, hok2, ?_⟩
    · unfold ll_run_ops
      rw [hrun]
      simp only
      rw [hrun2]
    · rw [List.map_cons]
      unfold ll_spec_ops
      rw [← hspec]
      simp only
      rw [← hspec2]

/-- What the representation invariant says about the last node. -/
theorem ll_ok_last (ll : LL_Generic T) (ns : List (Nat × T)) (hok : LL_OK ll ns)
    (hne : ns.map Prod.snd ≠ []) :
    ∃ nd, mem_deref ll.mem ll.tail = some nd ∧ nd.next = 0 ∧
      _ll_get ll (ll.len - 1) = some ll.tail ∧
      (ns.map Prod.snd).getLast? = some nd.data := by
  have hns : ns ≠ [] := fun h => hne (by rw [h]; rfl)
  obtain ⟨pre, ⟨p, xp⟩, hp⟩ := ll_concat_cases ns hns
  have htail : ll.tail = p := by rw [hok.htail, hp, ll_last_concat]
  have hl := hok.hlinked
  rw [hp] at hl
  have hwalk := linked_walk ll.mem pre p xp [] 0 hl
  rw [← hp, ← hok.hhead] at hwalk
  rw [linked_append] at hl
  obtain ⟨_, hp0, _, hpm, _⟩ := hl
  have hlen : ll.len = pre.length + 1 := by
    rw [hok.hlen, hp, List.length_append, List.length_singleton]
  refine ⟨{ data := xp, next := 0 }, ?_, rfl, ?_, ?_⟩
  · unfold mem_deref
    rw [htail, if_neg hp0, hpm]
    rfl
  · unfold _ll_get
    rw [if_neg (by omega), hlen, Nat.add_sub_cancel, hwalk, htail]
  · rw [hp, List.map_append]
    simp

theorem ll_ok_tail_null (ll : LL_Generic T) (ns : List (Nat × T)) (hok : LL_OK ll ns) :
    ll.tail = 0 ↔ ns.map Prod.snd = [] := by
  rw [hok.htail, ll_last_null _ _ _ hok.hlinked, List.map_eq_nil_iff]

theorem eraseIdx_map {α β : Type} (f : α → β) (l : List α) (i : Nat) :
    (l.eraseIdx i).map f = (l.map f).eraseIdx i := by
  induction l generalizing i with
  | nil => rfl
  | cons a rest ih =>
    cases i with
    | zero => rfl
    | succ j =>
      show f a :: (rest.eraseIdx j).map f = f a :: (rest.map f).eraseIdx j
      rw [ih]

/-- The marks do not change what a call does to the items. -/
theorem spec_tag (t : Nat) (op : LL_Op T) (tl : List (T × Option Nat)) :
    ((op.tag t).spec tl).1 = (op.spec (tl.map Prod.fst)).1 ∧
    ((op.tag t).spec tl).2.map Prod.fst = (op.spec (tl.map Prod.fst)).2 := by
  cases op with
  | push_front x => exact ⟨rfl, rfl⟩
  | push_back x =>
    refine ⟨rfl, ?_⟩
    show (tl ++ [(x, some t)]).map Prod.fst = tl.map Prod.fst ++ [x]
    rw [List.map_append]
    rfl
  | pop_front =>
    cases tl with
    | nil => exact ⟨rfl, rfl⟩
    | cons a rest => exact ⟨rfl, rfl⟩
  | remove_at i =>
    show (if i < tl.length then (true, tl.eraseIdx i) else (false, tl)).1 =
        (if i < (tl.map Prod.fst).length then (true, (tl.map Prod.fst).eraseIdx i)
          else (false, tl.map Prod.fst)).1 ∧
      (if i < tl.length then (true, tl.eraseIdx i) else (false, tl)).2.map Prod.fst =
        (if i < (tl.map Prod.fst).length then (true, (tl.map Prod.fst).eraseIdx i)
          else (false, tl.map Prod.fst)).2
    rw [List.length_map]
    by_cases hi : i < tl.length
    · rw [if_pos hi, if_pos hi]
      exact ⟨rfl, eraseIdx_map _ _ _⟩
    · rw [if_neg hi, if_neg hi]
      exact ⟨rfl, rfl⟩

theorem spec_ops_tag (ops : List (LL_Op T)) (t : Nat) (tl : List (T × Option Nat)) :
    (ll_spec_ops tl (ll_tag_ops t ops)).2.map Prod.fst =
      (ll_spec_ops (tl.map Prod.fst) ops).2 := by
  induction ops generalizing t tl with
  | nil => rfl
  | cons op rest ih =>
    show (ll_spec_ops ((op.tag t).spec tl).2 (ll_tag_ops (t + 1) rest)).2.map Prod.fst =
      (ll_spec_ops (op.spec (tl.map Prod.fst)).2 rest).2
    rw [ih, (spec_tag t op tl).2]

/-- The order of the marks is kept by every call. -/
theorem spec_tag_order (t : Nat) (op : LL_Op T) (tl : List (T × Option Nat))
    (hp : tl.Pairwise stamp_before) (hb : ∀ e, e ∈ tl → ∀ s, e.2 = some s → s < t) :
    ((op.tag t).spec tl).2.Pairwise stamp_before ∧
    ∀ e, e ∈ ((op.tag t).spec tl).2 → ∀ s, e.2 = some s → s < t + 1 := by
  have hsub : ∀ l2 : List (T × Option Nat), l2.Sublist tl →
      l2.Pairwise stamp_before ∧ ∀ e, e ∈ l2 → ∀ s, e.2 = some s → s < t + 1 :=
    fun l2 h => ⟨hp.sublist h, fun e he s hs => Nat.lt_succ_of_lt (hb e (h.subset he) s hs)⟩
  cases op with
  | push_front x =>
    show ((x, none) :: tl).Pairwise stamp_before ∧
      ∀ e, e ∈ (x, none) :: tl → ∀ s, e.2 = some s → s < t + 1
    constructor
    · rw [List.pairwise_cons]
      exact ⟨fun b _ => ⟨fun _ => rfl, fun s t hs _ => by simp at hs⟩, hp⟩
    · intro e he s hs
      rw [List.mem_cons] at he
      rcases he with he | he
      · rw [he] at hs
        simp at hs
      · exact Nat.lt_succ_of_lt (hb e he s hs)
  | push_back x =>
    show (tl ++ [(x, some t)]).Pairwise stamp_before ∧
      ∀ e, e ∈ tl ++ [(x, some t)] → ∀ s, e.2 = some s → s < t + 1
    constructor
    · rw [List.pairwise_append]
      refine ⟨hp, List.pairwise_singleton _ _, ?_⟩
      intro a ha b hb2
      rw [List.mem_singleton] at hb2
      rw [hb2]
      refine ⟨fun h => by simp at h, fun s t2 hs ht => ?_⟩
      have : t2 = t := by simpa using ht.symm
      rw [this]
      exact hb a ha s hs
    · intro e he s hs
      rw [List.mem_append, List.mem_singleton] at he
      rcases he with he | he
      · exact Nat.lt_succ_of_lt (hb e he s hs)
      · rw [he] at hs
        have : s = t := by simpa using hs.symm
        rw [this]
        exact Nat.lt_succ_self t
  | pop_front =>
    cases tl with
    | nil => exact hsub [] (List.Sublist.refl _)
    | cons a rest => exact hsub rest (List.sublist_cons_self a rest)
  | remove_at i =>
    show (if i < tl.length then (true, tl.eraseIdx i) else (false, tl)).2.Pairwise stamp_before ∧
      ∀ e, e ∈ (if i < tl.length then (true, tl.eraseIdx i) else (false, tl)).2 →
        ∀ s, e.2 = some s → s < t + 1
    by_cases hi : i < tl.length
    · rw [if_pos hi]
      exact hsub _ (List.eraseIdx_sublist tl i)
    · rw [if_neg hi]
      exact hsub _ (List.Sublist.refl _)

theorem spec_ops_order (ops : List (LL_Op T)) (t : Nat) (tl : List (T × Option Nat))
    (hp : tl.Pairwise stamp_before) (hb : ∀ e, e ∈ tl → ∀ s, e.2 = some s → s < t) :
    (ll_spec_ops tl (ll_tag_ops t ops)).2.Pairwise stamp_before := by
  induction ops generalizing t tl with
  | nil => exact hp
  | cons op rest ih =>
    obtain ⟨h1, h2⟩ := spec_tag_order t op tl hp hb
    exact ih (t + 1) _ h1 h2

/-- In a marked list in order, the last item is the appended item of the latest call
among the appended items of the list. -/
theorem order_last (tl : List (T × Option Nat)) (hp : tl.Pairwise stamp_before) (y : T)
    (s : Nat) (hy : (y, some s) ∈ tl) :
    ∃ x t, tl.getLast? = some (x, some t) ∧ s ≤ t := by
  have hne : tl ≠ [] := List.ne_nil_of_mem hy
  have hsplit := (List.dropLast_append_getLast hne).symm
  generalize tl.dropLast = pre at hsplit
  generalize tl.getLast hne = e at hsplit
  obtain ⟨x, ot⟩ := e
  rw [hsplit] at hy hp ⊢
  rw [List.getLast?_concat]
  rw [List.mem_append, List.mem_singleton] at hy
  rcases hy with hy | hy
  · rw [List.pairwise_append] at hp
    obtain ⟨h1, h2⟩ := hp.2.2 _ hy (x, ot) (List.mem_singleton_self _)
    cases ot with
    | none => exact absurd (h1 rfl) (by simp)
    | some t => exact ⟨x, t, rfl, Nat.le_of_lt (h2 s t rfl rfl)⟩
  · have h1 : y = x := congrArg Prod.fst hy
    have h2 : some s = ot := congrArg Prod.snd hy
    rw [← h2]
    exact ⟨x, s, rfl, Nat.le_refl s⟩

end LLRuns

section Claims7
variable {T : Type}

/-- C20. The linked list refines a plain sequence. For every sequence of `_ll_push_front`,
`_ll_push_back`, `_ll_pop_front` and `_ll_remove_at` calls after `_ll_init` whose
allocations succeed, the calls are defined and return what the same operations return on
the abstract list (prepend, append, drop the first, delete the element at the index;
`false` and no change for a pop of the empty list and an index out of range); the items
met on the walk from `head` are the abstract list, `len` is its length, `tail` is `NULL`
exactly when it is empty, and otherwise `tail` is the node `_ll_get(len - 1)`, its `next`
is `NULL` and its item is the last element of the abstract list; and when an appended item
survives, this item is the appended item of the latest call among the surviving ones. -/
theorem C20_linked_list_refines_sequence (ll0 : LL_Generic T) (ops : List (Nat × LL_Op T))
    (hm : ll_malloc_ok (_ll_init ll0) ops = true) :
    ∃ rs ll, ll_run_ops (_ll_init ll0) ops = some (rs, ll) ∧
      rs = (ll_spec_ops [] (ops.map Prod.snd)).1 ∧
      (∀ fuel, ll.len < fuel →
        ll_foreach ll.mem fuel ll.head = some (ll_spec_ops [] (ops.map Prod.snd)).2) ∧
      ll.len = (ll_spec_ops [] (ops.map Prod.snd)).2.length ∧
      (ll.tail = 0 ↔ (ll_spec_ops [] (ops.map Prod.snd)).2 = []) ∧
      ((ll_spec_ops [] (ops.map Prod.snd)).2 ≠ [] →
        ∃ nd, mem_deref ll.mem ll.tail = some nd ∧ nd.next = 0 ∧
          _ll_get ll (ll.len - 1) = some ll.tail ∧
          (ll_spec_ops [] (ops.map Prod.snd)).2.getLast? = some nd.data) ∧
      (∀ y s, (y, some s) ∈ (ll_spec_ops [] (ll_tag_ops 0 (ops.map Prod.snd))).2 →
        ∃ nd t, _ll_get ll (ll.len - 1) = some ll.tail ∧
          mem_deref ll.mem ll.tail = some nd ∧
          (ll_spec_ops [] (ll_tag_ops 0 (ops.map Prod.snd))).2.getLast? =
            some (nd.data, some t) ∧ s ≤ t) := by
  obtain ⟨rs, ll, ns, hrun, hok, hspec⟩ := ll_run_refines ops (_ll_init ll0) [] (ll_init_ok ll0) hm
  have h1 : rs = (ll_spec_ops [] (ops.map Prod.snd)).1 := congrArg Prod.fst hspec
  have h2 : ns.map Prod.snd = (ll_spec_ops [] (ops.map Prod.snd)).2 := congrArg Prod.snd hspec
  rw [← h2]
  refine ⟨rs, ll, hrun, h1, ?_, ?_, ll_ok_tail_null ll ns hok, ll_ok_last ll ns hok, ?_⟩
  · intro fuel hf
    rw [hok.hhead]
    exact linked_foreach ll.mem ns hok.hlinked fuel (by rw [← hok.hlen]; exact hf)
  · rw [hok.hlen, List.length_map]
  · intro y s hy
    have hord := spec_ops_order (ops.map Prod.snd) 0 ([] : List (T × Option Nat))
      List.Pairwise.nil (fun e he => absurd he (List.not_mem_nil e))
    obtain ⟨x, t, hlast, hst⟩ := order_last _ hord y s hy
    have hmap := spec_ops_tag (ops.map Prod.snd) 0 ([] : List (T × Option Nat))
    rw [List.map_nil, ← h2] at hmap
    have hne : ns.map Prod.snd ≠ [] := by
      rw [← hmap]
      intro h
      rw [List.map_eq_nil_iff] at h
      rw [h] at hy
      exact List.not_mem_nil _ hy
    obtain ⟨nd, hd1, _, hd3, hd4⟩ := ll_ok_last ll ns hok hne
    refine ⟨nd, t, hd3, hd1, ?_, hst⟩
    rw [hlast]
    have : (List.map Prod.fst (ll_spec_ops [] (ll_tag_ops 0 (ops.map Prod.snd))).2).getLast? =
        some x := by
      rw [List.getLast?_map, hlast]
      rfl
    rw [hmap, hd4] at this
    have hx : nd.data = x := by simpa using this
    rw [hx]

theorem C20_linked_list_refines_sequence_witness :
    ll_malloc_ok (_ll_init ex_ll) ex_ll_ops = true ∧
    ∃ rs ll, ll_run_ops (_ll_init ex_ll) ex_ll_ops = some (rs, ll) ∧
      rs = (ll_spec_ops [] (ex_ll_ops.map Prod.snd)).1 ∧
      (∀ fuel, ll.len < fuel →
        ll_foreach ll.mem fuel ll.head = some (ll_spec_ops [] (ex_ll_ops.map Prod.snd)).2) ∧
      ll.len = (ll_spec_ops [] (ex_ll_ops.map Prod.snd)).2.length :=
  ⟨by decide,
    (C20_linked_list_refines_sequence ex_ll ex_ll_ops (by decide)).imp
      (fun _ h => h.imp (fun _ h2 => ⟨h2.1, h2.2.1, h2.2.2.1, h2.2.2.2.1⟩))⟩

end Claims7

section Claims8
variable {K V : Type} [Inhabited K] [Inhabited V]

/-- The exact result of a scan that meets no equal key before it stops: `stop` is the
position of the first `Empty` slot, or the end of the scan. -/
theorem probe_loop_miss (equal_fn : K → K → Bool) (d : List (HM_Entry K V)) (p h : Nat)
    (key : K) (hp : 2 ^ p ≤ UINT64_MAX) :
    ∀ (n m ft stop : Nat), m ≤ stop → stop ≤ m + n →
      (∀ j, m ≤ j → j < stop → (slot d ((h + j) % 2 ^ p)).state ≠ HM_EMPTY) →
      (stop < m + n → (slot d ((h + stop) % 2 ^ p)).state = HM_EMPTY) →
      (∀ j, m ≤ j → j < stop → (slot d ((h + j) % 2 ^ p)).state = HM_FILLED →
        equal_fn (slot d ((h + j) % 2 ^ p)).key key = false) →
      (hm_probe_loop equal_fn d (2 ^ p - 1) key n ((h + m) % 2 ^ p) ft).2 = false ∧
      (ft ≠ UINT64_MAX →
        (hm_probe_loop equal_fn d (2 ^ p - 1) key n ((h + m) % 2 ^ p) ft).1 = ft) ∧
      (ft = UINT64_MAX → ∀ t, m ≤ t → t < stop →
        (slot d ((h + t) % 2 ^ p)).state = HM_TOMBSTONE →
        (∀ j, m ≤ j → j < t → (slot d ((h + j) % 2 ^ p)).state ≠ HM_TOMBSTONE) →
        (hm_probe_loop equal_fn d (2 ^ p - 1) key n ((h + m) % 2 ^ p) ft).1 =
          (h + t) % 2 ^ p) ∧
      (ft = UINT64_MAX →
        (∀ j, m ≤ j → j < stop → (slot d ((h + j) % 2 ^ p)).state ≠ HM_TOMBSTONE) →
        (stop < m + n →
          (hm_probe_loop equal_fn d (2 ^ p - 1) key n ((h + m) % 2 ^ p) ft).1 =
            (h + stop) % 2 ^ p) ∧
        (stop = m + n →
          (hm_probe_loop equal_fn d (2 ^ p - 1) key n ((h + m) % 2 ^ p) ft).1 =
            UINT64_MAX)) := by
  have hlt : ∀ x, x % 2 ^ p ≠ UINT64_MAX := fun x => by
    have := Nat.mod_lt x (Nat.pos_pow_of_pos p (by decide : 0 < 2)); omega
  intro n
  induction n with
  | zero =>
    intro m ft stop h1 h2 _ _ _
    have hs : stop = m := by omega
    subst hs
    refine ⟨rfl, fun _ => rfl, fun _ t ht1 ht2 => by omega, fun hft _ => ⟨fun h => by omega,
      fun _ => hft⟩⟩
  | succ n ih =>
    intro m ft stop h1 h2 hne hstop hkey
    unfold hm_probe_loop
    rw [probe_next]
    by_cases hsm : stop = m
    · subst hsm
      have hE := hstop (by omega)
      rw [if_pos hE]
      refine ⟨rfl, fun hft => by rw [if_pos hft], fun _ t ht1 ht2 => by omega,
        fun hft _ => ⟨fun _ => by rw [if_neg (not_not.mpr hft)], fun h => by omega⟩⟩
    · have hE : (slot d ((h + m) % 2 ^ p)).state ≠ HM_EMPTY := hne m (Nat.le_refl _) (by omega)
      rw [if_neg hE]
      by_cases hT : (slot d ((h + m) % 2 ^ p)).state = HM_TOMBSTONE
      · rw [if_pos hT]
        have hft2 : (if ft = UINT64_MAX then (h + m) % 2 ^ p else ft) ≠ UINT64_MAX := by
          by_cases hft : ft = UINT64_MAX
          · rw [if_pos hft]; exact hlt _
          · rw [if_neg hft]; exact hft
        obtain ⟨i1, i2, _, _⟩ := ih (m + 1) (if ft = UINT64_MAX then (h + m) % 2 ^ p else ft)
          stop (by omega) (by omega) (fun j hj1 hj2 => hne j (by omega) hj2)
          (fun hs => hstop (by omega)) (fun j hj1 hj2 => hkey j (by omega) hj2)
        refine ⟨i1, fun hft => ?_, fun hft t ht1 ht2 htT hfirst => ?_, fun hft hno => ?_⟩
        · rw [i2 hft2, if_neg hft]
        · rw [i2 hft2, if_pos hft]
          have : t = m := by
            by_contra hne2
            exact hfirst m (Nat.le_refl _) (by omega) hT
          rw [this]
        · exact absurd hT (hno m (Nat.le_refl _) (by omega))
      · rw [if_neg hT]
        have hF := state_cases _ hE hT
        have hk := hkey m (Nat.le_refl _) (by omega) hF
        rw [if_neg (by rw [hk]; exact Bool.false_ne_true)]
        obtain ⟨i1, i2, i3, i4⟩ := ih (m + 1) ft stop (by omega) (by omega)
          (fun j hj1 hj2 => hne j (by omega) hj2)
          (fun hs => hstop (by omega)) (fun j hj1 hj2 => hkey j (by omega) hj2)
        refine ⟨i1, i2, fun hft t ht1 ht2 htT hfirst => ?_, fun hft hno => ?_⟩
        · have htm : t ≠ m := by
            intro h0
            rw [h0] at htT
            exact hT htT
          exact i3 hft t (by omega) ht2 htT (fun j hj1 hj2 => hfirst j (by omega) hj2)
        · obtain ⟨a, b⟩ := i4 hft (fun j hj1 hj2 => hno j (by omega) hj2)
          exact ⟨fun hs => a (by omega), fun hs => b (by omega)⟩

/-- C21. The not-found result of `hm_probe`. For every table with a store and a capacity
that is a power of two, every hash and key: let the scan visit the slots
`(hash + j) % cap` for `j < stop`, where `stop ≤ cap` is the position of the first
`Empty` slot, or `cap` when there is none. If no `Filled` slot of the scan holds an equal
key, then `hm_probe` reports `found = false` and returns the first `Tombstone` slot of
the scan if there is one, otherwise the first `Empty` slot, otherwise (`stop = cap`)
the sentinel `UINT64_MAX`; an index other than the sentinel is never a `Filled` slot. -/
theorem C21_probe_not_found (hm : HM K V) (d : List (HM_Entry K V)) (p hash : Nat) (key : K)
    (stop : Nat) (hd : hm.data = some d) (hc : hm.cap = 2 ^ p) (hp : p ≤ 63)
    (hstop : stop ≤ hm.cap)
    (hne : ∀ j, j < stop → (slot d ((hash + j) % hm.cap)).state ≠ HM_EMPTY)
    (hfirst : stop < hm.cap → (slot d ((hash + stop) % hm.cap)).state = HM_EMPTY)
    (hkey : ∀ j, j < stop → (slot d ((hash + j) % hm.cap)).state = HM_FILLED →
      hm.equal_fn (slot d ((hash + j) % hm.cap)).key key = false) :
    (hm_probe hm hash key).2 = false ∧
    (∀ t, t < stop → (slot d ((hash + t) % hm.cap)).state = HM_TOMBSTONE →
      (∀ j, j < t → (slot d ((hash + j) % hm.cap)).state ≠ HM_TOMBSTONE) →
      (hm_probe hm hash key).1 = (hash + t) % hm.cap) ∧
    ((∀ j, j < stop → (slot d ((hash + j) % hm.cap)).state ≠ HM_TOMBSTONE) →
      (stop < hm.cap → (hm_probe hm hash key).1 = (hash + stop) % hm.cap) ∧
      (stop = hm.cap → (hm_probe hm hash key).1 = UINT64_MAX)) ∧
    ((hm_probe hm hash key).1 ≠ UINT64_MAX →
      (hm_probe hm hash key).1 < hm.cap ∧
      (slot d (hm_probe hm hash key).1).state ≠ HM_FILLED) := by
  have hmax : 2 ^ p ≤ UINT64_MAX := by
    have : 2 ^ p ≤ 2 ^ 63 := Nat.pow_le_pow_right (by decide) hp
    unfold UINT64_MAX
    omega
  have hpos : 0 < 2 ^ p := Nat.pos_pow_of_pos p (by decide)
  rw [hc] at hstop hne hfirst hkey
  rw [probe_eq hm d p hash key hd hc, hc]
  obtain ⟨m1, _, m3, m4⟩ := probe_loop_miss hm.equal_fn d p hash key hmax (2 ^ p) 0 UINT64_MAX
    stop (Nat.zero_le _) (by omega) (fun j _ hj => hne j hj) (fun h => hfirst (by omega))
    (fun j _ hj => hkey j hj)
  refine ⟨m1, fun t ht hT hft => m3 rfl t (Nat.zero_le _) ht hT (fun j _ hj => hft j hj),
    fun hno => ?_, fun hr => ?_⟩
  · obtain ⟨a, b⟩ := m4 rfl (fun j _ hj => hno j hj)
    exact ⟨fun h => a (by omega), fun h => b (by omega)⟩
  · have hres : hm_probe_loop hm.equal_fn d (2 ^ p - 1) key (2 ^ p) ((hash + 0) % 2 ^ p)
        UINT64_MAX =
        ((hm_probe_loop hm.equal_fn d (2 ^ p - 1) key (2 ^ p) ((hash + 0) % 2 ^ p)
          UINT64_MAX).1, false) := Prod.ext rfl m1
    rcases probe_loop_slot hm.equal_fn d p hash key hmax (2 ^ p) 0 UINT64_MAX _
      (fun j hj => by omega) (Or.inl ⟨rfl, fun j hj => by omega⟩) hres with
      ⟨h1, _⟩ | ⟨t, _, h1, h2, _⟩
    · exact absurd h1 hr
    · refine ⟨?_, h2⟩
      rw [h1]
      exact Nat.mod_lt _ hpos

theorem C21_probe_not_found_witness :
    (ex_table.data = some (ex_table.data.getD []) ∧ ex_table.cap = 2 ^ 3 ∧ 3 ≤ 63 ∧
      3 ≤ ex_table.cap ∧
      (∀ j, j < 3 → (slot (ex_table.data.getD []) ((1 + j) % ex_table.cap)).state ≠ HM_EMPTY) ∧
      (3 < ex_table.cap →
        (slot (ex_table.data.getD []) ((1 + 3) % ex_table.cap)).state = HM_EMPTY) ∧
      (∀ j, j < 3 →
        (slot (ex_table.data.getD []) ((1 + j) % ex_table.cap)).state = HM_FILLED →
        ex_table.equal_fn (slot (ex_table.data.getD []) ((1 + j) % ex_table.cap)).key 13 =
          false)) ∧
    (hm_probe ex_table 1 13).2 = false ∧
    (∀ t, t < 3 → (slot (ex_table.data.getD []) ((1 + t) % ex_table.cap)).state = HM_TOMBSTONE →
      (∀ j, j < t →
        (slot (ex_table.data.getD []) ((1 + j) % ex_table.cap)).state ≠ HM_TOMBSTONE) →
      (hm_probe ex_table 1 13).1 = (1 + t) % ex_table.cap) :=
  ⟨⟨by decide, by decide, by decide, by decide, by decide, by decide, by decide⟩,
    (C21_probe_not_found ex_table (ex_table.data.getD []) 3 1 13 3 (by decide) (by decide)
      (by decide) (by decide) (by decide) (by decide) (by decide)).1,
    (C21_probe_not_found ex_table (ex_table.data.getD []) 3 1 13 3 (by decide) (by decide)
      (by decide) (by decide) (by decide) (by decide) (by decide)).2.1⟩

end Claims8

section Claims9
variable {K V : Type} [Inhabited K] [Inhabited V]


/-- The migration loop writes `Filled` slots only: a store without `Tombstone` slots
stays without. -/
theorem rehash_no_tombstone (old : List (HM_Entry K V)) (hm1 : HM K V)
    (h0 : ∀ d1, hm1.data = some d1 → ∀ i, (slot d1 i).state ≠ HM_TOMBSTONE) :
    ∀ n dn, (rehash_upto old hm1 n).data = some dn →
      ∀ i, (slot dn i).state ≠ HM_TOMBSTONE := by
  intro n
  induction n with
  | zero => exact h0
  | succ n ih =>
    intro dn hdn i
    rw [rehash_upto_succ] at hdn
    unfold hm_rehash_step at hdn
    by_cases hF : (slot old n).state = HM_FILLED
    · rw [if_neg (not_not.mpr hF)] at hdn
      simp only [Option.map_eq_some'] at hdn
      obtain ⟨d, hd, hset⟩ := hdn
      rw [← hset]
      rcases slot_set_cases d
        (hm_probe (rehash_upto old hm1 n) (u64 ((rehash_upto old hm1 n).hash_fn (slot old n).key))
          (slot old n).key).1 i { slot old n with state := HM_FILLED } with ⟨_, _, h1⟩ | h1
      · rw [h1]
        simp
      · rw [h1]
        exact ih d hd i
    · rw [if_pos hF] at hdn
      exact ih dn hdn i

/-- C22. Rehash compacts. For every reachable table and every `_hm_reserve` call that
reallocates (the request exceeds the capacity and the call returns `true`), the new
store has no `Tombstone` slot, its number of `Filled` slots and the recomputed length
both equal the length before the call, and every slot that is not `Filled` is
`Empty`. -/
theorem C22_rehash_compacts (es : Nat) (hf : K → Nat) (ef : K → K → Bool) (hm hm1 : HM K V)
    (hes : 3 ≤ es) (fn : FnOK hf ef) (hr : Reachable es hf ef hm) (alloc : Bool) (n : Nat)
    (hgt : hm.cap < n) (h : _hm_reserve es alloc hm n = some (true, hm1)) :
    ∃ d1, hm1.data = some d1 ∧ d1.length = hm1.cap ∧
      (∀ i, (slot d1 i).state ≠ HM_TOMBSTONE) ∧
      filled_upto d1 hm1.cap = hm.len ∧ hm1.len = hm.len ∧
      ∀ i, (slot d1 i).state ≠ HM_FILLED → (slot d1 i).state = HM_EMPTY := by
  have hinv := reachable_inv es hf ef hm hes fn hr
  obtain ⟨hinv1, _, hlen, _, _, _⟩ := reserve_inv es alloc hm hm1 n true hes hinv h
  rcases reserve_cases es alloc hm hm1 n true h with ⟨_, h2⟩ | ⟨_, _, _, c, _, _, _, hm'⟩
  · have := h2.mp rfl
    omega
  · rcases hinv1.weak with ⟨hnone, _, _⟩ | ⟨d1, hs⟩
    · exfalso
      rcases reserve_weak es alloc hm hm1 n true hes hinv.weak h with ⟨_, h2⟩ | ⟨_, _, _, _, _, _, d, hs⟩
      · have := h2.mp rfl
        omega
      · have := hs.hdata
        rw [hnone] at this
        simp at this
    · have hnt : ∀ i, (slot d1 i).state ≠ HM_TOMBSTONE := by
        have hd1 := hs.hdata
        rw [hm'] at hd1
        refine rehash_no_tombstone (hm.data.getD [])
          { hm with data := some (List.replicate c zero_entry), cap := c, len := 0 } ?_ hm.cap d1 hd1
        intro d0 hd0 i
        simp only [Option.some.injEq] at hd0
        rw [← hd0, slot_replicate]
        simp [zero_entry]
      refine ⟨d1, hs.hdata, hs.hlen, hnt, ?_, hlen, fun i hF => ?_⟩
      · rw [← hinv1.hcount d1 hs.hdata, hlen]
      · cases hst : (slot d1 i).state with
        | HM_EMPTY => rfl
        | HM_FILLED => exact absurd hst hF
        | HM_TOMBSTONE => exact absurd hst (hnt i)

theorem C22_rehash_compacts_witness :
    (3 ≤ 24 ∧ FnOK ex_hash ex_equal ∧ Reachable 24 ex_hash ex_equal ex_table ∧
      ex_table.cap < 9 ∧ _hm_reserve 24 true ex_table 9 = some (true, ex_grown)) ∧
    ∃ d1, ex_grown.data = some d1 ∧ d1.length = ex_grown.cap ∧
      (∀ i, (slot d1 i).state ≠ HM_TOMBSTONE) ∧
      filled_upto d1 ex_grown.cap = ex_table.len ∧ ex_grown.len = ex_table.len ∧
      ∀ i, (slot d1 i).state ≠ HM_FILLED → (slot d1 i).state = HM_EMPTY :=
  have hrun : _hm_reserve 24 true ex_table 9 = some (true, ex_grown) :=
    (some_getD_of_isSome _ (false, ex_blank) (by decide)).trans
      (congrArg some (Prod.ext (by decide) rfl))
  ⟨⟨by decide, ex_fnok, ex_table_reachable, by decide, hrun⟩,
    C22_rehash_compacts 24 ex_hash ex_equal ex_table ex_grown (by decide) ex_fnok
      ex_table_reachable true 9 (by decide) hrun⟩

end Claims9

section Claims10
variable {K V : Type} [Inhabited K] [Inhabited V]


/-- C23. The probe-chain invariant. In every reachable table, for every `Filled` slot `i`
holding key `k`, slot `i` lies on the cyclic walk from `hash_fn(k) & (cap - 1)` and no
slot of the walk up to and including `i` is `Empty`; `hm_probe` for `k` started at this
home index stops at slot `i` with `found = true`, and `hm_get(k)` returns the value of
slot `i`. -/
theorem C23_probe_chain (es : Nat) (hf : K → Nat) (ef : K → K → Bool) (hm : HM K V)
    (hes : 3 ≤ es) (fn : FnOK hf ef) (hr : Reachable es hf ef hm) (d : List (HM_Entry K V))
    (i : Nat) (hd : hm.data = some d) (hF : (slot d i).state = HM_FILLED) :
    (∃ t, t < hm.cap ∧ i = (hf (slot d i).key + t) % hm.cap ∧
      ∀ j, j ≤ t → (slot d ((hf (slot d i).key + j) % hm.cap)).state ≠ HM_EMPTY) ∧
    hm_probe hm (u64 (hf (slot d i).key)) (slot d i).key = (i, true) ∧
    hm_get hm (slot d i).key = some (slot d i).value := by
  have hinv := reachable_inv es hf ef hm hes fn hr
  obtain ⟨_, hhf, hef⟩ := reachable_weak es hf ef hm hes hr
  have hs := inv_store hm d hinv hd
  have hrefl : hm.equal_fn (slot d i).key (slot d i).key = true := hinv.fns.refl _
  refine ⟨?_, ?_, ?_⟩
  · obtain ⟨t, ht, hit, hne⟩ := hinv.hchain d hd i hF
    rw [hhf, hs.hlen] at hit hne
    rw [hs.hlen] at ht
    refine ⟨t, ht, hit, fun j hj => ?_⟩
    by_cases hjt : j = t
    · rw [hjt, ← hit, hF]
      simp
    · exact hne j (by omega)
  · rw [← hhf]
    exact probe_hit hm d i _ hinv hd hF hrefl
  · rw [get_iff hm _ _ hinv, live_some hm d _ _ hd]
    exact ⟨i, hF, hrefl, rfl⟩

theorem C23_probe_chain_witness :
    (3 ≤ 24 ∧ FnOK ex_hash ex_equal ∧ Reachable 24 ex_hash ex_equal ex_table ∧
      ex_table.data = some (ex_table.data.getD []) ∧
      (slot (ex_table.data.getD []) 3).state = HM_FILLED) ∧
    ((∃ t, t < ex_table.cap ∧
        3 = (ex_hash (slot (ex_table.data.getD []) 3).key + t) % ex_table.cap ∧
        ∀ j, j ≤ t → (slot (ex_table.data.getD [])
          ((ex_hash (slot (ex_table.data.getD []) 3).key + j) % ex_table.cap)).state ≠
            HM_EMPTY) ∧
      hm_probe ex_table (u64 (ex_hash (slot (ex_table.data.getD []) 3).key))
        (slot (ex_table.data.getD []) 3).key = (3, true) ∧
      hm_get ex_table (slot (ex_table.data.getD []) 3).key =
        some (slot (ex_table.data.getD []) 3).value) :=
  ⟨⟨by decide, ex_fnok, ex_table_reachable, by decide, by decide⟩,
    C23_probe_chain 24 ex_hash ex_equal ex_table (by decide) ex_fnok ex_table_reachable
      (ex_table.data.getD []) 3 (by decide) (by decide)⟩

/-- C24. Inserting or updating a key does not disturb other keys: on every reachable
table, for keys `k`, `k1` that `equal_fn` reports not equal, `hm_get(k1)` after a
successful `hm_put(k, v)` gives the same result (found with the same value, or
not-found) as before the put, whichever slot the put wrote and whether or not it grew
the table first. -/
theorem C24_put_keeps_other_keys (es : Nat) (hf : K → Nat) (ef : K → K → Bool) (hm hm1 : HM K V)
    (hes : 3 ≤ es) (fn : FnOK hf ef) (hr : Reachable es hf ef hm) (alloc : Bool) (k k1 : K)
    (v : V) (hne : ef k k1 = false) (h : hm_put es alloc hm k v = some (true, hm1)) :
    hm_get hm1 k1 = hm_get hm k1 := by
  have hinv := reachable_inv es hf ef hm hes fn hr
  have hef := (reachable_weak es hf ef hm hes hr).2.2
  obtain ⟨hinv1, _, _, _, hpost⟩ := put_inv es alloc hm hm1 k v true hes hinv h
  obtain ⟨hlive, _, _⟩ := hpost rfl
  apply get_congr hm hm1 k1 hinv hinv1
  intro w
  rw [hlive k1 w, hef, hne]
  simp

theorem C24_put_keeps_other_keys_witness :
    (3 ≤ 24 ∧ FnOK ex_hash ex_equal ∧ Reachable 24 ex_hash ex_equal ex_table ∧
      ex_equal 13 9 = false ∧
      hm_put 24 true ex_table 13 130 =
        some (true, ((hm_put 24 true ex_table 13 130).getD (false, ex_blank)).2)) ∧
    hm_get ((hm_put 24 true ex_table 13 130).getD (false, ex_blank)).2 9 = hm_get ex_table 9 :=
  have hrun : hm_put 24 true ex_table 13 130 =
      some (true, ((hm_put 24 true ex_table 13 130).getD (false, ex_blank)).2) :=
    (some_getD_of_isSome _ (false, ex_blank) (by decide)).trans
      (congrArg some (Prod.ext (by decide) rfl))
  ⟨⟨by decide, ex_fnok, ex_table_reachable, by decide, hrun⟩,
    C24_put_keeps_other_keys 24 ex_hash ex_equal ex_table _ (by decide) ex_fnok
      ex_table_reachable true 13 9 130 (by decide) hrun⟩

end Claims10

section Claims11
variable {K V : Type} [Inhabited K] [Inhabited V]

/-- For a request above `2 ^ 63` the rounding loop never ends: `cap` runs through the
powers of two up to `2 ^ 63`, the next shift wraps to 0, and 0 stays below the request. -/
theorem round_diverges (n : Nat) (hn : 2 ^ 63 < n) :
    ∀ (fuel i : Nat), i ≤ 63 → hm_reserve_round fuel (2 ^ i) n = none := by
  intro fuel
  induction fuel with
  | zero => intro i _; rfl
  | succ fuel ih =>
    intro i hi
    have hlt : 2 ^ i < n := Nat.lt_of_le_of_lt (Nat.pow_le_pow_right (by decide) hi) hn
    unfold hm_reserve_round
    rw [if_pos hlt]
    by_cases h63 : i = 63
    · subst h63
      rw [round_shift_top]
      exact round_zero fuel n (by omega)
    · rw [round_shift i (by omega)]
      exact ih (i + 1) (by omega)

/-- The value the rounding loop ends with is the least power of two that is not below
the request. -/
theorem round_least (n : Nat) (hn : 0 < n) :
    ∀ (fuel i c : Nat), i ≤ 63 → (i = 0 ∨ 2 ^ (i - 1) < n) →
      hm_reserve_round fuel (2 ^ i) n = some c →
      ∃ p, c = 2 ^ p ∧ n ≤ c ∧ (p = 0 ∨ 2 ^ (p - 1) < n) := by
  intro fuel
  induction fuel with
  | zero => intro i c _ _ h; simp [hm_reserve_round] at h
  | succ fuel ih =>
    intro i c hi hprev h
    unfold hm_reserve_round at h
    by_cases hlt : 2 ^ i < n
    · rw [if_pos hlt] at h
      by_cases h63 : i = 63
      · subst h63
        rw [round_shift_top, round_zero fuel n hn] at h
        simp at h
      · rw [round_shift i (by omega)] at h
        exact ih (i + 1) c (by omega) (Or.inr (by rw [Nat.add_sub_cancel]; exact hlt)) h
    · rw [if_neg hlt] at h
      injection h with h
      exact ⟨i, h.symm, by omega, hprev⟩

theorem probe_loop_count_le (equal_fn : K → K → Bool) (d : List (HM_Entry K V)) (mask : Nat)
    (key : K) : ∀ n idx, hm_probe_loop_count equal_fn d mask key n idx ≤ n := by
  intro n
  induction n with
  | zero => intro idx; exact Nat.le_refl 0
  | succ n ih =>
    intro idx
    unfold hm_probe_loop_count
    have := ih ((idx + 1) &&& mask)
    split
    · omega
    · split
      · omega
      · split <;> omega

/-- The claim C25 fails for the request `2 ^ 63 + 1`, a `u64` value: no number of
iterations ends the rounding loop, and `hm_reserve` on the table just initialised does
not return. -/
theorem C25_counterexample :
    2 ^ 63 + 1 < 2 ^ 64 ∧ ex_init.cap < 2 ^ 63 + 1 ∧
    (¬ ∃ fuel c, hm_reserve_round fuel 1 (2 ^ 63 + 1) = some c) ∧
    hm_reserve 24 true ex_init (2 ^ 63 + 1) = none := by
  refine ⟨by decide, by decide, ?_, ?_⟩
  · rintro ⟨fuel, c, h⟩
    have := round_diverges (2 ^ 63 + 1) (by omega) fuel 0 (by omega)
    rw [Nat.pow_zero, h] at this
    exact absurd this (by simp)
  · have := round_diverges (2 ^ 63 + 1) (by omega) 65 0 (by omega)
    rw [Nat.pow_zero] at this
    unfold hm_reserve _hm_reserve
    rw [if_neg (by decide), this]

/-- C25 (amended). For every table and every requested capacity `new_cap` with
`cap < new_cap ≤ 2 ^ 63`, the rounding loop of `_hm_reserve` terminates (within 64
iterations) with the least power of two that is at least `new_cap`, and `_hm_reserve`
returns; and for every table, hash and key `hm_probe` examines at most `cap` slots. -/
theorem C25_bounded_below_two_pow_63 (es : Nat) (alloc : Bool) (hm : HM K V) (new_cap : Nat)
    (hash : Nat) (key : K) (hgt : hm.cap < new_cap) (hle : new_cap ≤ 2 ^ 63) :
    (∃ c p, hm_reserve_round 65 1 new_cap = some c ∧ c = 2 ^ p ∧ new_cap ≤ c ∧
      ∀ q, new_cap ≤ 2 ^ q → c ≤ 2 ^ q) ∧
    (∃ r, _hm_reserve es alloc hm new_cap = some r) ∧
    hm_probe_examined hm hash key ≤ hm.cap := by
  have hpos : 0 < new_cap := by omega
  refine ⟨?_, reserve_total es alloc hm new_cap hle, ?_⟩
  · obtain ⟨c, hc⟩ := round_total new_cap hle 65 0 (by omega) (by omega)
    obtain ⟨p, hcp, hnc, hprev⟩ := round_least new_cap hpos 65 0 c (by omega) (Or.inl rfl) hc
    rw [Nat.pow_zero] at hc
    refine ⟨c, p, hc, hcp, hnc, fun q hq => ?_⟩
    rw [hcp]
    apply Nat.pow_le_pow_right (by decide)
    rcases hprev with h0 | h1
    · omega
    · have hlt : 2 ^ (p - 1) < 2 ^ q := Nat.lt_of_lt_of_le h1 hq
      have := (Nat.pow_lt_pow_iff_right (by decide : 1 < 2)).mp hlt
      omega
  · unfold hm_probe_examined
    cases hm.data with
    | none => exact Nat.zero_le _
    | some d =>
      simp only
      split
      · exact Nat.zero_le _
      · exact probe_loop_count_le _ _ _ _ _ _

theorem C25_bounded_below_two_pow_63_witness :
    (ex_table.cap < 9 ∧ 9 ≤ 2 ^ 63) ∧
    ((∃ c p, hm_reserve_round 65 1 9 = some c ∧ c = 2 ^ p ∧ 9 ≤ c ∧
      ∀ q, 9 ≤ 2 ^ q → c ≤ 2 ^ q) ∧
    (∃ r, _hm_reserve 24 true ex_table 9 = some r) ∧
    hm_probe_examined ex_table 1 13 ≤ ex_table.cap) :=
  ⟨⟨by decide, by decide⟩,
    C25_bounded_below_two_pow_63 24 true ex_table 9 1 13 (by decide) (by decide)⟩


end Claims11

end Chest
